import Mathlib

/-! Two-level cache simulator (`cache.c`).

A shallow embedding of the cache hierarchy of `src/cache.c`: the address
decoder (`get_index`, `get_tag`, `assemble_addr`), the probe `cache_has`, the
three access routines and `init_cache`, followed by theorems about them.

Conventions of the embedding.

* `uint32_t` and `uint64_t` values are natural numbers; every operation that
  can wrap in C carries an explicit `% 2 ^ 32` or `% 2 ^ 64`.
* The global variables of `cache.c` are the fields of `Globals`; a C function
  that mutates globals is a function from `Globals` to the new `Globals`.
* The heap arrays `tags[index][way]` and `times[index][way]` are lists of rows.
  A read or write outside the allocated rows is undefined in C; here the
  routine returns `none`.
* The pair of pointers `evict_time_pptr` / `evict_tag_pptr` that `cache_has`
  hands back always addresses one way of set `get_index addr`; it is
  represented by that way's number.
-/

namespace CacheSim

/-! ## Data model -/

/-- The C `struct AssocCache`. The three counter pointers `ref_ptr`,
`miss_ptr`, `penalty_ptr` are fixed by `init_cache` to the statistics globals
of the same level, so the access routines below update those globals
directly. -/
structure AssocCache where
  n_set : Nat
  assoc : Nat
  hit_time : Nat
  tags : List (List Nat)
  times : List (List Nat)
  index_len : Nat
  tag_len : Nat
deriving DecidableEq

/-- All global variables of `cache.c`: configuration, statistics, the logical
clock `cur_time` (a `uint64_t`), the three cache levels and `offset_len`. -/
structure Globals where
  icacheSets : Nat
  icacheAssoc : Nat
  icacheHitTime : Nat
  dcacheSets : Nat
  dcacheAssoc : Nat
  dcacheHitTime : Nat
  l2cacheSets : Nat
  l2cacheAssoc : Nat
  l2cacheHitTime : Nat
  inclusive : Nat
  blocksize : Nat
  memspeed : Nat
  icacheRefs : Nat
  icacheMisses : Nat
  icachePenalties : Nat
  dcacheRefs : Nat
  dcacheMisses : Nat
  dcachePenalties : Nat
  l2cacheRefs : Nat
  l2cacheMisses : Nat
  l2cachePenalties : Nat
  cur_time : Nat
  icache : AssocCache
  dcache : AssocCache
  l2cache : AssocCache
  offset_len : Nat
deriving DecidableEq

/-! ## Initialisation -/

/-- Halving loop behind `floor_log2`; the first argument bounds the number of
halvings (32 are enough for a `uint32_t`). -/
def floor_log2_aux : Nat → Nat → Nat
  | 0, _ => 0
  | k + 1, x => if x ≤ 1 then 0 else floor_log2_aux k (x / 2) + 1

/-- Modelled from the spec: the C library calls in `floor(log2(x) + EPS)`
(`math.h` is not part of the sources). Section 4.1 of the specification gives
their meaning: the bit width is `floor(log2(x))`, the epsilon only guards
against `log2` of an exact power of two evaluating slightly low. Defined for
`1 ≤ x < 2 ^ 32`. The integer value is the value of the floating-point
expression on every power of two and on every `x < 2 ^ 27`; from `2 ^ 28 - 1`
on, the epsilon lifts a value just below a power of two to that power (see
`width_exact`). -/
def floor_log2 (x : Nat) : Nat := floor_log2_aux 32 x

/-- Subtraction of two `uint32_t` values. -/
def sub32 (a b : Nat) : Nat := (a + 2 ^ 32 - b % 2 ^ 32) % 2 ^ 32

/-- The C `malloc_cache`: `n_set` rows of `assoc` ways, every timestamp set to
0. `malloc` leaves the tags indeterminate; a tag is only read after its way's
timestamp was found non-zero, that is after the tag was written, so the
initial tags are never observed and the embedding takes 0 for them. Allocation
is assumed to succeed. -/
def malloc_cache (cache : AssocCache) : AssocCache :=
  { cache with
    tags := List.replicate cache.n_set (List.replicate cache.assoc 0)
    times := List.replicate cache.n_set (List.replicate cache.assoc 0) }

/-- The C `init_cache`. It reads the configuration globals, zeroes the nine
statistics counters, replaces an associativity of 0 by 1, derives the bit
widths and allocates the three stores. It does not assign `cur_time`.
`log2(0)` is minus infinity and its conversion to `uint32_t` is undefined, so
the result is `none` when a set count or the block size is 0. -/
def init_cache (g : Globals) : Option Globals :=
  if g.blocksize = 0 ∨ g.icacheSets = 0 ∨ g.dcacheSets = 0 ∨ g.l2cacheSets = 0 then none
  else
    let offset_len := floor_log2 g.blocksize
    let icacheAssoc := if g.icacheAssoc = 0 then 1 else g.icacheAssoc
    let dcacheAssoc := if g.dcacheAssoc = 0 then 1 else g.dcacheAssoc
    let l2cacheAssoc := if g.l2cacheAssoc = 0 then 1 else g.l2cacheAssoc
    let mk := fun (sets assoc hit : Nat) =>
      malloc_cache
        { n_set := sets, assoc := assoc, hit_time := hit, tags := [], times := [],
          index_len := floor_log2 sets,
          tag_len := sub32 (sub32 32 (floor_log2 sets)) offset_len }
    some
      { g with
        icacheRefs := 0, icacheMisses := 0, icachePenalties := 0,
        dcacheRefs := 0, dcacheMisses := 0, dcachePenalties := 0,
        l2cacheRefs := 0, l2cacheMisses := 0, l2cachePenalties := 0,
        offset_len := offset_len,
        icacheAssoc := icacheAssoc, dcacheAssoc := dcacheAssoc, l2cacheAssoc := l2cacheAssoc,
        icache := mk g.icacheSets icacheAssoc g.icacheHitTime,
        dcache := mk g.dcacheSets dcacheAssoc g.dcacheHitTime,
        l2cache := mk g.l2cacheSets l2cacheAssoc g.l2cacheHitTime }

/-! ## Address decoder -/

/-- The C `get_index`: `(addr >> offset_len) & ((1 << index_len) - 1)`. The
mask is computed on `int`; for `index_len = 31` it is taken with
two's-complement wrap-around, `0x7fffffff`. -/
def get_index (offset_len : Nat) (cache : AssocCache) (addr : Nat) : Nat :=
  (addr >>> offset_len) &&& (1 <<< cache.index_len - 1)

/-- The C `get_tag`: `addr >> (32 - tag_len)`, the subtraction being done on
`uint32_t`. C leaves a shift by 32 or more undefined; the embedding gives it
its mathematical value. -/
def get_tag (cache : AssocCache) (addr : Nat) : Nat :=
  addr >>> sub32 32 cache.tag_len

/-- The C `assemble_addr`: `((tag << index_len) | index) << offset_len` on
`uint32_t`. -/
def assemble_addr (offset_len : Nat) (cache : AssocCache) (index tag : Nat) : Nat :=
  ((((tag <<< cache.index_len) % 2 ^ 32) ||| index) <<< offset_len) % 2 ^ 32

/-! ## Probe -/

/-- The `for` loop of `cache_has` over one set, given its row of tags and its
row of timestamps. Arguments: ways still to visit, current way `i`, way `ev`
the eviction pointers address. Result: the way that hit, if any, and the final
eviction way. An iteration reads `times[i]`, `tags[i]` and the timestamp
behind the eviction pointer. C reads `tags[i]` only when `times[i]` is
non-zero and the eviction cell only when the way did not match; the two rows
of a set have the same length and the eviction pointer addresses a way already
visited, so the three reads are in bounds together. -/
def cache_has_loop (tags times : List Nat) (tag : Nat) : Nat → Nat → Nat → Option (Option Nat × Nat)
  | 0, _, ev => some (none, ev)
  | n + 1, i, ev =>
    match times[i]?, tags[i]?, times[ev]? with
    | some t, some g, some te =>
      if t ≠ 0 ∧ g = tag then some (some i, ev)
      else cache_has_loop tags times tag n (i + 1) (if t < te then i else ev)
    | _, _, _ => none

/-- The C `cache_has` on one level. Result: the level after the probe (on a
hit the matched way's timestamp is overwritten with `cur_time`, truncated to
the 32 bits of the cell), `has_flag`, and the way of set `get_index addr` that
the two eviction pointers address. -/
def cache_has (offset_len cur_time : Nat) (cache : AssocCache) (addr : Nat) :
    Option (AssocCache × Bool × Nat) :=
  let index := get_index offset_len cache addr
  let tag := get_tag cache addr
  match cache.tags[index]?, cache.times[index]? with
  | some tg, some tm =>
    match cache_has_loop tg tm tag cache.assoc 0 0 with
    | some (some i, ev) =>
      some ({ cache with times := cache.times.set index (tm.set i (cur_time % 2 ^ 32)) }, true, ev)
    | some (none, ev) => some (cache, false, ev)
    | none => none
  | _, _ => none

/-- A write `m[index][way] = v` through an eviction pointer. -/
def store_write (m : List (List Nat)) (index way v : Nat) : Option (List (List Nat)) :=
  match m[index]? with
  | some row => if way < row.length then some (m.set index (row.set way v)) else none
  | none => none

/-- The two writes `*evict_tag_ptr = get_tag(addr); *evict_time_ptr = cur_time`
that install the line of `addr` in way `ev` of its set. -/
def install (offset_len cur_time : Nat) (cache : AssocCache) (addr ev : Nat) : Option AssocCache :=
  let index := get_index offset_len cache addr
  match store_write cache.tags index ev (get_tag cache addr),
        store_write cache.times index ev (cur_time % 2 ^ 32) with
  | some tags, some times => some { cache with tags := tags, times := times }
  | _, _ => none

/-! ## Access routines -/

/-- The C `l2cache_add`: probe L2 again and install the line in the way the
eviction pointers address. -/
def l2cache_add (g : Globals) (addr : Nat) : Option Globals :=
  match cache_has g.offset_len g.cur_time g.l2cache addr with
  | some (c, _, ev) =>
    match install g.offset_len g.cur_time c addr ev with
    | some c1 => some { g with l2cache := c1 }
    | none => none
  | none => none

/-- The C `l2cache_access`: returns the latency and the new globals. -/
def l2cache_access (g : Globals) (addr : Nat) : Option (Nat × Globals) :=
  let g1 := { g with l2cacheRefs := (g.l2cacheRefs + 1) % 2 ^ 64 }
  match cache_has g1.offset_len g1.cur_time g1.l2cache addr with
  | some (c, true, _) => some (c.hit_time, { g1 with l2cache := c })
  | some (c, false, _) =>
    let g2 := { g1 with
      l2cache := c
      l2cacheMisses := (g1.l2cacheMisses + 1) % 2 ^ 64
      l2cachePenalties := (g1.l2cachePenalties + g1.memspeed) % 2 ^ 64 }
    match l2cache_add g2 addr with
    | some g3 => some ((g3.l2cache.hit_time + g3.memspeed) % 2 ^ 32, g3)
    | none => none
  | none => none

/-- The C `icache_access`: returns the latency and the new globals. -/
def icache_access (g : Globals) (addr : Nat) : Option (Nat × Globals) :=
  let g1 := { g with
    cur_time := (g.cur_time + 1) % 2 ^ 64
    icacheRefs := (g.icacheRefs + 1) % 2 ^ 64 }
  match cache_has g1.offset_len g1.cur_time g1.icache addr with
  | some (c, true, _) => some (c.hit_time, { g1 with icache := c })
  | some (c, false, ev) =>
    match l2cache_access { g1 with icache := c } addr with
    | some (penalty, g2) =>
      match install g2.offset_len g2.cur_time g2.icache addr ev with
      | some c1 =>
        some ((g2.icache.hit_time + penalty) % 2 ^ 32,
          { g2 with
            icacheMisses := (g2.icacheMisses + 1) % 2 ^ 64
            icachePenalties := (g2.icachePenalties + penalty) % 2 ^ 64
            icache := c1 })
      | none => none
    | none => none
  | none => none

/-- The C `dcache_access`: returns the latency and the new globals. -/
def dcache_access (g : Globals) (addr : Nat) : Option (Nat × Globals) :=
  let g1 := { g with
    cur_time := (g.cur_time + 1) % 2 ^ 64
    dcacheRefs := (g.dcacheRefs + 1) % 2 ^ 64 }
  match cache_has g1.offset_len g1.cur_time g1.dcache addr with
  | some (c, true, _) => some (c.hit_time, { g1 with dcache := c })
  | some (c, false, ev) =>
    match l2cache_access { g1 with dcache := c } addr with
    | some (penalty, g2) =>
      match install g2.offset_len g2.cur_time g2.dcache addr ev with
      | some c1 =>
        some ((g2.dcache.hit_time + penalty) % 2 ^ 32,
          { g2 with
            dcacheMisses := (g2.dcacheMisses + 1) % 2 ^ 64
            dcachePenalties := (g2.dcachePenalties + penalty) % 2 ^ 64
            dcache := c1 })
      | none => none
    | none => none
  | none => none

/-- The configuration and start-up state of the scenario of section 8: one
set, one way per level, hit times 1 / 1 / 10, block size 1, memory latency
100; statistics and clock at their static initial value 0, no store
allocated yet. -/
def scenario : Globals :=
  { icacheSets := 1, icacheAssoc := 1, icacheHitTime := 1,
    dcacheSets := 1, dcacheAssoc := 1, dcacheHitTime := 1,
    l2cacheSets := 1, l2cacheAssoc := 1, l2cacheHitTime := 10,
    inclusive := 0, blocksize := 1, memspeed := 100,
    icacheRefs := 0, icacheMisses := 0, icachePenalties := 0,
    dcacheRefs := 0, dcacheMisses := 0, dcachePenalties := 0,
    l2cacheRefs := 0, l2cacheMisses := 0, l2cachePenalties := 0,
    cur_time := 0,
    icache := ⟨0, 0, 0, [], [], 0, 0⟩,
    dcache := ⟨0, 0, 0, [], [], 0, 0⟩,
    l2cache := ⟨0, 0, 0, [], [], 0, 0⟩,
    offset_len := 0 }

/-- The scenario right after `init_cache`: every level has one set of one
empty way, no index bits and 32 tag bits. -/
def scenario_fresh : Globals :=
  { scenario with
    icache := ⟨1, 1, 1, [[0]], [[0]], 0, 32⟩
    dcache := ⟨1, 1, 1, [[0]], [[0]], 0, 32⟩
    l2cache := ⟨1, 1, 10, [[0]], [[0]], 0, 32⟩ }

/-- The scenario after `init_cache` and one `icache_access(0)`, which missed in
the icache and in L2. -/
def scenario_once : Globals :=
  { scenario_fresh with
    icacheRefs := 1, icacheMisses := 1, icachePenalties := 110,
    l2cacheRefs := 1, l2cacheMisses := 1, l2cachePenalties := 100,
    cur_time := 1,
    icache := ⟨1, 1, 1, [[0]], [[1]], 0, 32⟩
    l2cache := ⟨1, 1, 10, [[0]], [[1]], 0, 32⟩ }

/-- A trace made only of instruction fetches: `icache_access` on each address
in turn, the latencies being dropped. -/
def run_icache : Globals → List Nat → Option Globals
  | g, [] => some g
  | g, addr :: rest =>
    match icache_access g addr with
    | some (_, g1) => run_icache g1 rest
    | none => none

/-- A trace made only of data accesses: `dcache_access` on each address in
turn, the latencies being dropped. -/
def run_dcache : Globals → List Nat → Option Globals
  | g, [] => some g
  | g, addr :: rest =>
    match dcache_access g addr with
    | some (_, g1) => run_dcache g1 rest
    | none => none

/-- A `uint32_t` value is a power of two. -/
def is_power_of_two (x : Nat) : Prop := ∃ k, k < 32 ∧ x = 2 ^ k

instance (x : Nat) : Decidable (is_power_of_two x) := by
  unfold is_power_of_two; infer_instance

/-- Values on which `floor_log2` is what `floor(log2(x) + EPS)` yields in C:
the powers of two, and the non-zero values below `2 ^ 27` (there `log2(x)`
stays more than `EPS` below the next integer). -/
def width_exact (x : Nat) : Prop := is_power_of_two x ∨ (0 < x ∧ x < 2 ^ 27)

instance (x : Nat) : Decidable (width_exact x) := by
  unfold width_exact; infer_instance

/-- Configurations on which `init_cache` and the address decoder have defined
behaviour that the embedding reproduces: block size and set counts are in
`width_exact`, and for every level the index and offset bits together are
fewer than 32, so that `get_tag` shifts by less than the width of the
address. Associativities, hit times, memory latency and the inclusive flag are
free. -/
def config_ok (g : Globals) : Prop :=
  width_exact g.blocksize ∧ width_exact g.icacheSets ∧ width_exact g.dcacheSets ∧
  width_exact g.l2cacheSets ∧
  floor_log2 g.icacheSets + floor_log2 g.blocksize < 32 ∧
  floor_log2 g.dcacheSets + floor_log2 g.blocksize < 32 ∧
  floor_log2 g.l2cacheSets + floor_log2 g.blocksize < 32

instance (g : Globals) : Decidable (config_ok g) := by
  unfold config_ok; infer_instance

/-- The start-up state of the scenario with three sets in the instruction
cache. -/
def three_sets : Globals := { scenario with icacheSets := 3 }

/-- The state `init_cache` makes of `three_sets`: three rows in the
instruction cache, one index bit, 31 tag bits. -/
def three_sets_fresh : Globals :=
  { scenario_fresh with
    icacheSets := 3
    icache := ⟨3, 1, 1, [[0], [0], [0]], [[0], [0], [0]], 1, 31⟩ }

/-- A level of one set and one way whose way holds the line of address 0,
stamped at time 1. -/
def held_line : AssocCache := ⟨1, 1, 1, [[0]], [[1]], 0, 32⟩

/-- No statistics counter wraps in the next access: each of the nine 64-bit
counters has room for the largest amount one access adds to it (1 to a
reference or miss counter, the L2 latency to a first-level penalty counter,
`memspeed` to the L2 penalty counter). -/
def no_overflow (g : Globals) : Prop :=
  g.icacheRefs + 1 < 2 ^ 64 ∧ g.icacheMisses + 1 < 2 ^ 64 ∧
  g.icachePenalties + g.l2cache.hit_time < 2 ^ 64 ∧
  g.icachePenalties + (g.l2cache.hit_time + g.memspeed) % 2 ^ 32 < 2 ^ 64 ∧
  g.dcacheRefs + 1 < 2 ^ 64 ∧ g.dcacheMisses + 1 < 2 ^ 64 ∧
  g.dcachePenalties + g.l2cache.hit_time < 2 ^ 64 ∧
  g.dcachePenalties + (g.l2cache.hit_time + g.memspeed) % 2 ^ 32 < 2 ^ 64 ∧
  g.l2cacheRefs + 1 < 2 ^ 64 ∧ g.l2cacheMisses + 1 < 2 ^ 64 ∧
  g.l2cachePenalties + g.memspeed < 2 ^ 64

instance (g : Globals) : Decidable (no_overflow g) := by
  unfold no_overflow; infer_instance

/-! ## Residency and well-formedness -/

/-- Way `k` of a set (given by its rows) is occupied and holds `tag`: the test
`times[index][k] != 0 && tags[index][k] == tag` of `cache_has`. -/
def way_matches (tags times : List Nat) (tag k : Nat) : Prop :=
  times.getD k 0 ≠ 0 ∧ tags.getD k 0 = tag

instance (tags times : List Nat) (tag k : Nat) : Decidable (way_matches tags times tag k) := by
  unfold way_matches; infer_instance

/-- The line of `addr` is resident in the level: some occupied way of set
`get_index addr` holds `get_tag addr`. -/
def resident (offset_len : Nat) (cache : AssocCache) (addr : Nat) : Prop :=
  ∃ k, k < cache.assoc ∧
    way_matches (cache.tags.getD (get_index offset_len cache addr) [])
      (cache.times.getD (get_index offset_len cache addr) []) (get_tag cache addr) k

instance (offset_len : Nat) (cache : AssocCache) (addr : Nat) :
    Decidable (resident offset_len cache addr) := by
  unfold resident; infer_instance

/-- Every timestamp of the level is 0: all ways are empty. -/
def all_empty (c : AssocCache) : Prop := ∀ row ∈ c.times, ∀ t ∈ row, t = 0

instance (c : AssocCache) : Decidable (all_empty c) := by
  unfold all_empty; infer_instance

/-- The shape `malloc_cache` gives a level and every access keeps: `n_set`
rows of `assoc` ways in both arrays, at least one way, and every value of
`get_index` below `n_set`. -/
def AssocCache.WF (c : AssocCache) : Prop :=
  c.tags.length = c.n_set ∧ c.times.length = c.n_set ∧
  (∀ r ∈ c.tags, r.length = c.assoc) ∧ (∀ r ∈ c.times, r.length = c.assoc) ∧
  0 < c.assoc ∧ 2 ^ c.index_len ≤ c.n_set

instance (c : AssocCache) : Decidable c.WF := by
  unfold AssocCache.WF; infer_instance

/-- Well-formed globals: the three levels are well formed and carry the hit
times of the configuration, as `init_cache` leaves them. -/
def Globals.WF (g : Globals) : Prop :=
  g.icache.WF ∧ g.dcache.WF ∧ g.l2cache.WF ∧
  g.icache.hit_time = g.icacheHitTime ∧ g.dcache.hit_time = g.dcacheHitTime ∧
  g.l2cache.hit_time = g.l2cacheHitTime

instance (g : Globals) : Decidable g.WF := by
  unfold Globals.WF; infer_instance

/-- States reached from a start-up state with the clock at its static initial
value 0 and a configuration in `config_ok` by `init_cache` followed by `n`
first-level accesses to 32-bit addresses. -/
inductive Reachable : Nat → Globals → Prop
  | init (g0 g : Globals) : g0.cur_time = 0 → config_ok g0 → init_cache g0 = some g →
      Reachable 0 g
  | icache (n : Nat) (g g1 : Globals) (addr r : Nat) : Reachable n g → addr < 2 ^ 32 →
      icache_access g addr = some (r, g1) → Reachable (n + 1) g1
  | dcache (n : Nat) (g g1 : Globals) (addr r : Nat) : Reachable n g → addr < 2 ^ 32 →
      dcache_access g addr = some (r, g1) → Reachable (n + 1) g1

/-- The level after a hit on way `i` of the set of `addr`: only
`times[index][i]` is overwritten, with the clock truncated to 32 bits. -/
def stamp (offset_len cur_time : Nat) (c : AssocCache) (addr i : Nat) : AssocCache :=
  { c with
    times := c.times.set (get_index offset_len c addr)
      ((c.times.getD (get_index offset_len c addr) []).set i (cur_time % 2 ^ 32)) }

/-- The level after the line of `addr` was installed in way `ev` of its set. -/
def installed (offset_len cur_time : Nat) (c : AssocCache) (addr ev : Nat) : AssocCache :=
  { c with
    tags := c.tags.set (get_index offset_len c addr)
      ((c.tags.getD (get_index offset_len c addr) []).set ev (get_tag c addr))
    times := c.times.set (get_index offset_len c addr)
      ((c.times.getD (get_index offset_len c addr) []).set ev (cur_time % 2 ^ 32)) }

/-- Globals after `l2cache_access` hit way `i`. -/
def l2_hit_state (g : Globals) (addr i : Nat) : Globals :=
  { g with
    l2cacheRefs := (g.l2cacheRefs + 1) % 2 ^ 64
    l2cache := stamp g.offset_len g.cur_time g.l2cache addr i }

/-- Globals after `l2cache_access` missed and installed the line in way `ev`. -/
def l2_miss_state (g : Globals) (addr ev : Nat) : Globals :=
  { g with
    l2cacheRefs := (g.l2cacheRefs + 1) % 2 ^ 64
    l2cacheMisses := (g.l2cacheMisses + 1) % 2 ^ 64
    l2cachePenalties := (g.l2cachePenalties + g.memspeed) % 2 ^ 64
    l2cache := installed g.offset_len g.cur_time g.l2cache addr ev }

/-- Globals after the first two statements of `icache_access`. -/
def icache_tick (g : Globals) : Globals :=
  { g with
    cur_time := (g.cur_time + 1) % 2 ^ 64
    icacheRefs := (g.icacheRefs + 1) % 2 ^ 64 }

/-- Globals after the first two statements of `dcache_access`. -/
def dcache_tick (g : Globals) : Globals :=
  { g with
    cur_time := (g.cur_time + 1) % 2 ^ 64
    dcacheRefs := (g.dcacheRefs + 1) % 2 ^ 64 }

/-- Globals after `icache_access` hit way `i`. -/
def icache_hit_state (g : Globals) (addr i : Nat) : Globals :=
  { icache_tick g with
    icache := stamp g.offset_len ((g.cur_time + 1) % 2 ^ 64) g.icache addr i }

/-- Globals after `dcache_access` hit way `i`. -/
def dcache_hit_state (g : Globals) (addr i : Nat) : Globals :=
  { dcache_tick g with
    dcache := stamp g.offset_len ((g.cur_time + 1) % 2 ^ 64) g.dcache addr i }

/-- Globals after `icache_access` missed: `g2` are the globals `l2cache_access`
returned together with `penalty`, `ev` is the way the eviction pointers
address. -/
def icache_miss_state (g2 : Globals) (addr ev penalty : Nat) : Globals :=
  { g2 with
    icacheMisses := (g2.icacheMisses + 1) % 2 ^ 64
    icachePenalties := (g2.icachePenalties + penalty) % 2 ^ 64
    icache := installed g2.offset_len g2.cur_time g2.icache addr ev }

/-- Globals after `dcache_access` missed, as `icache_miss_state`. -/
def dcache_miss_state (g2 : Globals) (addr ev penalty : Nat) : Globals :=
  { g2 with
    dcacheMisses := (g2.dcacheMisses + 1) % 2 ^ 64
    dcachePenalties := (g2.dcachePenalties + penalty) % 2 ^ 64
    dcache := installed g2.offset_len g2.cur_time g2.dcache addr ev }

/-- The timestamp cell `times[s][w]` of a level; 0 outside the allocated
store. -/
def time_at (c : AssocCache) (s w : Nat) : Nat := (c.times.getD s []).getD w 0

/-- The tag cell `tags[s][w]` of a level; 0 outside the allocated store. -/
def tag_at (c : AssocCache) (s w : Nat) : Nat := (c.tags.getD s []).getD w 0

/-- Way `ev` is the victim among the first `n` ways of a row of timestamps:
its timestamp is minimal, and strictly below that of every way of lower
index. -/
def first_min (times : List Nat) (n ev : Nat) : Prop :=
  ev < n ∧ (∀ k, k < n → times.getD ev 0 ≤ times.getD k 0) ∧
  (∀ k, k < ev → times.getD ev 0 < times.getD k 0)

instance (times : List Nat) (n ev : Nat) : Decidable (first_min times n ev) := by
  unfold first_min; infer_instance

/-- What an access does to the store of the level it is directed at: probe
with `cache_has`; on a hit keep the refreshed level, on a miss install the
line in the way the eviction pointers address. This is the effect of
`icache_access` on the icache, of `dcache_access` on the dcache and of
`l2cache_access` (with `l2cache_add`) on L2. -/
def probe_commit (offset_len cur_time : Nat) (c : AssocCache) (addr : Nat) : Option AssocCache :=
  match cache_has offset_len cur_time c addr with
  | some (c1, true, _) => some c1
  | some (c1, false, ev) => install offset_len cur_time c1 addr ev
  | none => none

/-- A level of one set and four ways: ways 0 and 2 occupied (stamped 3 and
5), ways 1 and 3 empty. -/
def mixed_set : AssocCache := ⟨1, 4, 1, [[7, 8, 9, 0]], [[3, 0, 5, 0]], 0, 32⟩

/-- The scenario after `init_cache`, taken far into a run: the 64-bit clock
stands at `2^32 + 5`. -/
def late_clock : Globals := { scenario_fresh with cur_time := 2 ^ 32 + 5 }

/-- One entry of a trace: an instruction fetch or a data access at an
address. -/
inductive Access where
  | ifetch (addr : Nat)
  | data (addr : Nat)
deriving DecidableEq

/-- A sequence of first-level accesses: `icache_access` or `dcache_access` on
each entry in turn; the result is the list of returned latencies and the final
globals. -/
def run_trace : Globals → List Access → Option (List Nat × Globals)
  | g, [] => some ([], g)
  | g, Access.ifetch addr :: rest =>
    match icache_access g addr with
    | some (r, g1) =>
      match run_trace g1 rest with
      | some (rs, g2) => some (r :: rs, g2)
      | none => none
    | none => none
  | g, Access.data addr :: rest =>
    match dcache_access g addr with
    | some (r, g1) =>
      match run_trace g1 rest with
      | some (rs, g2) => some (r :: rs, g2)
      | none => none
    | none => none

/-- The scenario configured with associativity 0 at every level. -/
def zero_assoc : Globals :=
  { scenario with icacheAssoc := 0, dcacheAssoc := 0, l2cacheAssoc := 0 }

/-- The store of a level has the shape `malloc_cache` allocates: `n_set` rows
of `assoc` cells in both arrays. -/
def allocated (c : AssocCache) : Prop :=
  c.tags.length = c.n_set ∧ c.times.length = c.n_set ∧
  (∀ r ∈ c.tags, r.length = c.assoc) ∧ (∀ r ∈ c.times, r.length = c.assoc)

instance (c : AssocCache) : Decidable (allocated c) := by
  unfold allocated; infer_instance

/-- Start-up state of the example of a broken inclusion: the scenario with the
inclusive flag set and a two-way instruction cache over a one-way L2. -/
def incl_config : Globals := { scenario with inclusive := 1, icacheAssoc := 2 }

/-- `incl_config` after `init_cache`. -/
def incl_fresh : Globals :=
  { incl_config with
    icache := ⟨1, 2, 1, [[0, 0]], [[0, 0]], 0, 32⟩
    dcache := ⟨1, 1, 1, [[0]], [[0]], 0, 32⟩
    l2cache := ⟨1, 1, 10, [[0]], [[0]], 0, 32⟩ }

/-- `incl_fresh` after `icache_access(0)`. -/
def incl_one : Globals :=
  { incl_fresh with
    icacheRefs := 1, icacheMisses := 1, icachePenalties := 110,
    l2cacheRefs := 1, l2cacheMisses := 1, l2cachePenalties := 100,
    cur_time := 1,
    icache := ⟨1, 2, 1, [[0, 0]], [[1, 0]], 0, 32⟩
    l2cache := ⟨1, 1, 10, [[0]], [[1]], 0, 32⟩ }

/-- `incl_one` after `icache_access(1)`: the icache holds the lines of 0 and
1, the single way of L2 holds the line of 1. -/
def incl_two : Globals :=
  { incl_one with
    icacheRefs := 2, icacheMisses := 2, icachePenalties := 220,
    l2cacheRefs := 2, l2cacheMisses := 2, l2cachePenalties := 200,
    cur_time := 2,
    icache := ⟨1, 2, 1, [[0, 1]], [[1, 2]], 0, 32⟩
    l2cache := ⟨1, 1, 10, [[1]], [[2]], 0, 32⟩ }

/-- No statistics counter wrapped in the step from `g` to `g1`: a 64-bit
counter to which less than `2^64` is added wraps exactly when its new value is
below the old one, so this says that each of the nine counters is at least
what it was. -/
def counters_le (g g1 : Globals) : Prop :=
  g.icacheRefs ≤ g1.icacheRefs ∧ g.icacheMisses ≤ g1.icacheMisses ∧
  g.icachePenalties ≤ g1.icachePenalties ∧
  g.dcacheRefs ≤ g1.dcacheRefs ∧ g.dcacheMisses ≤ g1.dcacheMisses ∧
  g.dcachePenalties ≤ g1.dcachePenalties ∧
  g.l2cacheRefs ≤ g1.l2cacheRefs ∧ g.l2cacheMisses ≤ g1.l2cacheMisses ∧
  g.l2cachePenalties ≤ g1.l2cachePenalties

instance (g g1 : Globals) : Decidable (counters_le g g1) := by
  unfold counters_le; infer_instance

/-- The states of `Reachable` that are reached without any 64-bit statistics
counter overflowing on the way. -/
inductive ReachableNoWrap : Nat → Globals → Prop
  | init (g0 g : Globals) : g0.cur_time = 0 → config_ok g0 → init_cache g0 = some g →
      ReachableNoWrap 0 g
  | icache (n : Nat) (g g1 : Globals) (addr r : Nat) : ReachableNoWrap n g → addr < 2 ^ 32 →
      icache_access g addr = some (r, g1) → counters_le g g1 → ReachableNoWrap (n + 1) g1
  | dcache (n : Nat) (g g1 : Globals) (addr r : Nat) : ReachableNoWrap n g → addr < 2 ^ 32 →
      dcache_access g addr = some (r, g1) → counters_le g g1 → ReachableNoWrap (n + 1) g1

/-- No duplicate residents in a level: in no set do two distinct occupied ways
(timestamp not 0) hold the same tag. Cells outside the allocated store read as
empty, so the way numbers need no bound. -/
def no_dup (c : AssocCache) : Prop :=
  ∀ s i j, i ≠ j → time_at c s i ≠ 0 → time_at c s j ≠ 0 → tag_at c s i ≠ tag_at c s j

/-- The timestamps of a level at clock value `ct`: none exceeds `ct`, and two
distinct ways of a set carry the same timestamp only when it is 0. -/
def times_ok (ct : Nat) (c : AssocCache) : Prop :=
  (∀ s i, time_at c s i ≤ ct) ∧
  (∀ s i j, i ≠ j → time_at c s i = time_at c s j → time_at c s i = 0)

/-- What a trace entry is for the instruction cache: the address fetched, or
nothing for a data access. -/
def icache_event : Access → Option Nat
  | Access.ifetch addr => some addr
  | Access.data _ => none

/-- What a trace entry is for the data cache: the address accessed, or nothing
for an instruction fetch. -/
def dcache_event : Access → Option Nat
  | Access.ifetch _ => none
  | Access.data addr => some addr

/-- The store of one first-level cache along a trace, started at clock value
`t`: every entry advances the 64-bit clock by one; an entry directed at this
cache is a `probe_commit` at the new clock value, an entry directed at the
other first-level cache leaves the store alone. -/
def level_run (offset_len : Nat) : Nat → AssocCache → List (Option Nat) → Option AssocCache
  | _, c, [] => some c
  | t, c, none :: rest => level_run offset_len ((t + 1) % 2 ^ 64) c rest
  | t, c, some x :: rest =>
    match probe_commit offset_len ((t + 1) % 2 ^ 64) c x with
    | some c1 => level_run offset_len ((t + 1) % 2 ^ 64) c1 rest
    | none => none

/-- The distinct tags, other than the tag of `a`, of the accesses among `evs`
that map to the set of `a`; addresses are decoded with the geometry of `c`. -/
def other_tags (offset_len : Nat) (c : AssocCache) (a : Nat) : List (Option Nat) → Finset Nat
  | [] => ∅
  | none :: rest => other_tags offset_len c a rest
  | some x :: rest =>
    if get_index offset_len c x = get_index offset_len c a ∧ get_tag c x ≠ get_tag c a then
      insert (get_tag c x) (other_tags offset_len c a rest)
    else other_tags offset_len c a rest

/-- Start-up state of the example of a conflict miss that costs no more than a
hit: the scenario with an L2 of four sets and hit time 0. -/
def zero_l2_config : Globals := { scenario with l2cacheSets := 4, l2cacheHitTime := 0 }

/-- `zero_l2_config` after `init_cache`: L2 has four sets of one way, two index
bits and 30 tag bits. -/
def zero_l2_fresh : Globals :=
  { zero_l2_config with
    icache := ⟨1, 1, 1, [[0]], [[0]], 0, 32⟩
    dcache := ⟨1, 1, 1, [[0]], [[0]], 0, 32⟩
    l2cache := ⟨4, 1, 0, [[0], [0], [0], [0]], [[0], [0], [0], [0]], 2, 30⟩ }

/-- `zero_l2_fresh` after `icache_access(0)`, a miss in the icache and in L2
set 0. -/
def zero_l2_one : Globals :=
  { zero_l2_fresh with
    icacheRefs := 1, icacheMisses := 1, icachePenalties := 100,
    l2cacheRefs := 1, l2cacheMisses := 1, l2cachePenalties := 100,
    cur_time := 1,
    icache := ⟨1, 1, 1, [[0]], [[1]], 0, 32⟩
    l2cache := ⟨4, 1, 0, [[0], [0], [0], [0]], [[1], [0], [0], [0]], 2, 30⟩ }

/-- `zero_l2_one` after `icache_access(1)`, a miss in the icache and in L2
set 1; the line of 0 is gone from the icache and still in L2. -/
def zero_l2_two : Globals :=
  { zero_l2_one with
    icacheRefs := 2, icacheMisses := 2, icachePenalties := 200,
    l2cacheRefs := 2, l2cacheMisses := 2, l2cachePenalties := 200,
    cur_time := 2,
    icache := ⟨1, 1, 1, [[1]], [[2]], 0, 32⟩
    l2cache := ⟨4, 1, 0, [[0], [0], [0], [0]], [[1], [2], [0], [0]], 2, 30⟩ }

/-- `zero_l2_two` after the second `icache_access(0)`, a miss in the icache
served by an L2 hit of latency 0. -/
def zero_l2_three : Globals :=
  { zero_l2_two with
    icacheRefs := 3, icacheMisses := 3,
    l2cacheRefs := 3,
    cur_time := 3,
    icache := ⟨1, 1, 1, [[0]], [[3]], 0, 32⟩
    l2cache := ⟨4, 1, 0, [[0], [0], [0], [0]], [[3], [2], [0], [0]], 2, 30⟩ }

/-- Start-up state of the example of a miss latency that wraps: the scenario
with L2 hit time 1 and memory latency `2^32 - 2`, so that icache hit time + L2
hit time + memory latency is `2^32`. -/
def wrap_config : Globals := { scenario with l2cacheHitTime := 1, memspeed := 4294967294 }

/-- `wrap_config` after `init_cache`. -/
def wrap_fresh : Globals :=
  { wrap_config with
    icache := ⟨1, 1, 1, [[0]], [[0]], 0, 32⟩
    dcache := ⟨1, 1, 1, [[0]], [[0]], 0, 32⟩
    l2cache := ⟨1, 1, 1, [[0]], [[0]], 0, 32⟩ }

/-! ## The probe loop -/

theorem get_index_lt (offset_len : Nat) (c : AssocCache) (addr : Nat) :
    get_index offset_len c addr < 2 ^ c.index_len := by
  unfold get_index
  rw [Nat.one_shiftLeft]
  exact Nat.and_lt_two_pow _ (Nat.sub_lt (Nat.pos_pow_of_pos _ (by decide)) (by decide))

theorem cache_has_loop_spec (tg tm : List Nat) (tag : Nat) :
    ∀ n i ev, i + n ≤ tm.length → i + n ≤ tg.length → ev ≤ i →
      ∃ r ev1, cache_has_loop tg tm tag n i ev = some (r, ev1) ∧
        (ev1 = ev ∨ (i ≤ ev1 ∧ ev1 < i + n)) ∧
        (∀ j, r = some j → i ≤ j ∧ j < i + n ∧ way_matches tg tm tag j ∧
          ∀ k, i ≤ k → k < j → ¬ way_matches tg tm tag k) ∧
        (r = none → ∀ k, i ≤ k → k < i + n → ¬ way_matches tg tm tag k) := by
  intro n
  induction n with
  | zero =>
    intro i ev _ _ _
    refine ⟨none, ev, rfl, Or.inl rfl, ?_, ?_⟩
    · intro j hj; cases hj
    · intro _ k h1 h2; omega
  | succ n ih =>
    intro i ev h1 h2 h3
    have hi1 : i < tm.length := by omega
    have hi2 : i < tg.length := by omega
    have he : ev < tm.length := by omega
    have e1 : tm[i]? = some tm[i] := List.getElem?_eq_getElem hi1
    have e2 : tg[i]? = some tg[i] := List.getElem?_eq_getElem hi2
    have e3 : tm[ev]? = some tm[ev] := List.getElem?_eq_getElem he
    have d1 : tm.getD i 0 = tm[i] := by simp [List.getD_eq_getElem?_getD, e1]
    have d2 : tg.getD i 0 = tg[i] := by simp [List.getD_eq_getElem?_getD, e2]
    unfold cache_has_loop
    rw [e1, e2, e3]
    by_cases hm : tm[i] ≠ 0 ∧ tg[i] = tag
    · refine ⟨some i, ev, by simp [hm], Or.inl rfl, ?_, ?_⟩
      · intro j hj
        cases hj
        refine ⟨le_refl _, by omega, ?_, ?_⟩
        · unfold way_matches; rw [d1, d2]; exact hm
        · intro k hk1 hk2; omega
      · intro h; cases h
    · obtain ⟨r, ev1, hr, hev, hhit, hmiss⟩ :=
        ih (i + 1) (if tm[i] < tm[ev] then i else ev) (by omega) (by omega)
          (by split <;> omega)
      refine ⟨r, ev1, by simp only [hm, if_false]; exact hr, ?_, ?_, ?_⟩
      · rcases hev with h | h
        · by_cases hlt : tm[i] < tm[ev]
          · simp only [hlt, if_true] at h; right; omega
          · simp only [hlt, if_false] at h; left; exact h
        · right; omega
      · intro j hj
        obtain ⟨a1, a2, a3, a4⟩ := hhit j hj
        refine ⟨by omega, by omega, a3, ?_⟩
        intro k hk1 hk2
        by_cases hki : k = i
        · subst hki; unfold way_matches; rw [d1, d2]; exact hm
        · exact a4 k (by omega) hk2
      · intro hn k hk1 hk2
        by_cases hki : k = i
        · subst hki; unfold way_matches; rw [d1, d2]; exact hm
        · exact hmiss hn k (by omega) (by omega)

theorem cache_has_loop_hit (tg tm : List Nat) (tag : Nat) :
    ∀ n i ev j ev1, cache_has_loop tg tm tag n i ev = some (some j, ev1) →
      way_matches tg tm tag j := by
  intro n
  induction n with
  | zero =>
    intro i ev j ev1 h
    unfold cache_has_loop at h
    cases h
  | succ n ih =>
    intro i ev j ev1 h
    unfold cache_has_loop at h
    split at h
    · rename_i t g te h1 h2 h3
      split at h
      · rename_i hm
        cases h
        unfold way_matches
        simp only [List.getD_eq_getElem?_getD, h1, h2, Option.getD_some]
        exact hm
      · exact ih _ _ _ _ h
    · cases h

/-! ## One level: probe and install -/

theorem WF_rows (c : AssocCache) (h : c.WF) (offset_len addr : Nat) :
    c.tags[get_index offset_len c addr]? = some (c.tags.getD (get_index offset_len c addr) []) ∧
    c.times[get_index offset_len c addr]? = some (c.times.getD (get_index offset_len c addr) []) ∧
    (c.tags.getD (get_index offset_len c addr) []).length = c.assoc ∧
    (c.times.getD (get_index offset_len c addr) []).length = c.assoc := by
  obtain ⟨h1, h2, h3, h4, _, h6⟩ := h
  have hlt := get_index_lt offset_len c addr
  have i1 : get_index offset_len c addr < c.tags.length := by omega
  have i2 : get_index offset_len c addr < c.times.length := by omega
  have e1 := List.getElem?_eq_getElem i1
  have e2 := List.getElem?_eq_getElem i2
  refine ⟨?_, ?_, ?_, ?_⟩
  · simp [e1]
  · simp [e2]
  · simp only [List.getD_eq_getElem?_getD, e1, Option.getD_some]
    exact h3 _ (List.getElem_mem _)
  · simp only [List.getD_eq_getElem?_getD, e2, Option.getD_some]
    exact h4 _ (List.getElem_mem _)

theorem cache_has_spec (offset_len cur_time : Nat) (c : AssocCache) (addr : Nat) (h : c.WF) :
    ∃ c1 flag ev, cache_has offset_len cur_time c addr = some (c1, flag, ev) ∧ ev < c.assoc ∧
      (flag = false → c1 = c ∧ ¬ resident offset_len c addr) ∧
      (flag = true → ∃ i, i < c.assoc ∧
        way_matches (c.tags.getD (get_index offset_len c addr) [])
          (c.times.getD (get_index offset_len c addr) []) (get_tag c addr) i ∧
        (∀ k, k < i → ¬ way_matches (c.tags.getD (get_index offset_len c addr) [])
          (c.times.getD (get_index offset_len c addr) []) (get_tag c addr) k) ∧
        c1 = stamp offset_len cur_time c addr i) := by
  obtain ⟨r1, r2, r3, r4⟩ := WF_rows c h offset_len addr
  obtain ⟨r, ev, hl, hev, hhit, hmiss⟩ :=
    cache_has_loop_spec (c.tags.getD (get_index offset_len c addr) [])
      (c.times.getD (get_index offset_len c addr) []) (get_tag c addr) c.assoc 0 0
      (by omega) (by omega) (le_refl _)
  have hpos : 0 < c.assoc := h.2.2.2.2.1
  have hev1 : ev < c.assoc := by omega
  unfold cache_has
  simp only [r1, r2, hl]
  cases r with
  | none =>
    refine ⟨c, false, ev, rfl, hev1, ?_, ?_⟩
    · intro _
      refine ⟨rfl, ?_⟩
      rintro ⟨k, hk, hw⟩
      exact hmiss rfl k (Nat.zero_le _) (by omega) hw
    · intro hf; cases hf
  | some i =>
    obtain ⟨_, a2, a3, a4⟩ := hhit i rfl
    refine ⟨_, true, ev, rfl, hev1, ?_, ?_⟩
    · intro hf; cases hf
    · intro _
      exact ⟨i, by omega, a3, fun k hk => a4 k (Nat.zero_le _) hk, rfl⟩

theorem cache_has_flag_iff (offset_len cur_time : Nat) (c c1 : AssocCache) (addr ev : Nat)
    (flag : Bool) (h : c.WF) (hc : cache_has offset_len cur_time c addr = some (c1, flag, ev)) :
    flag = true ↔ resident offset_len c addr := by
  obtain ⟨c2, flag2, ev2, e, _, hf, ht⟩ := cache_has_spec offset_len cur_time c addr h
  rw [e] at hc
  cases hc
  cases flag with
  | false => simp [(hf rfl).2]
  | true =>
    obtain ⟨i, hi, hw, _, _⟩ := ht rfl
    simp only [true_iff]
    exact ⟨i, hi, hw⟩

theorem stamp_WF (offset_len cur_time : Nat) (c : AssocCache) (addr i : Nat) (h : c.WF) :
    (stamp offset_len cur_time c addr i).WF := by
  obtain ⟨_, _, _, r4⟩ := WF_rows c h offset_len addr
  obtain ⟨h1, h2, h3, h4, h5, h6⟩ := h
  refine ⟨h1, ?_, h3, ?_, h5, h6⟩
  · simp [stamp, h2]
  · intro r hr
    rcases List.mem_or_eq_of_mem_set hr with hr1 | hr1
    · exact h4 r hr1
    · rw [hr1, List.length_set]; exact r4

theorem store_write_spec (m : List (List Nat)) (index way v : Nat)
    (hi : m[index]? = some (m.getD index [])) (hw : way < (m.getD index []).length) :
    store_write m index way v = some (m.set index ((m.getD index []).set way v)) := by
  unfold store_write
  rw [hi]
  simp only [hw, if_true]

theorem install_spec (offset_len cur_time : Nat) (c : AssocCache) (addr ev : Nat) (h : c.WF)
    (hev : ev < c.assoc) :
    install offset_len cur_time c addr ev = some (installed offset_len cur_time c addr ev) := by
  obtain ⟨r1, r2, r3, r4⟩ := WF_rows c h offset_len addr
  unfold install
  simp only []
  rw [store_write_spec _ _ _ _ r1 (by omega), store_write_spec _ _ _ _ r2 (by omega)]
  rfl

theorem installed_WF (offset_len cur_time : Nat) (c : AssocCache) (addr ev : Nat) (h : c.WF) :
    (installed offset_len cur_time c addr ev).WF := by
  obtain ⟨_, _, r3, r4⟩ := WF_rows c h offset_len addr
  obtain ⟨h1, h2, h3, h4, h5, h6⟩ := h
  refine ⟨?_, ?_, ?_, ?_, h5, h6⟩
  · simp [installed, h1]
  · simp [installed, h2]
  · intro r hr
    rcases List.mem_or_eq_of_mem_set hr with hr1 | hr1
    · exact h3 r hr1
    · rw [hr1, List.length_set]; exact r3
  · intro r hr
    rcases List.mem_or_eq_of_mem_set hr with hr1 | hr1
    · exact h4 r hr1
    · rw [hr1, List.length_set]; exact r4

theorem getD_set_self2 (m : List (List Nat)) (index : Nat) (row : List Nat)
    (hi : m[index]? = some (m.getD index [])) : (m.set index row).getD index [] = row := by
  have hlt : index < m.length := by
    by_contra hc
    rw [List.getElem?_eq_none (by omega)] at hi
    cases hi
  simp [List.getElem?_set_self hlt]

theorem getD_set_ne2 (m : List (List Nat)) (index s : Nat) (row : List Nat) (h : index ≠ s) :
    (m.set index row).getD s [] = m.getD s [] := by
  simp only [List.getD_eq_getElem?_getD, List.getElem?_set_ne h]

theorem installed_resident (offset_len cur_time : Nat) (c : AssocCache) (addr ev : Nat)
    (h : c.WF) (hev : ev < c.assoc) (hct : cur_time % 2 ^ 32 ≠ 0) :
    resident offset_len (installed offset_len cur_time c addr ev) addr := by
  obtain ⟨r1, r2, r3, r4⟩ := WF_rows c h offset_len addr
  refine ⟨ev, hev, ?_⟩
  have e1 : get_index offset_len (installed offset_len cur_time c addr ev) addr
      = get_index offset_len c addr := rfl
  have e2 : get_tag (installed offset_len cur_time c addr ev) addr = get_tag c addr := rfl
  rw [e1, e2]
  simp only [installed]
  rw [getD_set_self2 _ _ _ r1, getD_set_self2 _ _ _ r2]
  unfold way_matches
  have l1 : ev < (c.times.getD (get_index offset_len c addr) []).length := by omega
  have l2 : ev < (c.tags.getD (get_index offset_len c addr) []).length := by omega
  constructor
  · rw [List.getD_eq_getElem?_getD, List.getElem?_set_self l1]; exact hct
  · rw [List.getD_eq_getElem?_getD, List.getElem?_set_self l2]; rfl

theorem stamp_resident (offset_len cur_time : Nat) (c : AssocCache) (addr i : Nat)
    (h : c.WF) (hi : i < c.assoc)
    (hw : way_matches (c.tags.getD (get_index offset_len c addr) [])
      (c.times.getD (get_index offset_len c addr) []) (get_tag c addr) i)
    (hct : cur_time % 2 ^ 32 ≠ 0) :
    resident offset_len (stamp offset_len cur_time c addr i) addr := by
  obtain ⟨r1, r2, r3, r4⟩ := WF_rows c h offset_len addr
  refine ⟨i, hi, ?_⟩
  have e1 : get_index offset_len (stamp offset_len cur_time c addr i) addr
      = get_index offset_len c addr := rfl
  have e2 : get_tag (stamp offset_len cur_time c addr i) addr = get_tag c addr := rfl
  rw [e1, e2]
  simp only [stamp]
  rw [getD_set_self2 _ _ _ r2]
  have l1 : i < (c.times.getD (get_index offset_len c addr) []).length := by omega
  refine ⟨?_, hw.2⟩
  rw [List.getD_eq_getElem?_getD, List.getElem?_set_self l1]; exact hct

/-! ## The access routines -/

theorem l2cache_access_hit (g : Globals) (addr : Nat) (h : g.l2cache.WF)
    (hr : resident g.offset_len g.l2cache addr) :
    ∃ i, i < g.l2cache.assoc ∧
      way_matches (g.l2cache.tags.getD (get_index g.offset_len g.l2cache addr) [])
        (g.l2cache.times.getD (get_index g.offset_len g.l2cache addr) [])
        (get_tag g.l2cache addr) i ∧
      l2cache_access g addr = some (g.l2cache.hit_time, l2_hit_state g addr i) := by
  obtain ⟨c1, flag, ev, e, _, hf, ht⟩ := cache_has_spec g.offset_len g.cur_time g.l2cache addr h
  cases flag with
  | false => exact absurd hr (hf rfl).2
  | true =>
    obtain ⟨i, hi, hw, _, hc⟩ := ht rfl
    refine ⟨i, hi, hw, ?_⟩
    unfold l2cache_access
    simp only [e]
    subst hc
    rfl

theorem l2cache_access_miss (g : Globals) (addr : Nat) (h : g.l2cache.WF)
    (hr : ¬ resident g.offset_len g.l2cache addr) :
    ∃ ev, ev < g.l2cache.assoc ∧
      l2cache_access g addr
        = some ((g.l2cache.hit_time + g.memspeed) % 2 ^ 32, l2_miss_state g addr ev) := by
  obtain ⟨c1, flag, ev, e, hev, hf, ht⟩ := cache_has_spec g.offset_len g.cur_time g.l2cache addr h
  cases flag with
  | true =>
    obtain ⟨i, hi, hw, _, _⟩ := ht rfl
    exact absurd ⟨i, hi, hw⟩ hr
  | false =>
    obtain ⟨hc, _⟩ := hf rfl
    subst hc
    refine ⟨ev, hev, ?_⟩
    unfold l2cache_access
    simp only [e]
    unfold l2cache_add
    simp only [e, install_spec g.offset_len g.cur_time g.l2cache addr ev h hev]
    rfl

theorem icache_access_hit (g : Globals) (addr : Nat) (h : g.icache.WF)
    (hr : resident g.offset_len g.icache addr) :
    ∃ i, i < g.icache.assoc ∧
      way_matches (g.icache.tags.getD (get_index g.offset_len g.icache addr) [])
        (g.icache.times.getD (get_index g.offset_len g.icache addr) [])
        (get_tag g.icache addr) i ∧
      icache_access g addr = some (g.icache.hit_time, icache_hit_state g addr i) := by
  obtain ⟨c1, flag, ev, e, _, hf, ht⟩ :=
    cache_has_spec g.offset_len ((g.cur_time + 1) % 2 ^ 64) g.icache addr h
  cases flag with
  | false => exact absurd hr (hf rfl).2
  | true =>
    obtain ⟨i, hi, hw, _, hc⟩ := ht rfl
    refine ⟨i, hi, hw, ?_⟩
    unfold icache_access
    simp only [e]
    subst hc
    rfl

theorem icache_access_miss (g : Globals) (addr : Nat) (h : g.icache.WF)
    (hr : ¬ resident g.offset_len g.icache addr) (penalty : Nat) (g2 : Globals)
    (h2 : l2cache_access (icache_tick g) addr = some (penalty, g2))
    (hk : g2.icache = g.icache) (ho : g2.offset_len = g.offset_len) :
    ∃ ev, ev < g.icache.assoc ∧
      icache_access g addr
        = some ((g.icache.hit_time + penalty) % 2 ^ 32, icache_miss_state g2 addr ev penalty) := by
  obtain ⟨c1, flag, ev, e, hev, hf, ht⟩ :=
    cache_has_spec g.offset_len ((g.cur_time + 1) % 2 ^ 64) g.icache addr h
  cases flag with
  | true =>
    obtain ⟨i, hi, hw, _, _⟩ := ht rfl
    exact absurd ⟨i, hi, hw⟩ hr
  | false =>
    obtain ⟨hc, _⟩ := hf rfl
    subst hc
    refine ⟨ev, hev, ?_⟩
    have h2a : l2cache_access
        { g with cur_time := (g.cur_time + 1) % 2 ^ 64, icacheRefs := (g.icacheRefs + 1) % 2 ^ 64,
                 icache := g.icache } addr = some (penalty, g2) := h2
    unfold icache_access
    simp only [e, h2a]
    rw [hk, ho, install_spec g.offset_len g2.cur_time g.icache addr ev h hev]
    simp only [icache_miss_state, hk, ho]

theorem dcache_access_hit (g : Globals) (addr : Nat) (h : g.dcache.WF)
    (hr : resident g.offset_len g.dcache addr) :
    ∃ i, i < g.dcache.assoc ∧
      way_matches (g.dcache.tags.getD (get_index g.offset_len g.dcache addr) [])
        (g.dcache.times.getD (get_index g.offset_len g.dcache addr) [])
        (get_tag g.dcache addr) i ∧
      dcache_access g addr = some (g.dcache.hit_time, dcache_hit_state g addr i) := by
  obtain ⟨c1, flag, ev, e, _, hf, ht⟩ :=
    cache_has_spec g.offset_len ((g.cur_time + 1) % 2 ^ 64) g.dcache addr h
  cases flag with
  | false => exact absurd hr (hf rfl).2
  | true =>
    obtain ⟨i, hi, hw, _, hc⟩ := ht rfl
    refine ⟨i, hi, hw, ?_⟩
    unfold dcache_access
    simp only [e]
    subst hc
    rfl

theorem dcache_access_miss (g : Globals) (addr : Nat) (h : g.dcache.WF)
    (hr : ¬ resident g.offset_len g.dcache addr) (penalty : Nat) (g2 : Globals)
    (h2 : l2cache_access (dcache_tick g) addr = some (penalty, g2))
    (hk : g2.dcache = g.dcache) (ho : g2.offset_len = g.offset_len) :
    ∃ ev, ev < g.dcache.assoc ∧
      dcache_access g addr
        = some ((g.dcache.hit_time + penalty) % 2 ^ 32, dcache_miss_state g2 addr ev penalty) := by
  obtain ⟨c1, flag, ev, e, hev, hf, ht⟩ :=
    cache_has_spec g.offset_len ((g.cur_time + 1) % 2 ^ 64) g.dcache addr h
  cases flag with
  | true =>
    obtain ⟨i, hi, hw, _, _⟩ := ht rfl
    exact absurd ⟨i, hi, hw⟩ hr
  | false =>
    obtain ⟨hc, _⟩ := hf rfl
    subst hc
    refine ⟨ev, hev, ?_⟩
    have h2a : l2cache_access
        { g with cur_time := (g.cur_time + 1) % 2 ^ 64, dcacheRefs := (g.dcacheRefs + 1) % 2 ^ 64,
                 dcache := g.dcache } addr = some (penalty, g2) := h2
    unfold dcache_access
    simp only [e, h2a]
    rw [hk, ho, install_spec g.offset_len g2.cur_time g.dcache addr ev h hev]
    simp only [dcache_miss_state, hk, ho]

/-! ## Frame conditions, valid for every state -/

theorem cache_has_frame (offset_len cur_time : Nat) (c c1 : AssocCache) (addr ev : Nat)
    (flag : Bool) (h : cache_has offset_len cur_time c addr = some (c1, flag, ev)) :
    c1 = { c with times := c1.times } ∧ (flag = false → c1 = c) := by
  unfold cache_has at h
  simp only [] at h
  split at h
  · split at h
    · cases h; exact ⟨rfl, fun hf => by cases hf⟩
    · cases h; exact ⟨rfl, fun _ => rfl⟩
    · cases h
  · cases h

theorem install_frame (offset_len cur_time : Nat) (c c1 : AssocCache) (addr ev : Nat)
    (h : install offset_len cur_time c addr ev = some c1) :
    c1 = { c with tags := c1.tags, times := c1.times } := by
  unfold install at h
  simp only [] at h
  split at h
  · cases h; rfl
  · cases h

theorem l2cache_add_frame (g g1 : Globals) (addr : Nat) (h : l2cache_add g addr = some g1) :
    g1 = { g with l2cache := g1.l2cache } := by
  unfold l2cache_add at h
  split at h
  · split at h
    · cases h; rfl
    · cases h
  · cases h

theorem l2cache_access_frame (g g2 : Globals) (addr p : Nat)
    (h : l2cache_access g addr = some (p, g2)) :
    g2 = { g with
      l2cacheRefs := g2.l2cacheRefs, l2cacheMisses := g2.l2cacheMisses,
      l2cachePenalties := g2.l2cachePenalties, l2cache := g2.l2cache } := by
  unfold l2cache_access at h
  simp only [] at h
  split at h
  · cases h; rfl
  · split at h
    · rename_i g3 hadd
      cases h
      have := l2cache_add_frame _ _ _ hadd
      rw [this]
    · cases h
  · cases h

theorem icache_access_frame (g g1 : Globals) (addr r : Nat)
    (h : icache_access g addr = some (r, g1)) :
    g1 = { g with
      cur_time := g1.cur_time, icacheRefs := g1.icacheRefs, icacheMisses := g1.icacheMisses,
      icachePenalties := g1.icachePenalties, icache := g1.icache,
      l2cacheRefs := g1.l2cacheRefs, l2cacheMisses := g1.l2cacheMisses,
      l2cachePenalties := g1.l2cachePenalties, l2cache := g1.l2cache } := by
  unfold icache_access at h
  simp only [] at h
  split at h
  · cases h; rfl
  · split at h
    · rename_i p g2 hl2
      split at h
      · cases h
        have := l2cache_access_frame _ _ _ _ hl2
        rw [this]
      · cases h
    · cases h
  · cases h

theorem dcache_access_frame (g g1 : Globals) (addr r : Nat)
    (h : dcache_access g addr = some (r, g1)) :
    g1 = { g with
      cur_time := g1.cur_time, dcacheRefs := g1.dcacheRefs, dcacheMisses := g1.dcacheMisses,
      dcachePenalties := g1.dcachePenalties, dcache := g1.dcache,
      l2cacheRefs := g1.l2cacheRefs, l2cacheMisses := g1.l2cacheMisses,
      l2cachePenalties := g1.l2cachePenalties, l2cache := g1.l2cache } := by
  unfold dcache_access at h
  simp only [] at h
  split at h
  · cases h; rfl
  · split at h
    · rename_i p g2 hl2
      split at h
      · cases h
        have := l2cache_access_frame _ _ _ _ hl2
        rw [this]
      · cases h
    · cases h
  · cases h

/-! ## Counter updates, valid for every state -/

theorem l2cache_access_counters (g g2 : Globals) (addr p : Nat)
    (h : l2cache_access g addr = some (p, g2)) :
    g2.l2cacheRefs = (g.l2cacheRefs + 1) % 2 ^ 64 ∧
    ((p = g.l2cache.hit_time ∧ g2.l2cacheMisses = g.l2cacheMisses ∧
        g2.l2cachePenalties = g.l2cachePenalties) ∨
     (p = (g.l2cache.hit_time + g.memspeed) % 2 ^ 32 ∧
        g2.l2cacheMisses = (g.l2cacheMisses + 1) % 2 ^ 64 ∧
        g2.l2cachePenalties = (g.l2cachePenalties + g.memspeed) % 2 ^ 64)) := by
  unfold l2cache_access at h
  simp only [] at h
  split at h
  · rename_i c _ hc
    have hf := (cache_has_frame _ _ _ _ _ _ _ hc).1
    cases h
    refine ⟨rfl, Or.inl ⟨?_, rfl, rfl⟩⟩
    rw [hf]
  · rename_i c _ hc
    have hf := (cache_has_frame _ _ _ _ _ _ _ hc).2 rfl
    subst hf
    split at h
    · rename_i g3 hadd
      cases h
      unfold l2cache_add at hadd
      split at hadd
      · rename_i c2 _ ev2 hc2
        have hf2 := (cache_has_frame _ _ _ _ _ _ _ hc2).1
        split at hadd
        · rename_i c3 hin
          have hf3 := install_frame _ _ _ _ _ _ hin
          cases hadd
          refine ⟨rfl, Or.inr ⟨?_, rfl, rfl⟩⟩
          show (c3.hit_time + g.memspeed) % 2 ^ 32 = _
          rw [hf3, hf2]
        · cases hadd
      · cases hadd
    · cases h
  · cases h

theorem icache_access_counters (g g1 : Globals) (addr r : Nat)
    (h : icache_access g addr = some (r, g1)) :
    g1.cur_time = (g.cur_time + 1) % 2 ^ 64 ∧ g1.icacheRefs = (g.icacheRefs + 1) % 2 ^ 64 ∧
    ((g1.icacheMisses = g.icacheMisses ∧ g1.icachePenalties = g.icachePenalties ∧
        g1.l2cacheRefs = g.l2cacheRefs ∧ g1.l2cacheMisses = g.l2cacheMisses ∧
        g1.l2cachePenalties = g.l2cachePenalties) ∨
     (g1.icacheMisses = (g.icacheMisses + 1) % 2 ^ 64 ∧
        g1.l2cacheRefs = (g.l2cacheRefs + 1) % 2 ^ 64 ∧
        ((g1.icachePenalties = (g.icachePenalties + g.l2cache.hit_time) % 2 ^ 64 ∧
            g1.l2cacheMisses = g.l2cacheMisses ∧ g1.l2cachePenalties = g.l2cachePenalties) ∨
         (g1.icachePenalties
              = (g.icachePenalties + (g.l2cache.hit_time + g.memspeed) % 2 ^ 32) % 2 ^ 64 ∧
            g1.l2cacheMisses = (g.l2cacheMisses + 1) % 2 ^ 64 ∧
            g1.l2cachePenalties = (g.l2cachePenalties + g.memspeed) % 2 ^ 64)))) := by
  unfold icache_access at h
  simp only [] at h
  split at h
  · cases h
    exact ⟨rfl, rfl, Or.inl ⟨rfl, rfl, rfl, rfl, rfl⟩⟩
  · rename_i c ev hc
    split at h
    · rename_i p g2 hl2
      have hfr := l2cache_access_frame _ _ _ _ hl2
      obtain ⟨k1, k2⟩ := l2cache_access_counters _ _ _ _ hl2
      split at h
      · cases h
        refine ⟨by rw [hfr], by rw [hfr], Or.inr ⟨by rw [hfr], k1, ?_⟩⟩
        rcases k2 with ⟨a1, a2, a3⟩ | ⟨a1, a2, a3⟩
        · left
          refine ⟨?_, a2, a3⟩
          show (g2.icachePenalties + p) % 2 ^ 64 = _
          rw [a1, hfr]
        · right
          refine ⟨?_, a2, a3⟩
          show (g2.icachePenalties + p) % 2 ^ 64 = _
          rw [a1, hfr]
      · cases h
    · cases h
  · cases h

theorem dcache_access_counters (g g1 : Globals) (addr r : Nat)
    (h : dcache_access g addr = some (r, g1)) :
    g1.cur_time = (g.cur_time + 1) % 2 ^ 64 ∧ g1.dcacheRefs = (g.dcacheRefs + 1) % 2 ^ 64 ∧
    ((g1.dcacheMisses = g.dcacheMisses ∧ g1.dcachePenalties = g.dcachePenalties ∧
        g1.l2cacheRefs = g.l2cacheRefs ∧ g1.l2cacheMisses = g.l2cacheMisses ∧
        g1.l2cachePenalties = g.l2cachePenalties) ∨
     (g1.dcacheMisses = (g.dcacheMisses + 1) % 2 ^ 64 ∧
        g1.l2cacheRefs = (g.l2cacheRefs + 1) % 2 ^ 64 ∧
        ((g1.dcachePenalties = (g.dcachePenalties + g.l2cache.hit_time) % 2 ^ 64 ∧
            g1.l2cacheMisses = g.l2cacheMisses ∧ g1.l2cachePenalties = g.l2cachePenalties) ∨
         (g1.dcachePenalties
              = (g.dcachePenalties + (g.l2cache.hit_time + g.memspeed) % 2 ^ 32) % 2 ^ 64 ∧
            g1.l2cacheMisses = (g.l2cacheMisses + 1) % 2 ^ 64 ∧
            g1.l2cachePenalties = (g.l2cachePenalties + g.memspeed) % 2 ^ 64)))) := by
  unfold dcache_access at h
  simp only [] at h
  split at h
  · cases h
    exact ⟨rfl, rfl, Or.inl ⟨rfl, rfl, rfl, rfl, rfl⟩⟩
  · rename_i c ev hc
    split at h
    · rename_i p g2 hl2
      have hfr := l2cache_access_frame _ _ _ _ hl2
      obtain ⟨k1, k2⟩ := l2cache_access_counters _ _ _ _ hl2
      split at h
      · cases h
        refine ⟨by rw [hfr], by rw [hfr], Or.inr ⟨by rw [hfr], k1, ?_⟩⟩
        rcases k2 with ⟨a1, a2, a3⟩ | ⟨a1, a2, a3⟩
        · left
          refine ⟨?_, a2, a3⟩
          show (g2.dcachePenalties + p) % 2 ^ 64 = _
          rw [a1, hfr]
        · right
          refine ⟨?_, a2, a3⟩
          show (g2.dcachePenalties + p) % 2 ^ 64 = _
          rw [a1, hfr]
      · cases h
    · cases h
  · cases h

/-! ## Outcomes of an access in a well-formed state -/

theorem icache_access_outcome (g : Globals) (addr : Nat) (hi : g.icache.WF) (hl : g.l2cache.WF) :
    (resident g.offset_len g.icache addr ∧ ∃ i, i < g.icache.assoc ∧
      way_matches (g.icache.tags.getD (get_index g.offset_len g.icache addr) [])
        (g.icache.times.getD (get_index g.offset_len g.icache addr) [])
        (get_tag g.icache addr) i ∧
      icache_access g addr = some (g.icache.hit_time, icache_hit_state g addr i)) ∨
    (¬ resident g.offset_len g.icache addr ∧ resident g.offset_len g.l2cache addr ∧
      ∃ ev i, ev < g.icache.assoc ∧ i < g.l2cache.assoc ∧
      icache_access g addr = some ((g.icache.hit_time + g.l2cache.hit_time) % 2 ^ 32,
        icache_miss_state (l2_hit_state (icache_tick g) addr i) addr ev g.l2cache.hit_time)) ∨
    (¬ resident g.offset_len g.icache addr ∧ ¬ resident g.offset_len g.l2cache addr ∧
      ∃ ev ev2, ev < g.icache.assoc ∧ ev2 < g.l2cache.assoc ∧
      icache_access g addr
        = some ((g.icache.hit_time + (g.l2cache.hit_time + g.memspeed) % 2 ^ 32) % 2 ^ 32,
        icache_miss_state (l2_miss_state (icache_tick g) addr ev2) addr ev
          ((g.l2cache.hit_time + g.memspeed) % 2 ^ 32))) := by
  by_cases h1 : resident g.offset_len g.icache addr
  · left
    exact ⟨h1, icache_access_hit g addr hi h1⟩
  · right
    by_cases h2 : resident g.offset_len g.l2cache addr
    · left
      obtain ⟨i, hi2, _, e2⟩ := l2cache_access_hit (icache_tick g) addr hl h2
      obtain ⟨ev, hev, e⟩ := icache_access_miss g addr hi h1 _ _ e2 rfl rfl
      exact ⟨h1, h2, ev, i, hev, hi2, e⟩
    · right
      obtain ⟨ev2, hev2, e2⟩ := l2cache_access_miss (icache_tick g) addr hl h2
      obtain ⟨ev, hev, e⟩ := icache_access_miss g addr hi h1 _ _ e2 rfl rfl
      exact ⟨h1, h2, ev, ev2, hev, hev2, e⟩

theorem dcache_access_outcome (g : Globals) (addr : Nat) (hd : g.dcache.WF) (hl : g.l2cache.WF) :
    (resident g.offset_len g.dcache addr ∧ ∃ i, i < g.dcache.assoc ∧
      way_matches (g.dcache.tags.getD (get_index g.offset_len g.dcache addr) [])
        (g.dcache.times.getD (get_index g.offset_len g.dcache addr) [])
        (get_tag g.dcache addr) i ∧
      dcache_access g addr = some (g.dcache.hit_time, dcache_hit_state g addr i)) ∨
    (¬ resident g.offset_len g.dcache addr ∧ resident g.offset_len g.l2cache addr ∧
      ∃ ev i, ev < g.dcache.assoc ∧ i < g.l2cache.assoc ∧
      dcache_access g addr = some ((g.dcache.hit_time + g.l2cache.hit_time) % 2 ^ 32,
        dcache_miss_state (l2_hit_state (dcache_tick g) addr i) addr ev g.l2cache.hit_time)) ∨
    (¬ resident g.offset_len g.dcache addr ∧ ¬ resident g.offset_len g.l2cache addr ∧
      ∃ ev ev2, ev < g.dcache.assoc ∧ ev2 < g.l2cache.assoc ∧
      dcache_access g addr
        = some ((g.dcache.hit_time + (g.l2cache.hit_time + g.memspeed) % 2 ^ 32) % 2 ^ 32,
        dcache_miss_state (l2_miss_state (dcache_tick g) addr ev2) addr ev
          ((g.l2cache.hit_time + g.memspeed) % 2 ^ 32))) := by
  by_cases h1 : resident g.offset_len g.dcache addr
  · left
    exact ⟨h1, dcache_access_hit g addr hd h1⟩
  · right
    by_cases h2 : resident g.offset_len g.l2cache addr
    · left
      obtain ⟨i, hi2, _, e2⟩ := l2cache_access_hit (dcache_tick g) addr hl h2
      obtain ⟨ev, hev, e⟩ := dcache_access_miss g addr hd h1 _ _ e2 rfl rfl
      exact ⟨h1, h2, ev, i, hev, hi2, e⟩
    · right
      obtain ⟨ev2, hev2, e2⟩ := l2cache_access_miss (dcache_tick g) addr hl h2
      obtain ⟨ev, hev, e⟩ := dcache_access_miss g addr hd h1 _ _ e2 rfl rfl
      exact ⟨h1, h2, ev, ev2, hev, hev2, e⟩

theorem icache_access_WF (g : Globals) (addr : Nat) (h : g.WF) :
    ∃ r g1, icache_access g addr = some (r, g1) ∧ g1.WF := by
  obtain ⟨h1, h2, h3, h4, h5, h6⟩ := h
  rcases icache_access_outcome g addr h1 h3 with
    ⟨_, i, _, _, e⟩ | ⟨_, _, ev, i, _, _, e⟩ | ⟨_, _, ev, ev2, _, _, e⟩
  · exact ⟨_, _, e, stamp_WF _ _ _ _ _ h1, h2, h3, h4, h5, h6⟩
  · exact ⟨_, _, e, installed_WF _ _ _ _ _ h1, h2, stamp_WF _ _ _ _ _ h3, h4, h5, h6⟩
  · exact ⟨_, _, e, installed_WF _ _ _ _ _ h1, h2, installed_WF _ _ _ _ _ h3, h4, h5, h6⟩

theorem dcache_access_WF (g : Globals) (addr : Nat) (h : g.WF) :
    ∃ r g1, dcache_access g addr = some (r, g1) ∧ g1.WF := by
  obtain ⟨h1, h2, h3, h4, h5, h6⟩ := h
  rcases dcache_access_outcome g addr h2 h3 with
    ⟨_, i, _, _, e⟩ | ⟨_, _, ev, i, _, _, e⟩ | ⟨_, _, ev, ev2, _, _, e⟩
  · exact ⟨_, _, e, h1, stamp_WF _ _ _ _ _ h2, h3, h4, h5, h6⟩
  · exact ⟨_, _, e, h1, installed_WF _ _ _ _ _ h2, stamp_WF _ _ _ _ _ h3, h4, h5, h6⟩
  · exact ⟨_, _, e, h1, installed_WF _ _ _ _ _ h2, installed_WF _ _ _ _ _ h3, h4, h5, h6⟩

/-! ## Initialisation -/

theorem floor_log2_aux_le (k : Nat) : ∀ x, 0 < x → 2 ^ floor_log2_aux k x ≤ x := by
  induction k with
  | zero => intro x hx; simpa [floor_log2_aux] using hx
  | succ k ih =>
    intro x hx
    unfold floor_log2_aux
    by_cases h1 : x ≤ 1
    · simp only [h1, if_true]; simpa using hx
    · simp only [h1, if_false]
      have h2 : 0 < x / 2 := Nat.div_pos (by omega) (by decide)
      have h3 := ih (x / 2) h2
      rw [Nat.pow_succ]
      omega

theorem floor_log2_le (x : Nat) (hx : 0 < x) : 2 ^ floor_log2 x ≤ x :=
  floor_log2_aux_le 32 x hx

theorem floor_log2_aux_lt (k : Nat) : ∀ x, x < 2 ^ k → x < 2 ^ (floor_log2_aux k x + 1) := by
  induction k with
  | zero => intro x hx; simp at hx; subst hx; simp
  | succ k ih =>
    intro x hx
    unfold floor_log2_aux
    by_cases h1 : x ≤ 1
    · simp only [h1, if_true]; omega
    · simp only [h1, if_false]
      have h2 : x / 2 < 2 ^ k := by rw [Nat.pow_succ] at hx; omega
      have h3 := ih (x / 2) h2
      rw [Nat.pow_succ]
      omega

/-- On a non-zero `uint32_t`, `floor_log2 x` is the integer part of the binary
logarithm: `2 ^ floor_log2 x ≤ x < 2 ^ (floor_log2 x + 1)`. -/
theorem floor_log2_bounds (x : Nat) (h0 : 0 < x) (hx : x < 2 ^ 32) :
    2 ^ floor_log2 x ≤ x ∧ x < 2 ^ (floor_log2 x + 1) :=
  ⟨floor_log2_le x h0, floor_log2_aux_lt 32 x hx⟩

theorem malloc_cache_WF (c : AssocCache) (ha : 0 < c.assoc) (hn : 2 ^ c.index_len ≤ c.n_set) :
    (malloc_cache c).WF := by
  refine ⟨?_, ?_, ?_, ?_, ha, hn⟩
  · simp [malloc_cache]
  · simp [malloc_cache]
  · intro r hr
    simp only [malloc_cache, List.mem_replicate] at hr
    rw [hr.2, List.length_replicate]
    rfl
  · intro r hr
    simp only [malloc_cache, List.mem_replicate] at hr
    rw [hr.2, List.length_replicate]
    rfl

theorem malloc_cache_all_empty (c : AssocCache) : all_empty (malloc_cache c) := by
  intro row hr t ht
  simp only [malloc_cache, List.mem_replicate] at hr
  rw [hr.2] at ht
  exact (List.mem_replicate.mp ht).2

theorem all_empty_not_resident (offset_len : Nat) (c : AssocCache) (addr : Nat)
    (h : all_empty c) : ¬ resident offset_len c addr := by
  rintro ⟨k, _, hk, _⟩
  apply hk
  rw [List.getD_eq_getElem?_getD]
  cases hrow : c.times[get_index offset_len c addr]? with
  | none => simp [List.getD_eq_getElem?_getD, hrow]
  | some row =>
    have hmem : row ∈ c.times := List.getElem?_mem hrow
    simp only [List.getD_eq_getElem?_getD, hrow, Option.getD_some]
    cases ht : row[k]? with
    | none => rfl
    | some t => exact h row hmem t (List.getElem?_mem ht)

theorem init_cache_total (g0 : Globals) (hb : 0 < g0.blocksize) (hi : 0 < g0.icacheSets)
    (hd : 0 < g0.dcacheSets) (hl : 0 < g0.l2cacheSets) : ∃ g, init_cache g0 = some g := by
  unfold init_cache
  have hc : ¬ (g0.blocksize = 0 ∨ g0.icacheSets = 0 ∨ g0.dcacheSets = 0 ∨ g0.l2cacheSets = 0) := by
    omega
  simp only [hc, if_false]
  exact ⟨_, rfl⟩

theorem width_exact_pos (x : Nat) (h : width_exact x) : 0 < x := by
  rcases h with ⟨k, _, hk⟩ | ⟨h, _⟩
  · rw [hk]; exact Nat.pos_pow_of_pos _ (by decide)
  · exact h

theorem init_cache_total_of_ok (g0 : Globals) (h : config_ok g0) : ∃ g, init_cache g0 = some g :=
  init_cache_total g0 (width_exact_pos _ h.1) (width_exact_pos _ h.2.1)
    (width_exact_pos _ h.2.2.1) (width_exact_pos _ h.2.2.2.1)

theorem init_cache_spec (g0 g : Globals) (h : init_cache g0 = some g) :
    g.WF ∧ all_empty g.icache ∧ all_empty g.dcache ∧ all_empty g.l2cache ∧
    g.icacheRefs = 0 ∧ g.icacheMisses = 0 ∧ g.icachePenalties = 0 ∧
    g.dcacheRefs = 0 ∧ g.dcacheMisses = 0 ∧ g.dcachePenalties = 0 ∧
    g.l2cacheRefs = 0 ∧ g.l2cacheMisses = 0 ∧ g.l2cachePenalties = 0 ∧
    g.cur_time = g0.cur_time ∧
    g.icacheHitTime = g0.icacheHitTime ∧ g.dcacheHitTime = g0.dcacheHitTime ∧
    g.l2cacheHitTime = g0.l2cacheHitTime ∧ g.memspeed = g0.memspeed := by
  unfold init_cache at h
  split at h
  · cases h
  · rename_i hc
    have hi : 0 < g0.icacheSets := by omega
    have hd : 0 < g0.dcacheSets := by omega
    have hl : 0 < g0.l2cacheSets := by omega
    cases h
    refine ⟨⟨?_, ?_, ?_, rfl, rfl, rfl⟩, malloc_cache_all_empty _, malloc_cache_all_empty _,
      malloc_cache_all_empty _, rfl, rfl, rfl, rfl, rfl, rfl, rfl, rfl, rfl, rfl, rfl, rfl, rfl, rfl⟩
    · apply malloc_cache_WF
      · show 0 < (if g0.icacheAssoc = 0 then 1 else g0.icacheAssoc)
        split <;> omega
      · exact floor_log2_le _ hi
    · apply malloc_cache_WF
      · show 0 < (if g0.dcacheAssoc = 0 then 1 else g0.dcacheAssoc)
        split <;> omega
      · exact floor_log2_le _ hd
    · apply malloc_cache_WF
      · show 0 < (if g0.l2cacheAssoc = 0 then 1 else g0.l2cacheAssoc)
        split <;> omega
      · exact floor_log2_le _ hl

/-! ## Reachable states -/

theorem reachable_WF (n : Nat) (g : Globals) (h : Reachable n g) : g.WF := by
  induction h with
  | init g0 g _ _ hi => exact (init_cache_spec g0 g hi).1
  | icache n g g1 addr r _ _ he ih =>
    obtain ⟨r2, g2, e, hw⟩ := icache_access_WF g addr ih
    rw [e] at he
    cases he
    exact hw
  | dcache n g g1 addr r _ _ he ih =>
    obtain ⟨r2, g2, e, hw⟩ := dcache_access_WF g addr ih
    rw [e] at he
    cases he
    exact hw

theorem scenario_fresh_reachable : Reachable 0 scenario_fresh :=
  Reachable.init scenario scenario_fresh rfl (by decide) (by decide)

theorem reachable_counters (n : Nat) (g : Globals) (h : Reachable n g) :
    n < 2 ^ 64 →
    g.cur_time = n ∧ g.icacheRefs + g.dcacheRefs = n ∧
    g.icacheMisses ≤ g.icacheRefs ∧ g.dcacheMisses ≤ g.dcacheRefs ∧
    g.l2cacheRefs = g.icacheMisses + g.dcacheMisses ∧ g.l2cacheMisses ≤ g.l2cacheRefs := by
  induction h with
  | init g0 g h0 _ hi =>
    intro _
    obtain ⟨_, _, _, _, a1, a2, _, a4, a5, _, a7, a8, _, a10, _⟩ := init_cache_spec g0 g hi
    rw [a1, a2, a4, a5, a7, a8, a10, h0]
    simp
  | icache n g g1 addr r _ _ he ih =>
    intro hn
    obtain ⟨i1, i2, i3, i4, i5, i6⟩ := ih (by omega)
    have hfr := icache_access_frame _ _ _ _ he
    have d1 : g1.dcacheRefs = g.dcacheRefs := by rw [hfr]
    have d2 : g1.dcacheMisses = g.dcacheMisses := by rw [hfr]
    obtain ⟨k1, k2, k3⟩ := icache_access_counters _ _ _ _ he
    rcases k3 with ⟨b1, _, b3, b4, _⟩ | ⟨b1, b2, ⟨_, b4, _⟩ | ⟨_, b4, _⟩⟩
    all_goals (refine ⟨?_, ?_, ?_, ?_, ?_, ?_⟩ <;> omega)
  | dcache n g g1 addr r _ _ he ih =>
    intro hn
    obtain ⟨i1, i2, i3, i4, i5, i6⟩ := ih (by omega)
    have hfr := dcache_access_frame _ _ _ _ he
    have d1 : g1.icacheRefs = g.icacheRefs := by rw [hfr]
    have d2 : g1.icacheMisses = g.icacheMisses := by rw [hfr]
    obtain ⟨k1, k2, k3⟩ := dcache_access_counters _ _ _ _ he
    rcases k3 with ⟨b1, _, b3, b4, _⟩ | ⟨b1, b2, ⟨_, b4, _⟩ | ⟨_, b4, _⟩⟩
    all_goals (refine ⟨?_, ?_, ?_, ?_, ?_, ?_⟩ <;> omega)

theorem scenario_once_reachable : Reachable 1 scenario_once :=
  Reachable.icache 0 scenario_fresh scenario_once 0 111 scenario_fresh_reachable (by decide)
    (by decide)

/-! ## Direct-mapped first-level caches -/

theorem direct_mapped_not_resident (offset_len : Nat) (c : AssocCache) (addr : Nat)
    (h1 : c.assoc = 1)
    (ht : (c.tags.getD (get_index offset_len c addr) []).getD 0 0 ≠ get_tag c addr) :
    ¬ resident offset_len c addr := by
  rintro ⟨k, hk, _, hm⟩
  have hk0 : k = 0 := by omega
  subst hk0
  exact ht hm

theorem icache_direct_mapped_step (g : Globals) (x : Nat) (hw : g.WF) (h1 : g.icache.assoc = 1) :
    ∃ r g1, icache_access g x = some (r, g1) ∧ g1.WF ∧ g1.icache.assoc = 1 ∧
      g1.offset_len = g.offset_len ∧ g1.icache.index_len = g.icache.index_len ∧
      g1.icache.tag_len = g.icache.tag_len ∧ g1.icacheHitTime = g.icacheHitTime ∧
      g1.l2cacheHitTime = g.l2cacheHitTime ∧ g1.memspeed = g.memspeed ∧
      (g1.icache.tags.getD (get_index g.offset_len g.icache x) []).getD 0 0 = get_tag g.icache x ∧
      (g1.icacheMisses = g.icacheMisses ∨ g1.icacheMisses = (g.icacheMisses + 1) % 2 ^ 64) ∧
      (¬ resident g.offset_len g.icache x →
        g1.icacheMisses = (g.icacheMisses + 1) % 2 ^ 64 ∧
        (r = (g.icacheHitTime + g.l2cacheHitTime) % 2 ^ 32 ∨
         r = (g.icacheHitTime + (g.l2cacheHitTime + g.memspeed) % 2 ^ 32) % 2 ^ 32)) := by
  obtain ⟨w1, w2, w3, t1, t2, t3⟩ := hw
  obtain ⟨r1, _, r3, _⟩ := WF_rows g.icache w1 g.offset_len x
  have hinst : ∀ ct ev, ev < g.icache.assoc →
      ((installed g.offset_len ct g.icache x ev).tags.getD
        (get_index g.offset_len g.icache x) []).getD 0 0 = get_tag g.icache x := by
    intro ct ev hev
    have hev0 : ev = 0 := by omega
    subst hev0
    show ((g.icache.tags.set (get_index g.offset_len g.icache x)
      ((g.icache.tags.getD (get_index g.offset_len g.icache x) []).set 0
        (get_tag g.icache x))).getD (get_index g.offset_len g.icache x) []).getD 0 0 = _
    rw [getD_set_self2 _ _ _ r1, List.getD_eq_getElem?_getD,
      List.getElem?_set_self (by omega)]
    rfl
  rcases icache_access_outcome g x w1 w3 with
    ⟨hres, i, hi, hm, e⟩ | ⟨_, _, ev, i, hev, _, e⟩ | ⟨_, _, ev, ev2, hev, _, e⟩
  · have hi0 : i = 0 := by omega
    subst hi0
    exact ⟨_, _, e, ⟨stamp_WF _ _ _ _ _ w1, w2, w3, t1, t2, t3⟩, h1, rfl, rfl, rfl, rfl, rfl, rfl,
      hm.2, Or.inl rfl, fun hn => absurd hres hn⟩
  · refine ⟨_, _, e, ⟨installed_WF _ _ _ _ _ w1, w2, stamp_WF _ _ _ _ _ w3, t1, t2, t3⟩, h1,
      rfl, rfl, rfl, rfl, rfl, rfl, hinst _ ev hev, Or.inr rfl, fun _ => ⟨rfl, Or.inl ?_⟩⟩
    rw [t1, t3]
  · refine ⟨_, _, e, ⟨installed_WF _ _ _ _ _ w1, w2, installed_WF _ _ _ _ _ w3, t1, t2, t3⟩, h1,
      rfl, rfl, rfl, rfl, rfl, rfl, hinst _ ev hev, Or.inr rfl, fun _ => ⟨rfl, Or.inr ?_⟩⟩
    rw [t1, t3]

theorem get_index_congr (offset_len : Nat) (c c1 : AssocCache) (addr : Nat)
    (h : c1.index_len = c.index_len) : get_index offset_len c1 addr = get_index offset_len c addr := by
  unfold get_index; rw [h]

theorem get_tag_congr (c c1 : AssocCache) (addr : Nat) (h : c1.tag_len = c.tag_len) :
    get_tag c1 addr = get_tag c addr := by
  unfold get_tag; rw [h]

theorem miss_path_exceeds (h l m r : Nat) (hp : 0 < l) (hs : h + l + m < 2 ^ 32)
    (v : r = (h + l) % 2 ^ 32 ∨ r = (h + (l + m) % 2 ^ 32) % 2 ^ 32) : h < r := by
  rcases v with v | v <;> omega

theorem miss_counter_step (m0 m1 m2 m3 n : Nat) (hn : n < 2 ^ 32) (h0 : m0 ≤ n)
    (h1 : m1 = m0 ∨ m1 = (m0 + 1) % 2 ^ 64) (h2 : m2 = (m1 + 1) % 2 ^ 64)
    (h3 : m3 = (m2 + 1) % 2 ^ 64) : m2 = m1 + 1 ∧ m3 = m2 + 1 := by
  have b1 : m1 ≤ m0 + 1 := by
    rcases h1 with h | h
    · omega
    · rw [h]; exact Nat.mod_le _ _
  have e2 : m2 = m1 + 1 := by rw [h2]; exact Nat.mod_eq_of_lt (by omega)
  have e3 : m3 = m2 + 1 := by rw [h3]; exact Nat.mod_eq_of_lt (by omega)
  exact ⟨e2, e3⟩

theorem icache_conflict (n : Nat) (g : Globals) (hr : Reachable n g) (hn : n < 2 ^ 32)
    (a b : Nat) (h1 : g.icache.assoc = 1)
    (hidx : get_index g.offset_len g.icache a = get_index g.offset_len g.icache b)
    (htag : get_tag g.icache a ≠ get_tag g.icache b) :
    ∃ r1 g1 r2 g2 r3 g3, icache_access g a = some (r1, g1) ∧
      icache_access g1 b = some (r2, g2) ∧ icache_access g2 a = some (r3, g3) ∧
      ¬ resident g1.offset_len g1.icache b ∧ ¬ resident g2.offset_len g2.icache a ∧
      g2.icacheMisses = g1.icacheMisses + 1 ∧ g3.icacheMisses = g2.icacheMisses + 1 ∧
      (r2 = (g.icacheHitTime + g.l2cacheHitTime) % 2 ^ 32 ∨
       r2 = (g.icacheHitTime + (g.l2cacheHitTime + g.memspeed) % 2 ^ 32) % 2 ^ 32) ∧
      (r3 = (g.icacheHitTime + g.l2cacheHitTime) % 2 ^ 32 ∨
       r3 = (g.icacheHitTime + (g.l2cacheHitTime + g.memspeed) % 2 ^ 32) % 2 ^ 32) ∧
      (0 < g.l2cacheHitTime → g.icacheHitTime + g.l2cacheHitTime + g.memspeed < 2 ^ 32 →
        g.icacheHitTime < r2 ∧ g.icacheHitTime < r3) := by
  have hw := reachable_WF n g hr
  obtain ⟨_, _, c3, _, _, _⟩ := reachable_counters n g hr (by omega)
  have c2 : g.icacheRefs ≤ n := by
    have := (reachable_counters n g hr (by omega)).2.1
    omega
  obtain ⟨r1, g1, e1, hw1, a1, o1, il1, tl1, ht1, hl1, hm1, tg1, ms1, _⟩ :=
    icache_direct_mapped_step g a hw h1
  obtain ⟨r2, g2, e2, hw2, a2, o2, il2, tl2, ht2, hl2, hm2, tg2, _, miss2⟩ :=
    icache_direct_mapped_step g1 b hw1 a1
  obtain ⟨r3, g3, e3, _, _, _, _, _, _, _, _, _, _, miss3⟩ :=
    icache_direct_mapped_step g2 a hw2 a2
  have ia1 : get_index g1.offset_len g1.icache b = get_index g.offset_len g.icache b := by
    rw [o1]; exact get_index_congr _ _ _ _ il1
  have ta1 : get_tag g1.icache b = get_tag g.icache b := get_tag_congr _ _ _ tl1
  have ia2 : get_index g2.offset_len g2.icache a = get_index g1.offset_len g1.icache b := by
    rw [ia1, ← hidx, o2, o1]
    exact (get_index_congr _ _ _ _ il2).trans (get_index_congr _ _ _ _ il1)
  have ta2 : get_tag g2.icache a = get_tag g.icache a :=
    (get_tag_congr _ _ _ tl2).trans (get_tag_congr _ _ _ tl1)
  have n1 : ¬ resident g1.offset_len g1.icache b := by
    apply direct_mapped_not_resident _ _ _ a1
    rw [ia1, ← hidx, tg1, ta1]
    exact htag
  have n2 : ¬ resident g2.offset_len g2.icache a := by
    apply direct_mapped_not_resident _ _ _ a2
    rw [ia2, tg2, ta2, ta1]
    exact fun h => htag h.symm
  obtain ⟨k2, v2⟩ := miss2 n1
  obtain ⟨k3, v3⟩ := miss3 n2
  rw [ht1, hl1, hm1] at v2
  rw [ht2, hl2, hm2, ht1, hl1, hm1] at v3
  have hm0 : g.icacheMisses ≤ n := le_trans c3 c2
  obtain ⟨s2, s3⟩ := miss_counter_step _ _ _ _ n hn hm0 ms1 k2 k3
  exact ⟨r1, g1, r2, g2, r3, g3, e1, e2, e3, n1, n2, s2, s3, v2, v3,
    fun hp hs => ⟨miss_path_exceeds _ _ _ _ hp hs v2, miss_path_exceeds _ _ _ _ hp hs v3⟩⟩

theorem dcache_direct_mapped_step (g : Globals) (x : Nat) (hw : g.WF) (h1 : g.dcache.assoc = 1) :
    ∃ r g1, dcache_access g x = some (r, g1) ∧ g1.WF ∧ g1.dcache.assoc = 1 ∧
      g1.offset_len = g.offset_len ∧ g1.dcache.index_len = g.dcache.index_len ∧
      g1.dcache.tag_len = g.dcache.tag_len ∧ g1.dcacheHitTime = g.dcacheHitTime ∧
      g1.l2cacheHitTime = g.l2cacheHitTime ∧ g1.memspeed = g.memspeed ∧
      (g1.dcache.tags.getD (get_index g.offset_len g.dcache x) []).getD 0 0 = get_tag g.dcache x ∧
      (g1.dcacheMisses = g.dcacheMisses ∨ g1.dcacheMisses = (g.dcacheMisses + 1) % 2 ^ 64) ∧
      (¬ resident g.offset_len g.dcache x →
        g1.dcacheMisses = (g.dcacheMisses + 1) % 2 ^ 64 ∧
        (r = (g.dcacheHitTime + g.l2cacheHitTime) % 2 ^ 32 ∨
         r = (g.dcacheHitTime + (g.l2cacheHitTime + g.memspeed) % 2 ^ 32) % 2 ^ 32)) := by
  obtain ⟨w1, w2, w3, t1, t2, t3⟩ := hw
  obtain ⟨r1, _, r3, _⟩ := WF_rows g.dcache w2 g.offset_len x
  have hinst : ∀ ct ev, ev < g.dcache.assoc →
      ((installed g.offset_len ct g.dcache x ev).tags.getD
        (get_index g.offset_len g.dcache x) []).getD 0 0 = get_tag g.dcache x := by
    intro ct ev hev
    have hev0 : ev = 0 := by omega
    subst hev0
    show ((g.dcache.tags.set (get_index g.offset_len g.dcache x)
      ((g.dcache.tags.getD (get_index g.offset_len g.dcache x) []).set 0
        (get_tag g.dcache x))).getD (get_index g.offset_len g.dcache x) []).getD 0 0 = _
    rw [getD_set_self2 _ _ _ r1, List.getD_eq_getElem?_getD,
      List.getElem?_set_self (by omega)]
    rfl
  rcases dcache_access_outcome g x w2 w3 with
    ⟨hres, i, hi, hm, e⟩ | ⟨_, _, ev, i, hev, _, e⟩ | ⟨_, _, ev, ev2, hev, _, e⟩
  · have hi0 : i = 0 := by omega
    subst hi0
    exact ⟨_, _, e, ⟨w1, stamp_WF _ _ _ _ _ w2, w3, t1, t2, t3⟩, h1, rfl, rfl, rfl, rfl, rfl, rfl,
      hm.2, Or.inl rfl, fun hn => absurd hres hn⟩
  · refine ⟨_, _, e, ⟨w1, installed_WF _ _ _ _ _ w2, stamp_WF _ _ _ _ _ w3, t1, t2, t3⟩, h1,
      rfl, rfl, rfl, rfl, rfl, rfl, hinst _ ev hev, Or.inr rfl, fun _ => ⟨rfl, Or.inl ?_⟩⟩
    rw [t2, t3]
  · refine ⟨_, _, e, ⟨w1, installed_WF _ _ _ _ _ w2, installed_WF _ _ _ _ _ w3, t1, t2, t3⟩, h1,
      rfl, rfl, rfl, rfl, rfl, rfl, hinst _ ev hev, Or.inr rfl, fun _ => ⟨rfl, Or.inr ?_⟩⟩
    rw [t2, t3]


theorem dcache_conflict (n : Nat) (g : Globals) (hr : Reachable n g) (hn : n < 2 ^ 32)
    (a b : Nat) (h1 : g.dcache.assoc = 1)
    (hidx : get_index g.offset_len g.dcache a = get_index g.offset_len g.dcache b)
    (htag : get_tag g.dcache a ≠ get_tag g.dcache b) :
    ∃ r1 g1 r2 g2 r3 g3, dcache_access g a = some (r1, g1) ∧
      dcache_access g1 b = some (r2, g2) ∧ dcache_access g2 a = some (r3, g3) ∧
      ¬ resident g1.offset_len g1.dcache b ∧ ¬ resident g2.offset_len g2.dcache a ∧
      g2.dcacheMisses = g1.dcacheMisses + 1 ∧ g3.dcacheMisses = g2.dcacheMisses + 1 ∧
      (r2 = (g.dcacheHitTime + g.l2cacheHitTime) % 2 ^ 32 ∨
       r2 = (g.dcacheHitTime + (g.l2cacheHitTime + g.memspeed) % 2 ^ 32) % 2 ^ 32) ∧
      (r3 = (g.dcacheHitTime + g.l2cacheHitTime) % 2 ^ 32 ∨
       r3 = (g.dcacheHitTime + (g.l2cacheHitTime + g.memspeed) % 2 ^ 32) % 2 ^ 32) ∧
      (0 < g.l2cacheHitTime → g.dcacheHitTime + g.l2cacheHitTime + g.memspeed < 2 ^ 32 →
        g.dcacheHitTime < r2 ∧ g.dcacheHitTime < r3) := by
  have hw := reachable_WF n g hr
  obtain ⟨_, _, _, c3, _, _⟩ := reachable_counters n g hr (by omega)
  have c2 : g.dcacheRefs ≤ n := by
    have := (reachable_counters n g hr (by omega)).2.1
    omega
  obtain ⟨r1, g1, e1, hw1, a1, o1, il1, tl1, ht1, hl1, hm1, tg1, ms1, _⟩ :=
    dcache_direct_mapped_step g a hw h1
  obtain ⟨r2, g2, e2, hw2, a2, o2, il2, tl2, ht2, hl2, hm2, tg2, _, miss2⟩ :=
    dcache_direct_mapped_step g1 b hw1 a1
  obtain ⟨r3, g3, e3, _, _, _, _, _, _, _, _, _, _, miss3⟩ :=
    dcache_direct_mapped_step g2 a hw2 a2
  have ia1 : get_index g1.offset_len g1.dcache b = get_index g.offset_len g.dcache b := by
    rw [o1]; exact get_index_congr _ _ _ _ il1
  have ta1 : get_tag g1.dcache b = get_tag g.dcache b := get_tag_congr _ _ _ tl1
  have ia2 : get_index g2.offset_len g2.dcache a = get_index g1.offset_len g1.dcache b := by
    rw [ia1, ← hidx, o2, o1]
    exact (get_index_congr _ _ _ _ il2).trans (get_index_congr _ _ _ _ il1)
  have ta2 : get_tag g2.dcache a = get_tag g.dcache a :=
    (get_tag_congr _ _ _ tl2).trans (get_tag_congr _ _ _ tl1)
  have n1 : ¬ resident g1.offset_len g1.dcache b := by
    apply direct_mapped_not_resident _ _ _ a1
    rw [ia1, ← hidx, tg1, ta1]
    exact htag
  have n2 : ¬ resident g2.offset_len g2.dcache a := by
    apply direct_mapped_not_resident _ _ _ a2
    rw [ia2, tg2, ta2, ta1]
    exact fun h => htag h.symm
  obtain ⟨k2, v2⟩ := miss2 n1
  obtain ⟨k3, v3⟩ := miss3 n2
  rw [ht1, hl1, hm1] at v2
  rw [ht2, hl2, hm2, ht1, hl1, hm1] at v3
  have hm0 : g.dcacheMisses ≤ n := le_trans c3 c2
  obtain ⟨s2, s3⟩ := miss_counter_step _ _ _ _ n hn hm0 ms1 k2 k3
  exact ⟨r1, g1, r2, g2, r3, g3, e1, e2, e3, n1, n2, s2, s3, v2, v3,
    fun hp hs => ⟨miss_path_exceeds _ _ _ _ hp hs v2, miss_path_exceeds _ _ _ _ hp hs v3⟩⟩

/-! ## Claims -/

/-- C1 (cold start). For every configuration on which the code is defined
(`config_ok`) and every address, `init_cache` completes, the line is resident
in none of the three levels, and a first `icache_access` (respectively
`dcache_access`) returns `(L1 hit time + l2cacheHitTime + memspeed) mod 2^32`
and leaves that L1's miss counter and `l2cacheMisses` both equal to 1. -/
theorem cold_start (g0 : Globals) (addr : Nat) (hc : config_ok g0) :
    ∃ g, init_cache g0 = some g ∧
      ¬ resident g.offset_len g.icache addr ∧ ¬ resident g.offset_len g.dcache addr ∧
      ¬ resident g.offset_len g.l2cache addr ∧
      (∃ g1, icache_access g addr
          = some ((g0.icacheHitTime + g0.l2cacheHitTime + g0.memspeed) % 2 ^ 32, g1) ∧
        g1.icacheMisses = 1 ∧ g1.l2cacheMisses = 1) ∧
      (∃ g1, dcache_access g addr
          = some ((g0.dcacheHitTime + g0.l2cacheHitTime + g0.memspeed) % 2 ^ 32, g1) ∧
        g1.dcacheMisses = 1 ∧ g1.l2cacheMisses = 1) := by
  obtain ⟨g, hg⟩ := init_cache_total_of_ok g0 hc
  obtain ⟨⟨w1, w2, w3, t1, t2, t3⟩, e1, e2, e3, _, m1, _, _, m2, _, _, m3, _, _, c1, c2, c3, c4⟩ :=
    init_cache_spec g0 g hg
  have n1 := all_empty_not_resident g.offset_len g.icache addr e1
  have n2 := all_empty_not_resident g.offset_len g.dcache addr e2
  have n3 := all_empty_not_resident g.offset_len g.l2cache addr e3
  refine ⟨g, hg, n1, n2, n3, ?_, ?_⟩
  · rcases icache_access_outcome g addr w1 w3 with ⟨a, _⟩ | ⟨_, a, _⟩ | ⟨_, _, ev, ev2, _, _, e⟩
    · exact absurd a n1
    · exact absurd a n3
    · refine ⟨icache_miss_state (l2_miss_state (icache_tick g) addr ev2) addr ev
        ((g.l2cache.hit_time + g.memspeed) % 2 ^ 32), ?_, ?_, ?_⟩
      · rw [e, t1, t3, c1, c3, c4]
        congr 2
        omega
      · simp [icache_miss_state, l2_miss_state, icache_tick, m1]
      · simp [icache_miss_state, l2_miss_state, icache_tick, m3]
  · rcases dcache_access_outcome g addr w2 w3 with ⟨a, _⟩ | ⟨_, a, _⟩ | ⟨_, _, ev, ev2, _, _, e⟩
    · exact absurd a n2
    · exact absurd a n3
    · refine ⟨dcache_miss_state (l2_miss_state (dcache_tick g) addr ev2) addr ev
        ((g.l2cache.hit_time + g.memspeed) % 2 ^ 32), ?_, ?_, ?_⟩
      · rw [e, t2, t3, c2, c3, c4]
        congr 2
        omega
      · simp [dcache_miss_state, l2_miss_state, dcache_tick, m2]
      · simp [dcache_miss_state, l2_miss_state, dcache_tick, m3]

/-- Witness of C1 on the scenario of section 8: `icache_access(0)` returns 111. -/
theorem cold_start_witness :
    ∃ g, init_cache scenario = some g ∧
      ¬ resident g.offset_len g.icache 0 ∧ ¬ resident g.offset_len g.dcache 0 ∧
      ¬ resident g.offset_len g.l2cache 0 ∧
      (∃ g1, icache_access g 0 = some (111, g1) ∧ g1.icacheMisses = 1 ∧ g1.l2cacheMisses = 1) ∧
      (∃ g1, dcache_access g 0 = some (111, g1) ∧ g1.dcacheMisses = 1 ∧ g1.l2cacheMisses = 1) :=
  cold_start scenario 0 (by decide)

/-- C2 (re-access hits). In every state reachable from `init_cache` in which
the clock after the next access is non-zero modulo 2^32, for every address,
`icache_access` followed at once by `icache_access` of the same address makes
the second call return exactly `icacheHitTime` and leave the three miss
counters, the three penalty counters and `l2cacheRefs` unchanged; likewise for
`dcache_access`. -/
theorem reaccess_hits (n : Nat) (g : Globals) (hr : Reachable n g) (addr : Nat)
    (hc : ((g.cur_time + 1) % 2 ^ 64) % 2 ^ 32 ≠ 0) :
    (∃ r1 g1 g2, icache_access g addr = some (r1, g1) ∧
      icache_access g1 addr = some (g.icacheHitTime, g2) ∧
      g2.icacheMisses = g1.icacheMisses ∧ g2.dcacheMisses = g1.dcacheMisses ∧
      g2.l2cacheMisses = g1.l2cacheMisses ∧ g2.icachePenalties = g1.icachePenalties ∧
      g2.dcachePenalties = g1.dcachePenalties ∧ g2.l2cachePenalties = g1.l2cachePenalties ∧
      g2.l2cacheRefs = g1.l2cacheRefs) ∧
    (∃ r1 g1 g2, dcache_access g addr = some (r1, g1) ∧
      dcache_access g1 addr = some (g.dcacheHitTime, g2) ∧
      g2.icacheMisses = g1.icacheMisses ∧ g2.dcacheMisses = g1.dcacheMisses ∧
      g2.l2cacheMisses = g1.l2cacheMisses ∧ g2.icachePenalties = g1.icachePenalties ∧
      g2.dcachePenalties = g1.dcachePenalties ∧ g2.l2cachePenalties = g1.l2cachePenalties ∧
      g2.l2cacheRefs = g1.l2cacheRefs) := by
  have hw := reachable_WF n g hr
  obtain ⟨w1, w2, w3, t1, t2, t3⟩ := hw
  constructor
  · -- the first access leaves the line resident in a well-formed state
    have key : ∃ r1 g1, icache_access g addr = some (r1, g1) ∧ g1.WF ∧
        resident g1.offset_len g1.icache addr ∧ g1.icache.hit_time = g.icacheHitTime := by
      rcases icache_access_outcome g addr w1 w3 with
        ⟨_, i, hi, hm, e⟩ | ⟨_, _, ev, i, hev, _, e⟩ | ⟨_, _, ev, ev2, hev, _, e⟩
      · exact ⟨_, _, e, ⟨stamp_WF _ _ _ _ _ w1, w2, w3, t1, t2, t3⟩,
          stamp_resident _ _ _ _ _ w1 hi hm hc, t1⟩
      · exact ⟨_, _, e, ⟨installed_WF _ _ _ _ _ w1, w2, stamp_WF _ _ _ _ _ w3, t1, t2, t3⟩,
          installed_resident _ _ _ _ _ w1 hev hc, t1⟩
      · exact ⟨_, _, e, ⟨installed_WF _ _ _ _ _ w1, w2, installed_WF _ _ _ _ _ w3, t1, t2, t3⟩,
          installed_resident _ _ _ _ _ w1 hev hc, t1⟩
    obtain ⟨r1, g1, e1, hw1, hres, ht⟩ := key
    rcases icache_access_outcome g1 addr hw1.1 hw1.2.2.1 with
      ⟨_, i, _, _, e⟩ | ⟨a, _⟩ | ⟨a, _⟩
    · rw [ht] at e
      exact ⟨r1, g1, _, e1, e, rfl, rfl, rfl, rfl, rfl, rfl, rfl⟩
    · exact absurd hres a
    · exact absurd hres a
  · have key : ∃ r1 g1, dcache_access g addr = some (r1, g1) ∧ g1.WF ∧
        resident g1.offset_len g1.dcache addr ∧ g1.dcache.hit_time = g.dcacheHitTime := by
      rcases dcache_access_outcome g addr w2 w3 with
        ⟨_, i, hi, hm, e⟩ | ⟨_, _, ev, i, hev, _, e⟩ | ⟨_, _, ev, ev2, hev, _, e⟩
      · exact ⟨_, _, e, ⟨w1, stamp_WF _ _ _ _ _ w2, w3, t1, t2, t3⟩,
          stamp_resident _ _ _ _ _ w2 hi hm hc, t2⟩
      · exact ⟨_, _, e, ⟨w1, installed_WF _ _ _ _ _ w2, stamp_WF _ _ _ _ _ w3, t1, t2, t3⟩,
          installed_resident _ _ _ _ _ w2 hev hc, t2⟩
      · exact ⟨_, _, e, ⟨w1, installed_WF _ _ _ _ _ w2, installed_WF _ _ _ _ _ w3, t1, t2, t3⟩,
          installed_resident _ _ _ _ _ w2 hev hc, t2⟩
    obtain ⟨r1, g1, e1, hw1, hres, ht⟩ := key
    rcases dcache_access_outcome g1 addr hw1.2.1 hw1.2.2.1 with
      ⟨_, i, _, _, e⟩ | ⟨a, _⟩ | ⟨a, _⟩
    · rw [ht] at e
      exact ⟨r1, g1, _, e1, e, rfl, rfl, rfl, rfl, rfl, rfl, rfl⟩
    · exact absurd hres a
    · exact absurd hres a

/-- Witness of C2 on the scenario of section 8: after `init_cache`, the
repeated `icache_access(0)` returns 1. -/
theorem reaccess_hits_witness :
    (∃ r1 g1 g2, icache_access scenario_fresh 0 = some (r1, g1) ∧
      icache_access g1 0 = some (1, g2) ∧
      g2.icacheMisses = g1.icacheMisses ∧ g2.dcacheMisses = g1.dcacheMisses ∧
      g2.l2cacheMisses = g1.l2cacheMisses ∧ g2.icachePenalties = g1.icachePenalties ∧
      g2.dcachePenalties = g1.dcachePenalties ∧ g2.l2cachePenalties = g1.l2cachePenalties ∧
      g2.l2cacheRefs = g1.l2cacheRefs) ∧
    (∃ r1 g1 g2, dcache_access scenario_fresh 0 = some (r1, g1) ∧
      dcache_access g1 0 = some (1, g2) ∧
      g2.icacheMisses = g1.icacheMisses ∧ g2.dcacheMisses = g1.dcacheMisses ∧
      g2.l2cacheMisses = g1.l2cacheMisses ∧ g2.icachePenalties = g1.icachePenalties ∧
      g2.dcachePenalties = g1.dcachePenalties ∧ g2.l2cachePenalties = g1.l2cachePenalties ∧
      g2.l2cacheRefs = g1.l2cacheRefs) :=
  reaccess_hits 0 scenario_fresh (Reachable.init scenario scenario_fresh rfl (by decide) (by decide)) 0
    (by decide)

/-- C3 (latency of an access). In every reachable state and for every address:
`l2cache_access` returns `l2cacheHitTime` when the line is resident in L2 and
`(l2cacheHitTime + memspeed) mod 2^32` when it is not; `icache_access` returns
`icacheHitTime` when the line is resident in the icache and otherwise
`(icacheHitTime + p) mod 2^32`, where `p` is the value of the `l2cache_access`
call it makes; `dcache_access` is the same with `dcacheHitTime`. Hence every
latency returned by a first-level cache is one of three values. -/
theorem access_latency (n : Nat) (g : Globals) (hr : Reachable n g) (addr : Nat) :
    ((resident g.offset_len g.l2cache addr →
        ∃ g2, l2cache_access g addr = some (g.l2cacheHitTime, g2)) ∧
     (¬ resident g.offset_len g.l2cache addr →
        ∃ g2, l2cache_access g addr = some ((g.l2cacheHitTime + g.memspeed) % 2 ^ 32, g2))) ∧
    ((resident g.offset_len g.icache addr →
        ∃ g1, icache_access g addr = some (g.icacheHitTime, g1)) ∧
     (¬ resident g.offset_len g.icache addr →
        ∃ p g2 g1, l2cache_access (icache_tick g) addr = some (p, g2) ∧
          icache_access g addr = some ((g.icacheHitTime + p) % 2 ^ 32, g1) ∧
          (resident g.offset_len g.l2cache addr → p = g.l2cacheHitTime) ∧
          (¬ resident g.offset_len g.l2cache addr →
            p = (g.l2cacheHitTime + g.memspeed) % 2 ^ 32))) ∧
    ((resident g.offset_len g.dcache addr →
        ∃ g1, dcache_access g addr = some (g.dcacheHitTime, g1)) ∧
     (¬ resident g.offset_len g.dcache addr →
        ∃ p g2 g1, l2cache_access (dcache_tick g) addr = some (p, g2) ∧
          dcache_access g addr = some ((g.dcacheHitTime + p) % 2 ^ 32, g1) ∧
          (resident g.offset_len g.l2cache addr → p = g.l2cacheHitTime) ∧
          (¬ resident g.offset_len g.l2cache addr →
            p = (g.l2cacheHitTime + g.memspeed) % 2 ^ 32))) ∧
    (∀ r g1, icache_access g addr = some (r, g1) →
        r = g.icacheHitTime ∨ r = (g.icacheHitTime + g.l2cacheHitTime) % 2 ^ 32 ∨
        r = (g.icacheHitTime + (g.l2cacheHitTime + g.memspeed) % 2 ^ 32) % 2 ^ 32) ∧
    (∀ r g1, dcache_access g addr = some (r, g1) →
        r = g.dcacheHitTime ∨ r = (g.dcacheHitTime + g.l2cacheHitTime) % 2 ^ 32 ∨
        r = (g.dcacheHitTime + (g.l2cacheHitTime + g.memspeed) % 2 ^ 32) % 2 ^ 32) := by
  obtain ⟨w1, w2, w3, t1, t2, t3⟩ := reachable_WF n g hr
  refine ⟨⟨?_, ?_⟩, ⟨?_, ?_⟩, ⟨?_, ?_⟩, ?_, ?_⟩
  · intro h
    obtain ⟨i, _, _, e⟩ := l2cache_access_hit g addr w3 h
    exact ⟨_, by rw [e, t3]⟩
  · intro h
    obtain ⟨ev, _, e⟩ := l2cache_access_miss g addr w3 h
    exact ⟨_, by rw [e, t3]⟩
  · intro h
    obtain ⟨i, _, _, e⟩ := icache_access_hit g addr w1 h
    exact ⟨_, by rw [e, t1]⟩
  · intro h
    by_cases h2 : resident g.offset_len g.l2cache addr
    · obtain ⟨i, _, _, e2⟩ := l2cache_access_hit (icache_tick g) addr w3 h2
      obtain ⟨ev, _, e⟩ := icache_access_miss g addr w1 h _ _ e2 rfl rfl
      refine ⟨_, _, _, e2, by rw [e, t1], fun _ => t3, fun hn => absurd h2 hn⟩
    · obtain ⟨ev2, _, e2⟩ := l2cache_access_miss (icache_tick g) addr w3 h2
      obtain ⟨ev, _, e⟩ := icache_access_miss g addr w1 h _ _ e2 rfl rfl
      refine ⟨_, _, _, e2, by rw [e, t1], fun hn => absurd hn h2, fun _ => ?_⟩
      show (g.l2cache.hit_time + g.memspeed) % 2 ^ 32 = _
      rw [t3]
  · intro h
    obtain ⟨i, _, _, e⟩ := dcache_access_hit g addr w2 h
    exact ⟨_, by rw [e, t2]⟩
  · intro h
    by_cases h2 : resident g.offset_len g.l2cache addr
    · obtain ⟨i, _, _, e2⟩ := l2cache_access_hit (dcache_tick g) addr w3 h2
      obtain ⟨ev, _, e⟩ := dcache_access_miss g addr w2 h _ _ e2 rfl rfl
      refine ⟨_, _, _, e2, by rw [e, t2], fun _ => t3, fun hn => absurd h2 hn⟩
    · obtain ⟨ev2, _, e2⟩ := l2cache_access_miss (dcache_tick g) addr w3 h2
      obtain ⟨ev, _, e⟩ := dcache_access_miss g addr w2 h _ _ e2 rfl rfl
      refine ⟨_, _, _, e2, by rw [e, t2], fun hn => absurd hn h2, fun _ => ?_⟩
      show (g.l2cache.hit_time + g.memspeed) % 2 ^ 32 = _
      rw [t3]
  · intro r g1 he
    rcases icache_access_outcome g addr w1 w3 with
      ⟨_, i, _, _, e⟩ | ⟨_, _, ev, i, _, _, e⟩ | ⟨_, _, ev, ev2, _, _, e⟩
    · rw [e] at he; cases he; left; exact t1
    · rw [e] at he; cases he; right; left; rw [t1, t3]
    · rw [e] at he; cases he; right; right; rw [t1, t3]
  · intro r g1 he
    rcases dcache_access_outcome g addr w2 w3 with
      ⟨_, i, _, _, e⟩ | ⟨_, _, ev, i, _, _, e⟩ | ⟨_, _, ev, ev2, _, _, e⟩
    · rw [e] at he; cases he; left; exact t2
    · rw [e] at he; cases he; right; left; rw [t2, t3]
    · rw [e] at he; cases he; right; right; rw [t2, t3]

/-- Witness of C3 on the scenario of section 8: right after `init_cache` the
line of address 0 is resident nowhere and `icache_access(0)` returns
`1 + 110`. -/
theorem access_latency_witness :
    Reachable 0 scenario_fresh ∧ ¬ resident scenario_fresh.offset_len scenario_fresh.icache 0 ∧
    ∃ p g2 g1, l2cache_access (icache_tick scenario_fresh) 0 = some (p, g2) ∧
      icache_access scenario_fresh 0 = some ((1 + p) % 2 ^ 32, g1) ∧
      (resident scenario_fresh.offset_len scenario_fresh.l2cache 0 → p = 10) ∧
      (¬ resident scenario_fresh.offset_len scenario_fresh.l2cache 0 → p = 110) :=
  ⟨Reachable.init scenario scenario_fresh rfl (by decide) (by decide), by decide,
    (access_latency 0 scenario_fresh (Reachable.init scenario scenario_fresh rfl (by decide) (by decide))
      0).2.1.2 (by decide)⟩

/-- C4 (address round-trip). For a level with `tag_len = 32 - index_len -
offset_len` and `index_len + offset_len < 32`, and every 32-bit address `A`,
`assemble_addr (get_index A) (get_tag A)` is `A` with its low `offset_len` bits
cleared, `(A >> offset_len) << offset_len`. -/
theorem address_round_trip (c : AssocCache) (offset_len A : Nat)
    (ht : c.tag_len = 32 - c.index_len - offset_len) (hl : c.index_len + offset_len < 32)
    (hA : A < 2 ^ 32) :
    assemble_addr offset_len c (get_index offset_len c A) (get_tag c A)
      = (A >>> offset_len) <<< offset_len := by
  have hs : sub32 32 c.tag_len = offset_len + c.index_len := by
    unfold sub32; rw [ht]; omega
  unfold assemble_addr get_index get_tag
  rw [hs, Nat.one_shiftLeft, Nat.and_pow_two_sub_one_eq_mod, Nat.shiftRight_add]
  have hB1 : (A >>> offset_len) <<< offset_len < 2 ^ 32 := by
    rw [Nat.shiftLeft_eq, Nat.shiftRight_eq_div_pow]
    exact lt_of_le_of_lt (Nat.div_mul_le_self A _) hA
  have hB2 : A >>> offset_len < 2 ^ 32 := by
    rw [Nat.shiftRight_eq_div_pow]
    exact lt_of_le_of_lt (Nat.div_le_self A _) hA
  generalize A >>> offset_len = B at hB1 hB2 ⊢
  have h1 : (B >>> c.index_len) <<< c.index_len < 2 ^ 32 := by
    rw [Nat.shiftLeft_eq, Nat.shiftRight_eq_div_pow]
    exact lt_of_le_of_lt (Nat.div_mul_le_self B _) hB2
  have h2 : (B >>> c.index_len) <<< c.index_len ||| B % 2 ^ c.index_len = B := by
    rw [Nat.shiftLeft_eq, Nat.shiftRight_eq_div_pow, Nat.mul_comm,
      ← Nat.mul_add_lt_is_or (Nat.mod_lt _ (Nat.pos_pow_of_pos _ (by decide)))]
    exact Nat.div_add_mod B _
  rw [Nat.mod_eq_of_lt h1, h2, Nat.mod_eq_of_lt hB1]

/-- Witness of C4: 64 sets and 16-byte blocks (6 index bits, 4 offset bits, 22
tag bits) at address `0xDEADBEEF`. -/
theorem address_round_trip_witness :
    assemble_addr 4 ⟨64, 1, 1, [], [], 6, 22⟩ (get_index 4 ⟨64, 1, 1, [], [], 6, 22⟩ 3735928559)
      (get_tag ⟨64, 1, 1, [], [], 6, 22⟩ 3735928559) = (3735928559 >>> 4) <<< 4 :=
  address_round_trip ⟨64, 1, 1, [], [], 6, 22⟩ 4 3735928559 (by decide) (by decide) (by decide)

/-- C5 (counter invariants). When no 64-bit counter overflows in the step
(`no_overflow`), an `icache_access` or `dcache_access` leaves each of the nine
statistics counters at least as large as before; and in every state reached
from `init_cache` by fewer than 2^64 accesses, `icacheMisses ≤ icacheRefs`,
`dcacheMisses ≤ dcacheRefs` and `l2cacheMisses ≤ l2cacheRefs`. -/
theorem counter_invariants :
    (∀ g addr r g1, no_overflow g →
      (icache_access g addr = some (r, g1) ∨ dcache_access g addr = some (r, g1)) →
      g.icacheRefs ≤ g1.icacheRefs ∧ g.icacheMisses ≤ g1.icacheMisses ∧
      g.icachePenalties ≤ g1.icachePenalties ∧
      g.dcacheRefs ≤ g1.dcacheRefs ∧ g.dcacheMisses ≤ g1.dcacheMisses ∧
      g.dcachePenalties ≤ g1.dcachePenalties ∧
      g.l2cacheRefs ≤ g1.l2cacheRefs ∧ g.l2cacheMisses ≤ g1.l2cacheMisses ∧
      g.l2cachePenalties ≤ g1.l2cachePenalties) ∧
    (∀ n g, Reachable n g → n < 2 ^ 64 →
      g.icacheMisses ≤ g.icacheRefs ∧ g.dcacheMisses ≤ g.dcacheRefs ∧
      g.l2cacheMisses ≤ g.l2cacheRefs) := by
  constructor
  · intro g addr r g1 hno he
    obtain ⟨o1, o2, o3, o4, o5, o6, o7, o8, o9, o10, o11⟩ := hno
    rcases he with he | he
    · have hfr := icache_access_frame _ _ _ _ he
      have d1 : g1.dcacheRefs = g.dcacheRefs := by rw [hfr]
      have d2 : g1.dcacheMisses = g.dcacheMisses := by rw [hfr]
      have d3 : g1.dcachePenalties = g.dcachePenalties := by rw [hfr]
      obtain ⟨_, k2, k3⟩ := icache_access_counters _ _ _ _ he
      rcases k3 with ⟨b1, b2, b3, b4, b5⟩ | ⟨b1, b3, ⟨b2, b4, b5⟩ | ⟨b2, b4, b5⟩⟩
      all_goals (refine ⟨?_, ?_, ?_, ?_, ?_, ?_, ?_, ?_, ?_⟩ <;> omega)
    · have hfr := dcache_access_frame _ _ _ _ he
      have d1 : g1.icacheRefs = g.icacheRefs := by rw [hfr]
      have d2 : g1.icacheMisses = g.icacheMisses := by rw [hfr]
      have d3 : g1.icachePenalties = g.icachePenalties := by rw [hfr]
      obtain ⟨_, k2, k3⟩ := dcache_access_counters _ _ _ _ he
      rcases k3 with ⟨b1, b2, b3, b4, b5⟩ | ⟨b1, b3, ⟨b2, b4, b5⟩ | ⟨b2, b4, b5⟩⟩
      all_goals (refine ⟨?_, ?_, ?_, ?_, ?_, ?_, ?_, ?_, ?_⟩ <;> omega)
  · intro n g hr hn
    obtain ⟨_, _, a3, a4, _, a6⟩ := reachable_counters n g hr hn
    exact ⟨a3, a4, a6⟩

/-- Witness of C5 on the scenario of section 8: the first `icache_access(0)`
takes `scenario_fresh` to `scenario_once`, and `scenario_once` is reachable. -/
theorem counter_invariants_witness :
    (no_overflow scenario_fresh ∧ icache_access scenario_fresh 0 = some (111, scenario_once) ∧
      scenario_fresh.icacheRefs ≤ scenario_once.icacheRefs ∧
      scenario_fresh.icacheMisses ≤ scenario_once.icacheMisses ∧
      scenario_fresh.icachePenalties ≤ scenario_once.icachePenalties ∧
      scenario_fresh.dcacheRefs ≤ scenario_once.dcacheRefs ∧
      scenario_fresh.dcacheMisses ≤ scenario_once.dcacheMisses ∧
      scenario_fresh.dcachePenalties ≤ scenario_once.dcachePenalties ∧
      scenario_fresh.l2cacheRefs ≤ scenario_once.l2cacheRefs ∧
      scenario_fresh.l2cacheMisses ≤ scenario_once.l2cacheMisses ∧
      scenario_fresh.l2cachePenalties ≤ scenario_once.l2cachePenalties) ∧
    (Reachable 1 scenario_once ∧
      scenario_once.icacheMisses ≤ scenario_once.icacheRefs ∧
      scenario_once.dcacheMisses ≤ scenario_once.dcacheRefs ∧
      scenario_once.l2cacheMisses ≤ scenario_once.l2cacheRefs) :=
  ⟨⟨by decide, by decide,
      counter_invariants.1 scenario_fresh 0 111 scenario_once (by decide) (Or.inl (by decide))⟩,
    ⟨scenario_once_reachable,
      counter_invariants.2 1 scenario_once scenario_once_reachable (by decide)⟩⟩

/-- C6 (level isolation). For every state and address, `dcache_access` leaves
`icacheRefs`, `icacheMisses`, `icachePenalties` and the whole icache store
unchanged, and `icache_access` leaves the three dcache counters and the dcache
store unchanged; hence a trace made only of data accesses changes no
instruction-cache statistic, and vice versa. In a well-formed state every such
trace runs to completion. -/
theorem level_isolation :
    (∀ g addr r g1, dcache_access g addr = some (r, g1) →
      g1.icacheRefs = g.icacheRefs ∧ g1.icacheMisses = g.icacheMisses ∧
      g1.icachePenalties = g.icachePenalties ∧ g1.icache = g.icache) ∧
    (∀ g addr r g1, icache_access g addr = some (r, g1) →
      g1.dcacheRefs = g.dcacheRefs ∧ g1.dcacheMisses = g.dcacheMisses ∧
      g1.dcachePenalties = g.dcachePenalties ∧ g1.dcache = g.dcache) ∧
    (∀ addrs g g1, run_dcache g addrs = some g1 →
      g1.icacheRefs = g.icacheRefs ∧ g1.icacheMisses = g.icacheMisses ∧
      g1.icachePenalties = g.icachePenalties ∧ g1.icache = g.icache) ∧
    (∀ addrs g g1, run_icache g addrs = some g1 →
      g1.dcacheRefs = g.dcacheRefs ∧ g1.dcacheMisses = g.dcacheMisses ∧
      g1.dcachePenalties = g.dcachePenalties ∧ g1.dcache = g.dcache) ∧
    (∀ addrs g, g.WF → (∃ g1, run_dcache g addrs = some g1) ∧ ∃ g1, run_icache g addrs = some g1) := by
  have hd : ∀ g addr r g1, dcache_access g addr = some (r, g1) →
      g1.icacheRefs = g.icacheRefs ∧ g1.icacheMisses = g.icacheMisses ∧
      g1.icachePenalties = g.icachePenalties ∧ g1.icache = g.icache := by
    intro g addr r g1 h
    have hfr := dcache_access_frame _ _ _ _ h
    exact ⟨by rw [hfr], by rw [hfr], by rw [hfr], by rw [hfr]⟩
  have hi : ∀ g addr r g1, icache_access g addr = some (r, g1) →
      g1.dcacheRefs = g.dcacheRefs ∧ g1.dcacheMisses = g.dcacheMisses ∧
      g1.dcachePenalties = g.dcachePenalties ∧ g1.dcache = g.dcache := by
    intro g addr r g1 h
    have hfr := icache_access_frame _ _ _ _ h
    exact ⟨by rw [hfr], by rw [hfr], by rw [hfr], by rw [hfr]⟩
  refine ⟨hd, hi, ?_, ?_, ?_⟩
  · intro addrs
    induction addrs with
    | nil => intro g g1 h; cases h; exact ⟨rfl, rfl, rfl, rfl⟩
    | cons a rest ih =>
      intro g g1 h
      unfold run_dcache at h
      split at h
      · rename_i r g2 he
        obtain ⟨a1, a2, a3, a4⟩ := hd _ _ _ _ he
        obtain ⟨b1, b2, b3, b4⟩ := ih _ _ h
        exact ⟨b1.trans a1, b2.trans a2, b3.trans a3, b4.trans a4⟩
      · cases h
  · intro addrs
    induction addrs with
    | nil => intro g g1 h; cases h; exact ⟨rfl, rfl, rfl, rfl⟩
    | cons a rest ih =>
      intro g g1 h
      unfold run_icache at h
      split at h
      · rename_i r g2 he
        obtain ⟨a1, a2, a3, a4⟩ := hi _ _ _ _ he
        obtain ⟨b1, b2, b3, b4⟩ := ih _ _ h
        exact ⟨b1.trans a1, b2.trans a2, b3.trans a3, b4.trans a4⟩
      · cases h
  · intro addrs
    induction addrs with
    | nil => intro g _; exact ⟨⟨g, rfl⟩, ⟨g, rfl⟩⟩
    | cons a rest ih =>
      intro g hw
      constructor
      · obtain ⟨r, g2, e, hw2⟩ := dcache_access_WF g a hw
        obtain ⟨g1, e1⟩ := (ih g2 hw2).1
        exact ⟨g1, by unfold run_dcache; simp only [e]; exact e1⟩
      · obtain ⟨r, g2, e, hw2⟩ := icache_access_WF g a hw
        obtain ⟨g1, e1⟩ := (ih g2 hw2).2
        exact ⟨g1, by unfold run_icache; simp only [e]; exact e1⟩

/-- Witness of C6: a data access in the state `scenario_once`, whose icache
holds a line, leaves the icache and its statistics as they were. -/
theorem level_isolation_witness :
    ∃ r g1, dcache_access scenario_once 0 = some (r, g1) ∧
      g1.icacheRefs = 1 ∧ g1.icacheMisses = 1 ∧ g1.icachePenalties = 110 ∧
      g1.icache = ⟨1, 1, 1, [[0]], [[1]], 0, 32⟩ :=
  ⟨11, (dcache_miss_state (l2_hit_state (dcache_tick scenario_once) 0 0) 0 0 10), by decide,
    level_isolation.1 scenario_once 0 11
      (dcache_miss_state (l2_hit_state (dcache_tick scenario_once) 0 0) 0 0 10) (by decide)⟩

/-- Counterexample to C7 as stated: with the 64-bit clock at `2^32 + 5`, a hit
on the only way of a one-set level overwrites its 32-bit timestamp with 5, so
that no way of the set carries the clock value. -/
theorem hit_stamp_counterexample :
    cache_has 0 (2 ^ 32 + 5) held_line 0 = some ({ held_line with times := [[5]] }, true, 0) ∧
      ¬ ∃ i, (([[5]] : List (List Nat)).getD 0 []).getD i 0 = 2 ^ 32 + 5 := by
  refine ⟨by decide, ?_⟩
  rintro ⟨i, hi⟩
  cases i with
  | zero => simp at hi
  | succ k => simp at hi

/-- C7, amended (hit mutates one timestamp only). Whenever `cache_has` reports
a hit, the level afterwards is the level before with one cell overwritten: the
timestamp of the matched way becomes the clock value modulo 2^32 (the clock
value itself when it is below 2^32); all tags and every timestamp of every
other way of that set and of every other set are unchanged. A first-level hit
in `icache_access` / `dcache_access` changes no cell of the other first-level
store nor of L2. -/
theorem hit_mutates_one_timestamp :
    (∀ offset_len cur_time c addr c1 ev,
      cache_has offset_len cur_time c addr = some (c1, true, ev) →
      ∃ i, way_matches (c.tags.getD (get_index offset_len c addr) [])
          (c.times.getD (get_index offset_len c addr) []) (get_tag c addr) i ∧
        c1 = stamp offset_len cur_time c addr i ∧ c1.tags = c.tags ∧
        (c1.times.getD (get_index offset_len c addr) []).getD i 0 = cur_time % 2 ^ 32 ∧
        (cur_time < 2 ^ 32 →
          (c1.times.getD (get_index offset_len c addr) []).getD i 0 = cur_time) ∧
        (∀ s w, ¬ (s = get_index offset_len c addr ∧ w = i) →
          (c1.times.getD s []).getD w 0 = (c.times.getD s []).getD w 0)) ∧
    (∀ g addr c1 ev,
      cache_has g.offset_len ((g.cur_time + 1) % 2 ^ 64) g.icache addr = some (c1, true, ev) →
      ∃ g1, icache_access g addr = some (g.icache.hit_time, g1) ∧ g1.icache = c1 ∧
        g1.dcache = g.dcache ∧ g1.l2cache = g.l2cache) ∧
    (∀ g addr c1 ev,
      cache_has g.offset_len ((g.cur_time + 1) % 2 ^ 64) g.dcache addr = some (c1, true, ev) →
      ∃ g1, dcache_access g addr = some (g.dcache.hit_time, g1) ∧ g1.dcache = c1 ∧
        g1.icache = g.icache ∧ g1.l2cache = g.l2cache) := by
  refine ⟨?_, ?_, ?_⟩
  · intro offset_len cur_time c addr c1 ev h
    unfold cache_has at h
    simp only [] at h
    split at h
    · rename_i tg tm h1 h2
      have e1 : c.tags.getD (get_index offset_len c addr) [] = tg := by
        simp only [List.getD_eq_getElem?_getD, h1, Option.getD_some]
      have e2 : c.times.getD (get_index offset_len c addr) [] = tm := by
        simp only [List.getD_eq_getElem?_getD, h2, Option.getD_some]
      have h2a : c.times[get_index offset_len c addr]?
          = some (c.times.getD (get_index offset_len c addr) []) := by rw [e2]; exact h2
      split at h
      · rename_i i ev2 hl
        have hm := cache_has_loop_hit _ _ _ _ _ _ _ _ hl
        have hlen : i < tm.length := by
          by_contra hc
          apply hm.1
          rw [List.getD_eq_getElem?_getD, List.getElem?_eq_none (by omega)]
          rfl
        cases h
        have hcell : ((c.times.set (get_index offset_len c addr)
            (tm.set i (cur_time % 2 ^ 32))).getD (get_index offset_len c addr) []).getD i 0
            = cur_time % 2 ^ 32 := by
          rw [getD_set_self2 _ _ _ h2a, List.getD_eq_getElem?_getD, List.getElem?_set_self hlen]
          rfl
        refine ⟨i, by rw [e1, e2]; exact hm, by unfold stamp; rw [e2], rfl, hcell, ?_, ?_⟩
        · intro hlt
          rw [hcell]
          exact Nat.mod_eq_of_lt hlt
        · intro s w hne
          show ((c.times.set (get_index offset_len c addr) (tm.set i (cur_time % 2 ^ 32))).getD
            s []).getD w 0 = _
          by_cases hs : s = get_index offset_len c addr
          · subst hs
            have hw : i ≠ w := fun hw => hne ⟨rfl, hw.symm⟩
            rw [getD_set_self2 _ _ _ h2a, e2, List.getD_eq_getElem?_getD,
              List.getElem?_set_ne hw, List.getD_eq_getElem?_getD]
          · have hs2 : get_index offset_len c addr ≠ s := fun h => hs h.symm
            rw [getD_set_ne2 _ _ _ _ hs2]
      · cases h
      · cases h
    · cases h
  · intro g addr c1 ev h
    have hf := (cache_has_frame _ _ _ _ _ _ _ h).1
    refine ⟨{ icache_tick g with icache := c1 }, ?_, rfl, rfl, rfl⟩
    unfold icache_access
    simp only [h]
    rw [hf]
    rfl
  · intro g addr c1 ev h
    have hf := (cache_has_frame _ _ _ _ _ _ _ h).1
    refine ⟨{ dcache_tick g with dcache := c1 }, ?_, rfl, rfl, rfl⟩
    unfold dcache_access
    simp only [h]
    rw [hf]
    rfl

/-- Witness of C7 (amended): the hit of `held_line` with the clock at
`2^32 + 5`. -/
theorem hit_mutates_one_timestamp_witness :
    cache_has 0 (2 ^ 32 + 5) held_line 0 = some ({ held_line with times := [[5]] }, true, 0) ∧
    ∃ i, way_matches (held_line.tags.getD (get_index 0 held_line 0) [])
        (held_line.times.getD (get_index 0 held_line 0) []) (get_tag held_line 0) i ∧
      { held_line with times := [[5]] } = stamp 0 (2 ^ 32 + 5) held_line 0 i ∧
      ({ held_line with times := [[5]] } : AssocCache).tags = held_line.tags ∧
      (({ held_line with times := [[5]] } : AssocCache).times.getD
        (get_index 0 held_line 0) []).getD i 0 = (2 ^ 32 + 5) % 2 ^ 32 ∧
      (2 ^ 32 + 5 < 2 ^ 32 →
        (({ held_line with times := [[5]] } : AssocCache).times.getD
          (get_index 0 held_line 0) []).getD i 0 = 2 ^ 32 + 5) ∧
      (∀ s w, ¬ (s = get_index 0 held_line 0 ∧ w = i) →
        (({ held_line with times := [[5]] } : AssocCache).times.getD s []).getD w 0
          = (held_line.times.getD s []).getD w 0) :=
  ⟨by decide,
    hit_mutates_one_timestamp.1 0 (2 ^ 32 + 5) held_line 0 { held_line with times := [[5]] } 0
      (by decide)⟩

/-- Counterexample to C8 as stated: a conflict miss need not return more than
the hit path. With L2 hit time 0 and a four-set L2 (`zero_l2_fresh`, reached
from `init_cache`, clock 0, icache direct-mapped), addresses 0 and 1 share the
icache set and differ in their tag; in `icache_access(0)`, `icache_access(1)`,
`icache_access(0)` the third access misses in the icache (line absent, miss
counter 2 to 3), is served by an L2 hit of latency 0 and returns 1, exactly the
icache hit time. With L2 hit time 1 and memory latency `2^32 - 2`
(`wrap_fresh`) the three accesses all miss and return `2^32 mod 2^32 = 0`, less
than the hit time, the miss counter ending at 3. -/
theorem conflict_miss_at_hit_time :
    (Reachable 0 zero_l2_fresh ∧ zero_l2_fresh.cur_time < 2 ^ 32 ∧
      zero_l2_fresh.icache.assoc = 1 ∧
      get_index zero_l2_fresh.offset_len zero_l2_fresh.icache 0
        = get_index zero_l2_fresh.offset_len zero_l2_fresh.icache 1 ∧
      get_tag zero_l2_fresh.icache 0 ≠ get_tag zero_l2_fresh.icache 1 ∧
      icache_access zero_l2_fresh 0 = some (101, zero_l2_one) ∧
      icache_access zero_l2_one 1 = some (101, zero_l2_two) ∧
      icache_access zero_l2_two 0 = some (1, zero_l2_three) ∧
      ¬ resident zero_l2_two.offset_len zero_l2_two.icache 0 ∧
      zero_l2_three.icacheMisses = zero_l2_two.icacheMisses + 1 ∧
      zero_l2_fresh.icacheHitTime = 1 ∧ ¬ zero_l2_fresh.icacheHitTime < 1) ∧
    (Reachable 0 wrap_fresh ∧ wrap_fresh.icache.assoc = 1 ∧
      get_index wrap_fresh.offset_len wrap_fresh.icache 0
        = get_index wrap_fresh.offset_len wrap_fresh.icache 1 ∧
      get_tag wrap_fresh.icache 0 ≠ get_tag wrap_fresh.icache 1 ∧
      (run_trace wrap_fresh [Access.ifetch 0, Access.ifetch 1, Access.ifetch 0]).map
          (fun r => (r.1, r.2.icacheMisses)) = some ([0, 0, 0], 3) ∧
      wrap_fresh.icacheHitTime = 1) := by
  refine ⟨⟨Reachable.init zero_l2_config zero_l2_fresh rfl (by decide) (by decide),
    by decide, rfl, by decide, by decide, by decide, by decide, by decide, by decide, rfl, rfl,
    by decide⟩,
    Reachable.init wrap_config wrap_fresh rfl (by decide) (by decide), rfl, by decide,
    by decide, by decide, rfl⟩

/-- C8, amended (direct-mapped conflict miss). In a state reached from
`init_cache` by `n < 2^32` accesses (the clock then equals `n`), for a
first-level cache of associativity 1 and two addresses with the same set index
and different tags, the sequence access(a), access(b), access(a) through that
cache runs to completion, the access to `b` and the second access to `a` find
their line absent, each raises that cache's miss counter by one and returns a
miss-path latency `(hit time + L2 latency) mod 2^32`, the L2 latency being
`l2cacheHitTime` or `(l2cacheHitTime + memspeed) mod 2^32`. That latency
exceeds the hit time when the L2 hit time is positive and hit time + L2 hit
time + memory latency is below `2^32`. -/
theorem direct_mapped_conflict (n : Nat) (g : Globals) (hr : Reachable n g) (hn : n < 2 ^ 32)
    (a b : Nat) :
    g.cur_time = n ∧
    (g.icache.assoc = 1 →
      get_index g.offset_len g.icache a = get_index g.offset_len g.icache b →
      get_tag g.icache a ≠ get_tag g.icache b →
      ∃ r1 g1 r2 g2 r3 g3, icache_access g a = some (r1, g1) ∧
        icache_access g1 b = some (r2, g2) ∧ icache_access g2 a = some (r3, g3) ∧
        ¬ resident g1.offset_len g1.icache b ∧ ¬ resident g2.offset_len g2.icache a ∧
        g2.icacheMisses = g1.icacheMisses + 1 ∧ g3.icacheMisses = g2.icacheMisses + 1 ∧
        (r2 = (g.icacheHitTime + g.l2cacheHitTime) % 2 ^ 32 ∨
         r2 = (g.icacheHitTime + (g.l2cacheHitTime + g.memspeed) % 2 ^ 32) % 2 ^ 32) ∧
        (r3 = (g.icacheHitTime + g.l2cacheHitTime) % 2 ^ 32 ∨
         r3 = (g.icacheHitTime + (g.l2cacheHitTime + g.memspeed) % 2 ^ 32) % 2 ^ 32) ∧
        (0 < g.l2cacheHitTime → g.icacheHitTime + g.l2cacheHitTime + g.memspeed < 2 ^ 32 →
          g.icacheHitTime < r2 ∧ g.icacheHitTime < r3)) ∧
    (g.dcache.assoc = 1 →
      get_index g.offset_len g.dcache a = get_index g.offset_len g.dcache b →
      get_tag g.dcache a ≠ get_tag g.dcache b →
      ∃ r1 g1 r2 g2 r3 g3, dcache_access g a = some (r1, g1) ∧
        dcache_access g1 b = some (r2, g2) ∧ dcache_access g2 a = some (r3, g3) ∧
        ¬ resident g1.offset_len g1.dcache b ∧ ¬ resident g2.offset_len g2.dcache a ∧
        g2.dcacheMisses = g1.dcacheMisses + 1 ∧ g3.dcacheMisses = g2.dcacheMisses + 1 ∧
        (r2 = (g.dcacheHitTime + g.l2cacheHitTime) % 2 ^ 32 ∨
         r2 = (g.dcacheHitTime + (g.l2cacheHitTime + g.memspeed) % 2 ^ 32) % 2 ^ 32) ∧
        (r3 = (g.dcacheHitTime + g.l2cacheHitTime) % 2 ^ 32 ∨
         r3 = (g.dcacheHitTime + (g.l2cacheHitTime + g.memspeed) % 2 ^ 32) % 2 ^ 32) ∧
        (0 < g.l2cacheHitTime → g.dcacheHitTime + g.l2cacheHitTime + g.memspeed < 2 ^ 32 →
          g.dcacheHitTime < r2 ∧ g.dcacheHitTime < r3)) :=
  ⟨(reachable_counters n g hr (by omega)).1,
    fun h1 hidx htag => icache_conflict n g hr hn a b h1 hidx htag,
    fun h1 hidx htag => dcache_conflict n g hr hn a b h1 hidx htag⟩

/-- Witness of C8 (amended) on the scenario of section 8 (one set, one way, block size
1): addresses 0 and 1 share set 0 and differ in their tag; both later accesses
return 11, the L2 having kept both lines apart from the one it evicted. -/
theorem direct_mapped_conflict_witness :
    Reachable 0 scenario_fresh ∧
    ∃ r1 g1 r2 g2 r3 g3, icache_access scenario_fresh 0 = some (r1, g1) ∧
      icache_access g1 1 = some (r2, g2) ∧ icache_access g2 0 = some (r3, g3) ∧
      ¬ resident g1.offset_len g1.icache 1 ∧ ¬ resident g2.offset_len g2.icache 0 ∧
      g2.icacheMisses = g1.icacheMisses + 1 ∧ g3.icacheMisses = g2.icacheMisses + 1 ∧
      (r2 = (1 + 10) % 2 ^ 32 ∨ r2 = (1 + (10 + 100) % 2 ^ 32) % 2 ^ 32) ∧
      (r3 = (1 + 10) % 2 ^ 32 ∨ r3 = (1 + (10 + 100) % 2 ^ 32) % 2 ^ 32) ∧
      ((0 : Nat) < 10 → 1 + 10 + 100 < 2 ^ 32 → 1 < r2 ∧ 1 < r3) :=
  ⟨scenario_fresh_reachable,
    (direct_mapped_conflict 0 scenario_fresh scenario_fresh_reachable (by decide) 0 1).2.1
      (by decide) (by decide) (by decide)⟩

/-- Counterexample to C9 as stated: a configuration whose instruction cache has
3 sets, not a power of two, is not rejected; `init_cache` completes with one
index bit and the first access is served. -/
theorem init_accepts_three_sets :
    ¬ is_power_of_two three_sets.icacheSets ∧
    init_cache three_sets = some three_sets_fresh ∧
    three_sets_fresh.icache.n_set = 3 ∧ three_sets_fresh.icache.index_len = 1 ∧
    (icache_access three_sets_fresh 0).map Prod.fst = some 111 := by
  refine ⟨by decide, by decide, rfl, rfl, by decide⟩

/-- C9, amended (no configuration validation). `init_cache` validates nothing
and reports no failure: for every configuration whose three set counts and
block size are non-zero, powers of two or not, it completes normally and every
level gets the configured set count; when the configuration is moreover in
`config_ok` the result is well formed and every access that follows is
served. -/
theorem init_cache_no_validation (g0 : Globals) (hb : 0 < g0.blocksize) (hi : 0 < g0.icacheSets)
    (hd : 0 < g0.dcacheSets) (hl : 0 < g0.l2cacheSets) :
    ∃ g, init_cache g0 = some g ∧
      g.icache.n_set = g0.icacheSets ∧ g.dcache.n_set = g0.dcacheSets ∧
      g.l2cache.n_set = g0.l2cacheSets ∧
      (config_ok g0 → g.WF ∧
        ∀ addr, (∃ r g1, icache_access g addr = some (r, g1)) ∧
          ∃ r g1, dcache_access g addr = some (r, g1)) := by
  obtain ⟨g, hg⟩ := init_cache_total g0 hb hi hd hl
  have hw := (init_cache_spec g0 g hg).1
  have hacc : ∀ addr, (∃ r g1, icache_access g addr = some (r, g1)) ∧
      ∃ r g1, dcache_access g addr = some (r, g1) := by
    intro addr
    obtain ⟨r, g1, e, _⟩ := icache_access_WF g addr hw
    obtain ⟨r2, g2, e2, _⟩ := dcache_access_WF g addr hw
    exact ⟨⟨r, g1, e⟩, ⟨r2, g2, e2⟩⟩
  refine ⟨g, hg, ?_⟩
  unfold init_cache at hg
  split at hg
  · cases hg
  · cases hg
    exact ⟨rfl, rfl, rfl, fun _ => ⟨hw, hacc⟩⟩

/-- Witness of C9 (amended) on the configuration with three icache sets. -/
theorem init_cache_no_validation_witness :
    ¬ is_power_of_two three_sets.icacheSets ∧ config_ok three_sets ∧
    ∃ g, init_cache three_sets = some g ∧
      g.icache.n_set = three_sets.icacheSets ∧ g.dcache.n_set = three_sets.dcacheSets ∧
      g.l2cache.n_set = three_sets.l2cacheSets ∧
      (config_ok three_sets → g.WF ∧
        ∀ addr, (∃ r g1, icache_access g addr = some (r, g1)) ∧
          ∃ r g1, dcache_access g addr = some (r, g1)) :=
  ⟨by decide, by decide,
    init_cache_no_validation three_sets (by decide) (by decide) (by decide) (by decide)⟩

/-- Counterexample to C10 as stated: `init_cache` run in `scenario_once`, a
state reached after one access with the clock at 1, leaves the clock at 1. -/
theorem init_keeps_clock :
    Reachable 1 scenario_once ∧ scenario_once.cur_time = 1 ∧
    (init_cache scenario_once).map Globals.cur_time = some 1 :=
  ⟨scenario_once_reachable, rfl, by decide⟩

/-- C10, amended (initialisation resets statistics and stores). For every prior
state with non-zero set counts and block size, `init_cache` completes; after it
the nine statistics counters are 0 and every way of every set of icache, dcache
and L2 is empty (each store is `sets` rows of `assoc` zero timestamps, an
associativity of 0 counting as 1); the logical clock `cur_time` has the value
it had before the call, which is 0 when the call is the first thing the
program does. -/
theorem init_resets (g0 : Globals) (hb : 0 < g0.blocksize) (hi : 0 < g0.icacheSets)
    (hd : 0 < g0.dcacheSets) (hl : 0 < g0.l2cacheSets) :
    ∃ g, init_cache g0 = some g ∧
      g.icacheRefs = 0 ∧ g.icacheMisses = 0 ∧ g.icachePenalties = 0 ∧
      g.dcacheRefs = 0 ∧ g.dcacheMisses = 0 ∧ g.dcachePenalties = 0 ∧
      g.l2cacheRefs = 0 ∧ g.l2cacheMisses = 0 ∧ g.l2cachePenalties = 0 ∧
      all_empty g.icache ∧ all_empty g.dcache ∧ all_empty g.l2cache ∧
      g.icache.times = List.replicate g0.icacheSets
        (List.replicate (if g0.icacheAssoc = 0 then 1 else g0.icacheAssoc) 0) ∧
      g.dcache.times = List.replicate g0.dcacheSets
        (List.replicate (if g0.dcacheAssoc = 0 then 1 else g0.dcacheAssoc) 0) ∧
      g.l2cache.times = List.replicate g0.l2cacheSets
        (List.replicate (if g0.l2cacheAssoc = 0 then 1 else g0.l2cacheAssoc) 0) ∧
      g.cur_time = g0.cur_time ∧ (g0.cur_time = 0 → g.cur_time = 0) := by
  obtain ⟨g, hg⟩ := init_cache_total g0 hb hi hd hl
  obtain ⟨_, e1, e2, e3, a1, a2, a3, a4, a5, a6, a7, a8, a9, c, _⟩ := init_cache_spec g0 g hg
  refine ⟨g, hg, a1, a2, a3, a4, a5, a6, a7, a8, a9, e1, e2, e3, ?_⟩
  unfold init_cache at hg
  split at hg
  · cases hg
  · cases hg
    exact ⟨rfl, rfl, rfl, rfl, fun h => h⟩

/-- Witness of C10 (amended): re-initialising `scenario_once`, whose clock is
at 1. -/
theorem init_resets_witness :
    ∃ g, init_cache scenario_once = some g ∧
      g.icacheRefs = 0 ∧ g.icacheMisses = 0 ∧ g.icachePenalties = 0 ∧
      g.dcacheRefs = 0 ∧ g.dcacheMisses = 0 ∧ g.dcachePenalties = 0 ∧
      g.l2cacheRefs = 0 ∧ g.l2cacheMisses = 0 ∧ g.l2cachePenalties = 0 ∧
      all_empty g.icache ∧ all_empty g.dcache ∧ all_empty g.l2cache ∧
      g.icache.times = [[0]] ∧ g.dcache.times = [[0]] ∧ g.l2cache.times = [[0]] ∧
      g.cur_time = 1 ∧ (scenario_once.cur_time = 0 → g.cur_time = 0) :=
  init_resets scenario_once (by decide) (by decide) (by decide) (by decide)

/-! ## Cells of a level -/

theorem getD2_set (m : List (List Nat)) (index w v s k : Nat) (hrow : index < m.length)
    (hw : w < (m.getD index []).length) :
    ((m.set index ((m.getD index []).set w v)).getD s []).getD k 0
      = if s = index ∧ k = w then v else (m.getD s []).getD k 0 := by
  have hi : m[index]? = some (m.getD index []) := by
    simp [List.getElem?_eq_getElem hrow]
  by_cases hs : s = index
  · subst hs
    rw [getD_set_self2 _ _ _ hi]
    by_cases hk : k = w
    · subst hk
      simp only [and_self, if_true]
      rw [List.getD_eq_getElem?_getD, List.getElem?_set_self hw]
      rfl
    · have hk2 : w ≠ k := fun h => hk h.symm
      simp only [hk, and_false, if_false]
      rw [List.getD_eq_getElem?_getD, List.getElem?_set_ne hk2, ← List.getD_eq_getElem?_getD]
  · have hs2 : index ≠ s := fun h => hs h.symm
    simp only [hs, false_and, if_false]
    rw [getD_set_ne2 _ _ _ _ hs2]

theorem time_at_stamp (offset_len cur_time : Nat) (c : AssocCache) (addr i s w : Nat)
    (h : c.WF) (hi : i < c.assoc) :
    time_at (stamp offset_len cur_time c addr i) s w
      = if s = get_index offset_len c addr ∧ w = i then cur_time % 2 ^ 32 else time_at c s w := by
  obtain ⟨_, _, _, r4⟩ := WF_rows c h offset_len addr
  have hlt := get_index_lt offset_len c addr
  have hrow : get_index offset_len c addr < c.times.length := by
    have := h.2.1; have := h.2.2.2.2.2; omega
  exact getD2_set c.times _ i _ s w hrow (by omega)

theorem tag_at_stamp (offset_len cur_time : Nat) (c : AssocCache) (addr i s w : Nat) :
    tag_at (stamp offset_len cur_time c addr i) s w = tag_at c s w := rfl

theorem time_at_installed (offset_len cur_time : Nat) (c : AssocCache) (addr ev s w : Nat)
    (h : c.WF) (hev : ev < c.assoc) :
    time_at (installed offset_len cur_time c addr ev) s w
      = if s = get_index offset_len c addr ∧ w = ev then cur_time % 2 ^ 32 else time_at c s w := by
  obtain ⟨_, _, _, r4⟩ := WF_rows c h offset_len addr
  have hlt := get_index_lt offset_len c addr
  have hrow : get_index offset_len c addr < c.times.length := by
    have := h.2.1; have := h.2.2.2.2.2; omega
  exact getD2_set c.times _ ev _ s w hrow (by omega)

theorem tag_at_installed (offset_len cur_time : Nat) (c : AssocCache) (addr ev s w : Nat)
    (h : c.WF) (hev : ev < c.assoc) :
    tag_at (installed offset_len cur_time c addr ev) s w
      = if s = get_index offset_len c addr ∧ w = ev then get_tag c addr else tag_at c s w := by
  obtain ⟨_, _, r3, _⟩ := WF_rows c h offset_len addr
  have hlt := get_index_lt offset_len c addr
  have hrow : get_index offset_len c addr < c.tags.length := by
    have := h.1; have := h.2.2.2.2.2; omega
  exact getD2_set c.tags _ ev _ s w hrow (by omega)

theorem resident_iff (offset_len : Nat) (c : AssocCache) (addr : Nat) :
    resident offset_len c addr ↔ ∃ k, k < c.assoc ∧
      time_at c (get_index offset_len c addr) k ≠ 0 ∧
      tag_at c (get_index offset_len c addr) k = get_tag c addr := Iff.rfl

/-! ## The victim of a miss -/

theorem cache_has_loop_none (tg tm : List Nat) (tag : Nat) :
    ∀ n i ev ev1, cache_has_loop tg tm tag n i ev = some (none, ev1) →
      ∀ k, i ≤ k → k < i + n → ¬ way_matches tg tm tag k := by
  intro n
  induction n with
  | zero => intro i ev ev1 _ k h1 h2; omega
  | succ n ih =>
    intro i ev ev1 h k h1 h2
    unfold cache_has_loop at h
    split at h
    · rename_i t g te e1 e2 e3
      split at h
      · cases h
      · rename_i hm
        by_cases hk : k = i
        · subst hk
          unfold way_matches
          simp only [List.getD_eq_getElem?_getD, e1, e2, Option.getD_some]
          exact hm
        · exact ih _ _ _ h k (by omega) (by omega)
    · cases h

theorem cache_has_loop_victim (tg tm : List Nat) (tag : Nat) :
    ∀ n i ev ev1, cache_has_loop tg tm tag n i ev = some (none, ev1) →
      ((i = 0 ∧ ev = 0) ∨ first_min tm i ev) → 0 < i + n → first_min tm (i + n) ev1 := by
  intro n
  induction n with
  | zero =>
    intro i ev ev1 h hinv hpos
    unfold cache_has_loop at h
    cases h
    rcases hinv with ⟨h0, _⟩ | hf
    · omega
    · exact hf
  | succ n ih =>
    intro i ev ev1 h hinv _
    unfold cache_has_loop at h
    split at h
    · rename_i t g te e1 e2 e3
      have d1 : tm.getD i 0 = t := by
        simp only [List.getD_eq_getElem?_getD, e1, Option.getD_some]
      have d3 : tm.getD ev 0 = te := by
        simp only [List.getD_eq_getElem?_getD, e3, Option.getD_some]
      split at h
      · cases h
      · have key : first_min tm (i + 1) (if t < te then i else ev) := by
          rcases hinv with ⟨h0, hev0⟩ | ⟨f1, f2, f3⟩
          · subst h0; subst hev0
            have hte : t = te := by rw [← d1, ← d3]
            subst hte
            simp only [Nat.lt_irrefl, if_false]
            refine ⟨by omega, ?_, ?_⟩
            · intro k hk
              have : k = 0 := by omega
              subst this; exact le_refl _
            · intro k hk; omega
          · by_cases hlt : t < te
            · simp only [hlt, if_true]
              refine ⟨by omega, ?_, ?_⟩
              · intro k hk
                by_cases hki : k = i
                · subst hki; exact le_refl _
                · have := f2 k (by omega)
                  rw [d1]; rw [d3] at this; omega
              · intro k hk
                have := f2 k hk
                rw [d1]; rw [d3] at this; omega
            · simp only [hlt, if_false]
              refine ⟨by omega, ?_, f3⟩
              intro k hk
              by_cases hki : k = i
              · subst hki; rw [d1, d3]; omega
              · exact f2 k (by omega)
        have := ih (i + 1) _ ev1 h (Or.inr key) (by omega)
        rw [show i + (n + 1) = i + 1 + n by omega]
        exact this
    · cases h

theorem cache_has_miss_inv (offset_len cur_time : Nat) (c c1 : AssocCache) (addr ev : Nat)
    (h : cache_has offset_len cur_time c addr = some (c1, false, ev)) :
    c1 = c ∧ ¬ resident offset_len c addr ∧
    (0 < c.assoc → first_min (c.times.getD (get_index offset_len c addr) []) c.assoc ev) := by
  have hf := (cache_has_frame _ _ _ _ _ _ _ h).2 rfl
  refine ⟨hf, ?_⟩
  unfold cache_has at h
  simp only [] at h
  split at h
  · rename_i tg tm h1 h2
    have e1 : c.tags.getD (get_index offset_len c addr) [] = tg := by
      simp only [List.getD_eq_getElem?_getD, h1, Option.getD_some]
    have e2 : c.times.getD (get_index offset_len c addr) [] = tm := by
      simp only [List.getD_eq_getElem?_getD, h2, Option.getD_some]
    split at h
    · cases h
    · rename_i ev2 hl
      cases h
      constructor
      · rintro ⟨k, hk, hm⟩
        rw [e1, e2] at hm
        exact cache_has_loop_none _ _ _ _ _ _ _ hl k (Nat.zero_le _) (by omega) hm
      · intro hpos
        rw [e2]
        have := cache_has_loop_victim _ _ _ _ _ _ _ hl (Or.inl ⟨rfl, rfl⟩) (by omega)
        simpa using this
    · cases h
  · cases h

/-! ## Installing a line -/

theorem store_write_inv (m m1 : List (List Nat)) (index way v : Nat)
    (h : store_write m index way v = some m1) :
    index < m.length ∧ way < (m.getD index []).length ∧
    m1 = m.set index ((m.getD index []).set way v) := by
  unfold store_write at h
  split at h
  · rename_i row hrow
    have hlt : index < m.length := by
      by_contra hc
      rw [List.getElem?_eq_none (by omega)] at hrow
      cases hrow
    have e : m.getD index [] = row := by
      simp only [List.getD_eq_getElem?_getD, hrow, Option.getD_some]
    split at h
    · rename_i hw
      cases h
      exact ⟨hlt, by rw [e]; exact hw, by rw [e]⟩
    · cases h
  · cases h

theorem install_inv (offset_len cur_time : Nat) (c c1 : AssocCache) (addr ev : Nat)
    (h : install offset_len cur_time c addr ev = some c1) :
    c1 = installed offset_len cur_time c addr ev ∧
    get_index offset_len c addr < c.tags.length ∧
    ev < (c.tags.getD (get_index offset_len c addr) []).length ∧
    get_index offset_len c addr < c.times.length ∧
    ev < (c.times.getD (get_index offset_len c addr) []).length := by
  unfold install at h
  simp only [] at h
  split at h
  · rename_i tags times h1 h2
    obtain ⟨a1, a2, a3⟩ := store_write_inv _ _ _ _ _ h1
    obtain ⟨b1, b2, b3⟩ := store_write_inv _ _ _ _ _ h2
    cases h
    refine ⟨?_, a1, a2, b1, b2⟩
    unfold installed
    rw [a3, b3]
  · cases h

theorem installed_cells (offset_len cur_time : Nat) (c : AssocCache) (addr ev : Nat)
    (h1 : get_index offset_len c addr < c.tags.length)
    (h2 : ev < (c.tags.getD (get_index offset_len c addr) []).length)
    (h3 : get_index offset_len c addr < c.times.length)
    (h4 : ev < (c.times.getD (get_index offset_len c addr) []).length) :
    tag_at (installed offset_len cur_time c addr ev) (get_index offset_len c addr) ev
      = get_tag c addr ∧
    time_at (installed offset_len cur_time c addr ev) (get_index offset_len c addr) ev
      = cur_time % 2 ^ 32 ∧
    ∀ s w, ¬ (s = get_index offset_len c addr ∧ w = ev) →
      tag_at (installed offset_len cur_time c addr ev) s w = tag_at c s w ∧
      time_at (installed offset_len cur_time c addr ev) s w = time_at c s w := by
  have ht := fun s w => getD2_set c.tags (get_index offset_len c addr) ev (get_tag c addr) s w h1 h2
  have hm := fun s w =>
    getD2_set c.times (get_index offset_len c addr) ev (cur_time % 2 ^ 32) s w h3 h4
  refine ⟨?_, ?_, ?_⟩
  · have := ht (get_index offset_len c addr) ev
    simp only [and_self, if_true] at this
    exact this
  · have := hm (get_index offset_len c addr) ev
    simp only [and_self, if_true] at this
    exact this
  · intro s w hne
    constructor
    · have := ht s w
      simp only [hne, if_false] at this
      exact this
    · have := hm s w
      simp only [hne, if_false] at this
      exact this

/-! ## The store of the level an access is directed at -/

theorem l2cache_access_level (g g2 : Globals) (addr p : Nat)
    (h : l2cache_access g addr = some (p, g2)) :
    probe_commit g.offset_len g.cur_time g.l2cache addr = some g2.l2cache := by
  unfold l2cache_access at h
  simp only [] at h
  split at h
  · rename_i c _ hc
    have hc2 : cache_has g.offset_len g.cur_time g.l2cache addr = some (c, true, _) := hc
    unfold probe_commit
    rw [hc2]
    cases h
    rfl
  · rename_i c ev hc
    have hc2 : cache_has g.offset_len g.cur_time g.l2cache addr = some (c, false, ev) := hc
    have hf := (cache_has_frame _ _ _ _ _ _ _ hc2).2 rfl
    unfold probe_commit
    rw [hc2]
    subst hf
    split at h
    · rename_i g3 hadd
      cases h
      unfold l2cache_add at hadd
      simp only [hc2] at hadd
      split at hadd
      · rename_i c3 hin
        cases hadd
        exact hin
      · cases hadd
    · cases h
  · cases h

theorem icache_access_level (g g1 : Globals) (addr r : Nat)
    (h : icache_access g addr = some (r, g1)) :
    probe_commit g.offset_len ((g.cur_time + 1) % 2 ^ 64) g.icache addr = some g1.icache ∧
    (g1.l2cache = g.l2cache ∨
      probe_commit g.offset_len ((g.cur_time + 1) % 2 ^ 64) g.l2cache addr = some g1.l2cache) := by
  unfold icache_access at h
  simp only [] at h
  split at h
  · rename_i c _ hc
    have hc2 : cache_has g.offset_len ((g.cur_time + 1) % 2 ^ 64) g.icache addr
        = some (c, true, _) := hc
    unfold probe_commit
    rw [hc2]
    cases h
    exact ⟨rfl, Or.inl rfl⟩
  · rename_i c ev hc
    have hc2 : cache_has g.offset_len ((g.cur_time + 1) % 2 ^ 64) g.icache addr
        = some (c, false, ev) := hc
    have hf := (cache_has_frame _ _ _ _ _ _ _ hc2).2 rfl
    unfold probe_commit
    rw [hc2]
    subst hf
    split at h
    · rename_i p g2 hl2
      have hfr := l2cache_access_frame _ _ _ _ hl2
      have hlv := l2cache_access_level _ _ _ _ hl2
      have e1 : g2.icache = g.icache := by rw [hfr]
      have e2 : g2.offset_len = g.offset_len := by rw [hfr]
      have e3 : g2.cur_time = (g.cur_time + 1) % 2 ^ 64 := by rw [hfr]
      split at h
      · rename_i c1 hin
        cases h
        rw [e1, e2, e3] at hin
        exact ⟨hin, Or.inr hlv⟩
      · cases h
    · cases h
  · cases h

theorem dcache_access_level (g g1 : Globals) (addr r : Nat)
    (h : dcache_access g addr = some (r, g1)) :
    probe_commit g.offset_len ((g.cur_time + 1) % 2 ^ 64) g.dcache addr = some g1.dcache ∧
    (g1.l2cache = g.l2cache ∨
      probe_commit g.offset_len ((g.cur_time + 1) % 2 ^ 64) g.l2cache addr = some g1.l2cache) := by
  unfold dcache_access at h
  simp only [] at h
  split at h
  · rename_i c _ hc
    have hc2 : cache_has g.offset_len ((g.cur_time + 1) % 2 ^ 64) g.dcache addr
        = some (c, true, _) := hc
    unfold probe_commit
    rw [hc2]
    cases h
    exact ⟨rfl, Or.inl rfl⟩
  · rename_i c ev hc
    have hc2 : cache_has g.offset_len ((g.cur_time + 1) % 2 ^ 64) g.dcache addr
        = some (c, false, ev) := hc
    have hf := (cache_has_frame _ _ _ _ _ _ _ hc2).2 rfl
    unfold probe_commit
    rw [hc2]
    subst hf
    split at h
    · rename_i p g2 hl2
      have hfr := l2cache_access_frame _ _ _ _ hl2
      have hlv := l2cache_access_level _ _ _ _ hl2
      have e1 : g2.dcache = g.dcache := by rw [hfr]
      have e2 : g2.offset_len = g.offset_len := by rw [hfr]
      have e3 : g2.cur_time = (g.cur_time + 1) % 2 ^ 64 := by rw [hfr]
      split at h
      · rename_i c1 hin
        cases h
        rw [e1, e2, e3] at hin
        exact ⟨hin, Or.inr hlv⟩
      · cases h
    · cases h
  · cases h

theorem probe_commit_cases (offset_len cur_time : Nat) (c c1 : AssocCache) (addr : Nat)
    (hw : c.WF) (h : probe_commit offset_len cur_time c addr = some c1) :
    (∃ i, i < c.assoc ∧
      time_at c (get_index offset_len c addr) i ≠ 0 ∧
      tag_at c (get_index offset_len c addr) i = get_tag c addr ∧
      c1 = stamp offset_len cur_time c addr i) ∨
    (¬ resident offset_len c addr ∧ ∃ ev,
      first_min (c.times.getD (get_index offset_len c addr) []) c.assoc ev ∧
      c1 = installed offset_len cur_time c addr ev) := by
  unfold probe_commit at h
  obtain ⟨c2, flag, ev, e, hev, hf, ht⟩ := cache_has_spec offset_len cur_time c addr hw
  rw [e] at h
  cases flag with
  | true =>
    obtain ⟨i, hi, hm, _, hc⟩ := ht rfl
    simp only [] at h
    cases h
    exact Or.inl ⟨i, hi, hm.1, hm.2, hc⟩
  | false =>
    obtain ⟨hc, hn, hv⟩ := cache_has_miss_inv _ _ _ _ _ _ e
    subst hc
    simp only [] at h
    rw [install_spec _ _ _ _ _ hw hev] at h
    cases h
    exact Or.inr ⟨hn, ev, hv hw.2.2.2.2.1, rfl⟩

theorem probe_commit_WF (offset_len cur_time : Nat) (c c1 : AssocCache) (addr : Nat)
    (hw : c.WF) (h : probe_commit offset_len cur_time c addr = some c1) : c1.WF := by
  rcases probe_commit_cases _ _ _ _ _ hw h with ⟨i, _, _, _, e⟩ | ⟨_, ev, _, e⟩
  · rw [e]; exact stamp_WF _ _ _ _ _ hw
  · rw [e]; exact installed_WF _ _ _ _ _ hw

theorem probe_commit_miss (offset_len cur_time : Nat) (c c0 c1 : AssocCache) (addr ev : Nat)
    (h : cache_has offset_len cur_time c addr = some (c0, false, ev))
    (hp : probe_commit offset_len cur_time c addr = some c1) :
    c1 = installed offset_len cur_time c addr ev ∧
    tag_at c1 (get_index offset_len c addr) ev = get_tag c addr ∧
    time_at c1 (get_index offset_len c addr) ev = cur_time % 2 ^ 32 ∧
    (cur_time < 2 ^ 32 → time_at c1 (get_index offset_len c addr) ev = cur_time) ∧
    ∀ s w, ¬ (s = get_index offset_len c addr ∧ w = ev) →
      tag_at c1 s w = tag_at c s w ∧ time_at c1 s w = time_at c s w := by
  have hf := (cache_has_frame _ _ _ _ _ _ _ h).2 rfl
  subst hf
  unfold probe_commit at hp
  rw [h] at hp
  simp only [] at hp
  obtain ⟨e, b1, b2, b3, b4⟩ := install_inv _ _ _ _ _ _ hp
  obtain ⟨k1, k2, k3⟩ := installed_cells offset_len cur_time c0 addr ev b1 b2 b3 b4
  subst e
  exact ⟨rfl, k1, k2, fun hlt => k2.trans (Nat.mod_eq_of_lt hlt), k3⟩

theorem victim_miss_exists (offset_len cur_time : Nat) (c : AssocCache) (addr : Nat)
    (hw : c.WF) (hn : ¬ resident offset_len c addr) :
    ∃ ev, cache_has offset_len cur_time c addr = some (c, false, ev) := by
  obtain ⟨c2, flag, ev, e, _, hf, ht⟩ := cache_has_spec offset_len cur_time c addr hw
  cases flag with
  | true =>
    obtain ⟨i, hi, hm, _, _⟩ := ht rfl
    exact absurd ⟨i, hi, hm⟩ hn
  | false =>
    obtain ⟨hc, _⟩ := hf rfl
    subst hc
    exact ⟨ev, e⟩

theorem incl_two_reachable : Reachable 2 incl_two :=
  Reachable.icache 1 incl_one incl_two 1 111
    (Reachable.icache 0 incl_fresh incl_one 0 111
      (Reachable.init incl_config incl_fresh rfl (by decide) (by decide)) (by decide) (by decide))
    (by decide) (by decide)

theorem run_trace_congr (a b : Option Globals) (h : a = b) (tr : List Access) :
    a.bind (fun g => run_trace g tr) = b.bind (fun g => run_trace g tr) := by
  rw [h]

/-! ## Claims on the associativity default, the victim and the installed line -/

/-- C11 (associativity default). An associativity configured as 0 is replaced
by 1: `init_cache` then yields the very state it yields for the configuration
with that associativity set to 1, hence the same latencies and final globals
on every trace; after `init_cache` each level has associativity 1 when 0 was
configured and the configured associativity otherwise. -/
theorem assoc_default (g0 : Globals) :
    (g0.icacheAssoc = 0 → init_cache g0 = init_cache { g0 with icacheAssoc := 1 }) ∧
    (g0.dcacheAssoc = 0 → init_cache g0 = init_cache { g0 with dcacheAssoc := 1 }) ∧
    (g0.l2cacheAssoc = 0 → init_cache g0 = init_cache { g0 with l2cacheAssoc := 1 }) ∧
    (g0.icacheAssoc = 0 → ∀ tr, (init_cache g0).bind (fun g => run_trace g tr)
      = (init_cache { g0 with icacheAssoc := 1 }).bind (fun g => run_trace g tr)) ∧
    (g0.dcacheAssoc = 0 → ∀ tr, (init_cache g0).bind (fun g => run_trace g tr)
      = (init_cache { g0 with dcacheAssoc := 1 }).bind (fun g => run_trace g tr)) ∧
    (g0.l2cacheAssoc = 0 → ∀ tr, (init_cache g0).bind (fun g => run_trace g tr)
      = (init_cache { g0 with l2cacheAssoc := 1 }).bind (fun g => run_trace g tr)) ∧
    (∀ g, init_cache g0 = some g →
      g.icache.assoc = (if g0.icacheAssoc = 0 then 1 else g0.icacheAssoc) ∧
      g.icacheAssoc = (if g0.icacheAssoc = 0 then 1 else g0.icacheAssoc) ∧
      g.dcache.assoc = (if g0.dcacheAssoc = 0 then 1 else g0.dcacheAssoc) ∧
      g.dcacheAssoc = (if g0.dcacheAssoc = 0 then 1 else g0.dcacheAssoc) ∧
      g.l2cache.assoc = (if g0.l2cacheAssoc = 0 then 1 else g0.l2cacheAssoc) ∧
      g.l2cacheAssoc = (if g0.l2cacheAssoc = 0 then 1 else g0.l2cacheAssoc)) := by
  have h1 : g0.icacheAssoc = 0 → init_cache g0 = init_cache { g0 with icacheAssoc := 1 } := by
    intro h
    unfold init_cache
    simp [h]
  have h2 : g0.dcacheAssoc = 0 → init_cache g0 = init_cache { g0 with dcacheAssoc := 1 } := by
    intro h
    unfold init_cache
    simp [h]
  have h3 : g0.l2cacheAssoc = 0 → init_cache g0 = init_cache { g0 with l2cacheAssoc := 1 } := by
    intro h
    unfold init_cache
    simp [h]
  refine ⟨h1, h2, h3, fun h tr => run_trace_congr _ _ (h1 h) tr,
    fun h tr => run_trace_congr _ _ (h2 h) tr, fun h tr => run_trace_congr _ _ (h3 h) tr, ?_⟩
  intro g hg
  unfold init_cache at hg
  split at hg
  · cases hg
  · cases hg
    exact ⟨rfl, rfl, rfl, rfl, rfl, rfl⟩

/-- Witness of C11: the scenario configured with associativity 0 everywhere
initialises to `scenario_fresh`, one way per set at every level. -/
theorem assoc_default_witness :
    zero_assoc.icacheAssoc = 0 ∧
    init_cache zero_assoc = init_cache { zero_assoc with icacheAssoc := 1 } ∧
    init_cache zero_assoc = some scenario_fresh ∧
    scenario_fresh.icache.assoc = (if zero_assoc.icacheAssoc = 0 then 1 else zero_assoc.icacheAssoc) ∧
    scenario_fresh.l2cache.assoc
      = (if zero_assoc.l2cacheAssoc = 0 then 1 else zero_assoc.l2cacheAssoc) :=
  ⟨rfl, (assoc_default zero_assoc).1 rfl, by decide,
    ((assoc_default zero_assoc).2.2.2.2.2.2 scenario_fresh (by decide)).1,
    ((assoc_default zero_assoc).2.2.2.2.2.2 scenario_fresh (by decide)).2.2.2.2.1⟩

/-- C15 (victim selection). Whenever `cache_has` reports a miss on a level with
at least one way, the way the eviction pointers address lies in the set of the
address, carries the minimum timestamp of the set, and has the lowest index
among the ways carrying it; so if the set has an empty way (timestamp 0) the
victim is the lowest-indexed empty way. In a well-formed level every probe of
a non-resident line reports such a miss and leaves the level as it was. -/
theorem victim_selection :
    (∀ offset_len cur_time c c1 addr ev,
      cache_has offset_len cur_time c addr = some (c1, false, ev) → 0 < c.assoc →
      ev < c.assoc ∧
      (∀ k, k < c.assoc →
        time_at c (get_index offset_len c addr) ev ≤ time_at c (get_index offset_len c addr) k) ∧
      (∀ k, k < ev →
        time_at c (get_index offset_len c addr) ev < time_at c (get_index offset_len c addr) k) ∧
      ((∃ k, k < c.assoc ∧ time_at c (get_index offset_len c addr) k = 0) →
        time_at c (get_index offset_len c addr) ev = 0 ∧
        ∀ k, k < ev → time_at c (get_index offset_len c addr) k ≠ 0)) ∧
    (∀ offset_len cur_time c addr, c.WF → ¬ resident offset_len c addr →
      ∃ ev, cache_has offset_len cur_time c addr = some (c, false, ev)) := by
  constructor
  · intro offset_len cur_time c c1 addr ev h hpos
    obtain ⟨_, _, hv⟩ := cache_has_miss_inv _ _ _ _ _ _ h
    obtain ⟨f1, f2, f3⟩ := hv hpos
    refine ⟨f1, f2, f3, ?_⟩
    rintro ⟨k, hk, hz⟩
    have hle := f2 k hk
    have hev0 : time_at c (get_index offset_len c addr) ev = 0 := by
      have h0 : (c.times.getD (get_index offset_len c addr) []).getD k 0 = 0 := hz
      have : (c.times.getD (get_index offset_len c addr) []).getD ev 0 = 0 := by omega
      exact this
    refine ⟨hev0, ?_⟩
    intro j hj hz2
    have hlt := f3 j hj
    have h1 : (c.times.getD (get_index offset_len c addr) []).getD j 0 = 0 := hz2
    omega
  · intro offset_len cur_time c addr hw hn
    exact victim_miss_exists offset_len cur_time c addr hw hn

/-- Witness of C15: in `mixed_set` (timestamps 3, 0, 5, 0) a miss selects way
1, the lowest-indexed empty way. -/
theorem victim_selection_witness :
    cache_has 0 9 mixed_set 1 = some (mixed_set, false, 1) ∧
    (1 < mixed_set.assoc ∧
      (∀ k, k < mixed_set.assoc →
        time_at mixed_set (get_index 0 mixed_set 1) 1 ≤ time_at mixed_set (get_index 0 mixed_set 1) k) ∧
      (∀ k, k < 1 →
        time_at mixed_set (get_index 0 mixed_set 1) 1 < time_at mixed_set (get_index 0 mixed_set 1) k) ∧
      ((∃ k, k < mixed_set.assoc ∧ time_at mixed_set (get_index 0 mixed_set 1) k = 0) →
        time_at mixed_set (get_index 0 mixed_set 1) 1 = 0 ∧
        ∀ k, k < 1 → time_at mixed_set (get_index 0 mixed_set 1) k ≠ 0)) :=
  ⟨by decide, victim_selection.1 0 9 mixed_set mixed_set 1 1 (by decide) (by decide)⟩

/-- Counterexample to C16 as stated: with the 64-bit clock at `2^32 + 5`, an
L2 miss installs the line in way 0 with the 32-bit timestamp 5, not with the
clock value. -/
theorem miss_stamp_counterexample :
    late_clock.cur_time = 2 ^ 32 + 5 ∧
    cache_has late_clock.offset_len late_clock.cur_time late_clock.l2cache 0
      = some (late_clock.l2cache, false, 0) ∧
    (l2cache_access late_clock 0).map (fun r => time_at r.2.l2cache 0 0) = some 5 ∧
    (5 : Nat) ≠ 2 ^ 32 + 5 := by
  refine ⟨rfl, by decide, by decide, by decide⟩

/-- C16, amended (miss installs exactly one line). When the probe of
`l2cache_access` misses with the eviction pointers at way `ev`, the second
probe inside `l2cache_add` selects the same way, and L2 afterwards is L2 before
with the two cells of that way overwritten: its tag is `get_tag addr` and its
timestamp the clock value modulo 2^32 (the clock value itself when below
2^32); no other tag or timestamp of L2 and no first-level store changes.
Likewise a miss of `icache_access` / `dcache_access` overwrites the two cells
of one way of that first-level store and leaves the other first-level store
untouched. In a well-formed state such misses run to completion. -/
theorem miss_installs_one_line :
    (∀ g addr c ev p g2,
      cache_has g.offset_len g.cur_time g.l2cache addr = some (c, false, ev) →
      l2cache_access g addr = some (p, g2) →
      cache_has g.offset_len g.cur_time c addr = some (c, false, ev) ∧
      g2.l2cache = installed g.offset_len g.cur_time g.l2cache addr ev ∧
      tag_at g2.l2cache (get_index g.offset_len g.l2cache addr) ev = get_tag g.l2cache addr ∧
      time_at g2.l2cache (get_index g.offset_len g.l2cache addr) ev = g.cur_time % 2 ^ 32 ∧
      (g.cur_time < 2 ^ 32 →
        time_at g2.l2cache (get_index g.offset_len g.l2cache addr) ev = g.cur_time) ∧
      (∀ s w, ¬ (s = get_index g.offset_len g.l2cache addr ∧ w = ev) →
        tag_at g2.l2cache s w = tag_at g.l2cache s w ∧
        time_at g2.l2cache s w = time_at g.l2cache s w) ∧
      g2.icache = g.icache ∧ g2.dcache = g.dcache) ∧
    (∀ g addr c ev r g1,
      cache_has g.offset_len ((g.cur_time + 1) % 2 ^ 64) g.icache addr = some (c, false, ev) →
      icache_access g addr = some (r, g1) →
      g1.icache = installed g.offset_len ((g.cur_time + 1) % 2 ^ 64) g.icache addr ev ∧
      tag_at g1.icache (get_index g.offset_len g.icache addr) ev = get_tag g.icache addr ∧
      time_at g1.icache (get_index g.offset_len g.icache addr) ev
        = ((g.cur_time + 1) % 2 ^ 64) % 2 ^ 32 ∧
      (∀ s w, ¬ (s = get_index g.offset_len g.icache addr ∧ w = ev) →
        tag_at g1.icache s w = tag_at g.icache s w ∧
        time_at g1.icache s w = time_at g.icache s w) ∧
      g1.dcache = g.dcache) ∧
    (∀ g addr c ev r g1,
      cache_has g.offset_len ((g.cur_time + 1) % 2 ^ 64) g.dcache addr = some (c, false, ev) →
      dcache_access g addr = some (r, g1) →
      g1.dcache = installed g.offset_len ((g.cur_time + 1) % 2 ^ 64) g.dcache addr ev ∧
      tag_at g1.dcache (get_index g.offset_len g.dcache addr) ev = get_tag g.dcache addr ∧
      time_at g1.dcache (get_index g.offset_len g.dcache addr) ev
        = ((g.cur_time + 1) % 2 ^ 64) % 2 ^ 32 ∧
      (∀ s w, ¬ (s = get_index g.offset_len g.dcache addr ∧ w = ev) →
        tag_at g1.dcache s w = tag_at g.dcache s w ∧
        time_at g1.dcache s w = time_at g.dcache s w) ∧
      g1.icache = g.icache) ∧
    (∀ g addr, g.WF →
      (¬ resident g.offset_len g.l2cache addr → ∃ ev p g2,
        cache_has g.offset_len g.cur_time g.l2cache addr = some (g.l2cache, false, ev) ∧
        l2cache_access g addr = some (p, g2)) ∧
      (¬ resident g.offset_len g.icache addr → ∃ ev r g1,
        cache_has g.offset_len ((g.cur_time + 1) % 2 ^ 64) g.icache addr
          = some (g.icache, false, ev) ∧
        icache_access g addr = some (r, g1)) ∧
      (¬ resident g.offset_len g.dcache addr → ∃ ev r g1,
        cache_has g.offset_len ((g.cur_time + 1) % 2 ^ 64) g.dcache addr
          = some (g.dcache, false, ev) ∧
        dcache_access g addr = some (r, g1))) := by
  refine ⟨?_, ?_, ?_, ?_⟩
  · intro g addr c ev p g2 hc h
    have hf := (cache_has_frame _ _ _ _ _ _ _ hc).2 rfl
    have hfr := l2cache_access_frame _ _ _ _ h
    obtain ⟨k1, k2, k3, k4, k5⟩ := probe_commit_miss _ _ _ _ _ _ _ hc (l2cache_access_level _ _ _ _ h)
    refine ⟨?_, k1, k2, k3, k4, k5, by rw [hfr], by rw [hfr]⟩
    rw [hf]; rw [hf] at hc; exact hc
  · intro g addr c ev r g1 hc h
    have hfr := icache_access_frame _ _ _ _ h
    obtain ⟨k1, k2, k3, _, k5⟩ :=
      probe_commit_miss _ _ _ _ _ _ _ hc (icache_access_level _ _ _ _ h).1
    exact ⟨k1, k2, k3, k5, by rw [hfr]⟩
  · intro g addr c ev r g1 hc h
    have hfr := dcache_access_frame _ _ _ _ h
    obtain ⟨k1, k2, k3, _, k5⟩ :=
      probe_commit_miss _ _ _ _ _ _ _ hc (dcache_access_level _ _ _ _ h).1
    exact ⟨k1, k2, k3, k5, by rw [hfr]⟩
  · intro g addr hw
    refine ⟨?_, ?_, ?_⟩
    · intro hn
      obtain ⟨ev, e⟩ := victim_miss_exists g.offset_len g.cur_time g.l2cache addr hw.2.2.1 hn
      obtain ⟨ev2, _, e2⟩ := l2cache_access_miss g addr hw.2.2.1 hn
      exact ⟨ev, _, _, e, e2⟩
    · intro hn
      obtain ⟨ev, e⟩ :=
        victim_miss_exists g.offset_len ((g.cur_time + 1) % 2 ^ 64) g.icache addr hw.1 hn
      obtain ⟨r, g1, e2, _⟩ := icache_access_WF g addr hw
      exact ⟨ev, r, g1, e, e2⟩
    · intro hn
      obtain ⟨ev, e⟩ :=
        victim_miss_exists g.offset_len ((g.cur_time + 1) % 2 ^ 64) g.dcache addr hw.2.1 hn
      obtain ⟨r, g1, e2, _⟩ := dcache_access_WF g addr hw
      exact ⟨ev, r, g1, e, e2⟩

/-- Witness of C16 (amended): the L2 miss of `late_clock`, whose clock stands
at `2^32 + 5`; way 0 receives tag 0 and timestamp 5. -/
theorem miss_installs_one_line_witness :
    cache_has late_clock.offset_len late_clock.cur_time late_clock.l2cache 0
      = some (late_clock.l2cache, false, 0) ∧
    l2cache_access late_clock 0 = some (110, l2_miss_state late_clock 0 0) ∧
    time_at (l2_miss_state late_clock 0 0).l2cache 0 0 = 5 ∧
    (cache_has late_clock.offset_len late_clock.cur_time late_clock.l2cache 0
        = some (late_clock.l2cache, false, 0) ∧
      (l2_miss_state late_clock 0 0).l2cache
        = installed late_clock.offset_len late_clock.cur_time late_clock.l2cache 0 0 ∧
      tag_at (l2_miss_state late_clock 0 0).l2cache
        (get_index late_clock.offset_len late_clock.l2cache 0) 0 = get_tag late_clock.l2cache 0 ∧
      time_at (l2_miss_state late_clock 0 0).l2cache
        (get_index late_clock.offset_len late_clock.l2cache 0) 0 = late_clock.cur_time % 2 ^ 32 ∧
      (late_clock.cur_time < 2 ^ 32 →
        time_at (l2_miss_state late_clock 0 0).l2cache
          (get_index late_clock.offset_len late_clock.l2cache 0) 0 = late_clock.cur_time) ∧
      (∀ s w, ¬ (s = get_index late_clock.offset_len late_clock.l2cache 0 ∧ w = 0) →
        tag_at (l2_miss_state late_clock 0 0).l2cache s w = tag_at late_clock.l2cache s w ∧
        time_at (l2_miss_state late_clock 0 0).l2cache s w = time_at late_clock.l2cache s w) ∧
      (l2_miss_state late_clock 0 0).icache = late_clock.icache ∧
      (l2_miss_state late_clock 0 0).dcache = late_clock.dcache) :=
  ⟨by decide, by decide, by decide,
    miss_installs_one_line.1 late_clock 0 late_clock.l2cache 0 110 (l2_miss_state late_clock 0 0)
      (by decide) (by decide)⟩

/-! ## Claims on inclusion and on the bounds of the set index -/

/-- C19 (inclusion is not maintained). `l2cache_access` never modifies a
first-level store; and with the inclusive flag set, a two-way instruction cache
and a one-way L2 (one set each, block size 1), `icache_access(0)` followed by
`icache_access(1)` reaches a state in which the line of address 0 is resident
in the icache, where an access to it hits, and not resident in L2. -/
theorem inclusion_not_maintained :
    (∀ g addr p g2, l2cache_access g addr = some (p, g2) →
      g2.icache = g.icache ∧ g2.dcache = g.dcache) ∧
    (incl_config.inclusive = 1 ∧ incl_config.cur_time = 0 ∧ config_ok incl_config ∧
      init_cache incl_config = some incl_fresh ∧
      icache_access incl_fresh 0 = some (111, incl_one) ∧
      icache_access incl_one 1 = some (111, incl_two) ∧
      Reachable 2 incl_two ∧ incl_two.inclusive = 1 ∧
      resident incl_two.offset_len incl_two.icache 0 ∧
      ¬ resident incl_two.offset_len incl_two.l2cache 0 ∧
      (icache_access incl_two 0).map Prod.fst = some incl_two.icacheHitTime) := by
  constructor
  · intro g addr p g2 h
    have hfr := l2cache_access_frame _ _ _ _ h
    exact ⟨by rw [hfr], by rw [hfr]⟩
  · exact ⟨rfl, rfl, by decide, by decide, by decide, by decide, incl_two_reachable, rfl,
      by decide, by decide, by decide⟩

/-- Witness of C19: the L2 access that evicts the line of address 0 in
`incl_one` leaves both first-level stores as they were. -/
theorem inclusion_not_maintained_witness :
    l2cache_access (icache_tick incl_one) 1
      = some (110, l2_miss_state (icache_tick incl_one) 1 0) ∧
    (l2_miss_state (icache_tick incl_one) 1 0).icache = (icache_tick incl_one).icache ∧
    (l2_miss_state (icache_tick incl_one) 1 0).dcache = (icache_tick incl_one).dcache :=
  ⟨by decide,
    inclusion_not_maintained.1 (icache_tick incl_one) 1 110
      (l2_miss_state (icache_tick incl_one) 1 0) (by decide)⟩

/-- C20 (set index in bounds). For a level with `n_set ≥ 1` and `index_len =
floor(log2(n_set))`, every address has `get_index addr < 2^index_len ≤ n_set`.
If moreover the level has at least one way and its store has the shape
`malloc_cache` allocates, then the row `get_index addr` exists in both arrays,
every way `i < assoc` of it (way 0 in particular) is a cell of the row, and
`cache_has` returns a result: its out-of-bounds outcome does not occur, the
eviction pointers address a way of the set and the store keeps its shape.
`init_cache` establishes these conditions for the three levels. -/
theorem index_in_bounds :
    (∀ c offset_len addr, 1 ≤ c.n_set → c.index_len = floor_log2 c.n_set →
      get_index offset_len c addr < 2 ^ c.index_len ∧ 2 ^ c.index_len ≤ c.n_set) ∧
    (∀ c offset_len cur_time addr, 1 ≤ c.n_set → c.index_len = floor_log2 c.n_set →
      1 ≤ c.assoc → allocated c →
      get_index offset_len c addr < c.tags.length ∧
      get_index offset_len c addr < c.times.length ∧
      (∀ i, i < c.assoc →
        i < (c.tags.getD (get_index offset_len c addr) []).length ∧
        i < (c.times.getD (get_index offset_len c addr) []).length) ∧
      0 < (c.tags.getD (get_index offset_len c addr) []).length ∧
      0 < (c.times.getD (get_index offset_len c addr) []).length ∧
      ∃ c1 flag ev, cache_has offset_len cur_time c addr = some (c1, flag, ev) ∧
        ev < c.assoc ∧ allocated c1) ∧
    (∀ g0 g, config_ok g0 → init_cache g0 = some g →
      (1 ≤ g.icache.n_set ∧ g.icache.index_len = floor_log2 g.icache.n_set ∧
        1 ≤ g.icache.assoc ∧ allocated g.icache) ∧
      (1 ≤ g.dcache.n_set ∧ g.dcache.index_len = floor_log2 g.dcache.n_set ∧
        1 ≤ g.dcache.assoc ∧ allocated g.dcache) ∧
      (1 ≤ g.l2cache.n_set ∧ g.l2cache.index_len = floor_log2 g.l2cache.n_set ∧
        1 ≤ g.l2cache.assoc ∧ allocated g.l2cache)) := by
  have hA : ∀ (c : AssocCache) offset_len addr, 1 ≤ c.n_set → c.index_len = floor_log2 c.n_set →
      get_index offset_len c addr < 2 ^ c.index_len ∧ 2 ^ c.index_len ≤ c.n_set := by
    intro c offset_len addr hn hi
    refine ⟨get_index_lt offset_len c addr, ?_⟩
    rw [hi]
    exact floor_log2_le _ hn
  refine ⟨hA, ?_, ?_⟩
  · intro c offset_len cur_time addr hn hi ha hal
    obtain ⟨b1, b2⟩ := hA c offset_len addr hn hi
    have hw : c.WF := ⟨hal.1, hal.2.1, hal.2.2.1, hal.2.2.2, ha, b2⟩
    obtain ⟨_, _, r3, r4⟩ := WF_rows c hw offset_len addr
    obtain ⟨c1, flag, ev, e, hev, hf, ht⟩ := cache_has_spec offset_len cur_time c addr hw
    have hal1 : allocated c1 := by
      cases flag with
      | false => rw [(hf rfl).1]; exact hal
      | true =>
        obtain ⟨i, _, _, _, hc⟩ := ht rfl
        have := stamp_WF offset_len cur_time c addr i hw
        rw [hc]
        exact ⟨this.1, this.2.1, this.2.2.1, this.2.2.2.1⟩
    refine ⟨by rw [hal.1]; omega, by rw [hal.2.1]; omega, ?_, by omega, by omega,
      c1, flag, ev, e, hev, hal1⟩
    intro i hi2
    exact ⟨by omega, by omega⟩
  · intro g0 g hok hg
    obtain ⟨⟨w1, w2, w3, _, _, _⟩, _⟩ := init_cache_spec g0 g hg
    have p1 := width_exact_pos _ hok.2.1
    have p2 := width_exact_pos _ hok.2.2.1
    have p3 := width_exact_pos _ hok.2.2.2.1
    unfold init_cache at hg
    split at hg
    · cases hg
    · cases hg
      exact ⟨⟨p1, rfl, w1.2.2.2.2.1, w1.1, w1.2.1, w1.2.2.1, w1.2.2.2.1⟩,
        ⟨p2, rfl, w2.2.2.2.2.1, w2.1, w2.2.1, w2.2.2.1, w2.2.2.2.1⟩,
        ⟨p3, rfl, w3.2.2.2.2.1, w3.1, w3.2.1, w3.2.2.1, w3.2.2.2.1⟩⟩

/-- Witness of C20 on the instruction cache of `three_sets_fresh` (three sets,
one index bit) at address 5. -/
theorem index_in_bounds_witness :
    (1 ≤ three_sets_fresh.icache.n_set ∧
      three_sets_fresh.icache.index_len = floor_log2 three_sets_fresh.icache.n_set ∧
      1 ≤ three_sets_fresh.icache.assoc ∧ allocated three_sets_fresh.icache) ∧
    (get_index 0 three_sets_fresh.icache 5 < 2 ^ three_sets_fresh.icache.index_len ∧
      2 ^ three_sets_fresh.icache.index_len ≤ three_sets_fresh.icache.n_set) ∧
    get_index 0 three_sets_fresh.icache 5 = 1 :=
  ⟨by decide, index_in_bounds.1 three_sets_fresh.icache 0 5 (by decide) (by decide), by decide⟩

/-! ## Accounting of L2 references and of penalties -/

theorem refs_mod_step (a b l : Nat) (h : l = (a + b) % 2 ^ 64) :
    (l + 1) % 2 ^ 64 = ((a + 1) % 2 ^ 64 + b) % 2 ^ 64 := by
  omega

theorem refs_mod_step_right (a b l : Nat) (h : l = (a + b) % 2 ^ 64) :
    (l + 1) % 2 ^ 64 = (a + (b + 1) % 2 ^ 64) % 2 ^ 64 := by
  omega

theorem reachable_l2_refs (n : Nat) (g : Globals) (h : Reachable n g) :
    g.l2cacheRefs = (g.icacheMisses + g.dcacheMisses) % 2 ^ 64 := by
  induction h with
  | init g0 g _ _ hi =>
    obtain ⟨_, _, _, _, _, a2, _, _, a5, _, a7, _⟩ := init_cache_spec g0 g hi
    rw [a2, a5, a7]
    rfl
  | icache n g g1 addr r _ _ he ih =>
    have hfr := icache_access_frame _ _ _ _ he
    have d2 : g1.dcacheMisses = g.dcacheMisses := by rw [hfr]
    obtain ⟨_, _, k3⟩ := icache_access_counters _ _ _ _ he
    rcases k3 with ⟨b1, _, b3, _, _⟩ | ⟨b1, b2, _⟩
    · rw [b1, b3, d2]; exact ih
    · rw [b1, b2, d2]; exact refs_mod_step _ _ _ ih
  | dcache n g g1 addr r _ _ he ih =>
    have hfr := dcache_access_frame _ _ _ _ he
    have d2 : g1.icacheMisses = g.icacheMisses := by rw [hfr]
    obtain ⟨_, _, k3⟩ := dcache_access_counters _ _ _ _ he
    rcases k3 with ⟨b1, _, b3, _, _⟩ | ⟨b1, b2, _⟩
    · rw [b1, b3, d2]; exact ih
    · rw [b1, b2, d2]; exact refs_mod_step_right _ _ _ ih

theorem no_wrap_reachable (n : Nat) (g : Globals) (h : ReachableNoWrap n g) : Reachable n g := by
  induction h with
  | init g0 g h0 hc hi => exact Reachable.init g0 g h0 hc hi
  | icache n g g1 addr r _ ha he _ ih => exact Reachable.icache n g g1 addr r ih ha he
  | dcache n g g1 addr r _ ha he _ ih => exact Reachable.dcache n g g1 addr r ih ha he

theorem exact_of_le (x inc : Nat) (hx : x < 2 ^ 64) (hinc : inc < 2 ^ 64)
    (hle : x ≤ (x + inc) % 2 ^ 64) : (x + inc) % 2 ^ 64 = x + inc := by
  omega

theorem pen_step_hit (P R Mi h m : Nat) (hinv : P = R * h + Mi * m) :
    P + h = (R + 1) * h + Mi * m := by
  rw [hinv]; ring

theorem pen_step_miss (P R Mi h m : Nat) (hinv : P = R * h + Mi * m) :
    P + (h + m) = (R + 1) * h + (Mi + 1) * m := by
  rw [hinv]; ring

theorem l2pen_step (P Mi m : Nat) (hinv : P = Mi * m) : P + m = (Mi + 1) * m := by
  rw [hinv]; ring

/-- The exact accounting kept along a run without counter overflow, together
with the ranges of the counters involved. -/
theorem no_wrap_penalties (n : Nat) (g : Globals) (h : ReachableNoWrap n g) :
    g.l2cacheHitTime + g.memspeed < 2 ^ 32 →
    (g.icachePenalties < 2 ^ 64 ∧ g.dcachePenalties < 2 ^ 64 ∧ g.l2cachePenalties < 2 ^ 64 ∧
      g.l2cacheRefs < 2 ^ 64 ∧ g.l2cacheMisses < 2 ^ 64) ∧
    g.l2cachePenalties = g.l2cacheMisses * g.memspeed ∧
    g.icachePenalties + g.dcachePenalties
      = g.l2cacheRefs * g.l2cacheHitTime + g.l2cacheMisses * g.memspeed := by
  induction h with
  | init g0 g _ _ hi =>
    intro _
    obtain ⟨_, _, _, _, _, _, a3, _, _, a6, a7, a8, a9, _⟩ := init_cache_spec g0 g hi
    rw [a3, a6, a7, a8, a9]
    simp
  | icache n g g1 addr r hr _ he hle ih =>
    intro hcfg
    have hfr := icache_access_frame _ _ _ _ he
    have c1 : g1.l2cacheHitTime = g.l2cacheHitTime := by rw [hfr]
    have c2 : g1.memspeed = g.memspeed := by rw [hfr]
    have d3 : g1.dcachePenalties = g.dcachePenalties := by rw [hfr]
    have ht : g.l2cache.hit_time = g.l2cacheHitTime :=
      (reachable_WF n g (no_wrap_reachable n g hr)).2.2.2.2.2
    rw [c1, c2] at hcfg
    obtain ⟨⟨r1, r2, r3, r4, r5⟩, i1, i2⟩ := ih hcfg
    obtain ⟨_, _, l3, _, _, _, l7, l8, l9⟩ := hle
    obtain ⟨_, _, k3⟩ := icache_access_counters _ _ _ _ he
    rw [c1, c2, d3]
    rcases k3 with ⟨_, b2, b3, b4, b5⟩ | ⟨_, b3, ⟨b2, b4, b5⟩ | ⟨b2, b4, b5⟩⟩
    · rw [b2, b3, b4, b5]
      exact ⟨⟨r1, r2, r3, r4, r5⟩, i1, i2⟩
    · rw [ht] at b2
      rw [b2] at l3; rw [b3] at l7
      have e2 := exact_of_le _ _ r1 (by omega) l3
      have e3 := exact_of_le _ _ r4 (by omega) l7
      rw [b2, b3, b4, b5, e2, e3]
      refine ⟨⟨by omega, r2, r3, by omega, r5⟩, i1, ?_⟩
      have := pen_step_hit _ _ _ g.l2cacheHitTime g.memspeed i2
      omega
    · rw [ht, Nat.mod_eq_of_lt hcfg] at b2
      rw [b2] at l3; rw [b3] at l7; rw [b4] at l8; rw [b5] at l9
      have e2 := exact_of_le _ _ r1 (by omega) l3
      have e3 := exact_of_le _ _ r4 (by omega) l7
      have e4 := exact_of_le _ _ r5 (by omega) l8
      have e5 := exact_of_le _ _ r3 (by omega) l9
      rw [b2, b3, b4, b5, e2, e3, e4, e5]
      refine ⟨⟨by omega, r2, by omega, by omega, by omega⟩, l2pen_step _ _ _ i1, ?_⟩
      have := pen_step_miss _ _ _ g.l2cacheHitTime g.memspeed i2
      omega
  | dcache n g g1 addr r hr _ he hle ih =>
    intro hcfg
    have hfr := dcache_access_frame _ _ _ _ he
    have c1 : g1.l2cacheHitTime = g.l2cacheHitTime := by rw [hfr]
    have c2 : g1.memspeed = g.memspeed := by rw [hfr]
    have d3 : g1.icachePenalties = g.icachePenalties := by rw [hfr]
    have ht : g.l2cache.hit_time = g.l2cacheHitTime :=
      (reachable_WF n g (no_wrap_reachable n g hr)).2.2.2.2.2
    rw [c1, c2] at hcfg
    obtain ⟨⟨r1, r2, r3, r4, r5⟩, i1, i2⟩ := ih hcfg
    obtain ⟨_, _, _, _, _, l3, l7, l8, l9⟩ := hle
    obtain ⟨_, _, k3⟩ := dcache_access_counters _ _ _ _ he
    rw [c1, c2, d3]
    rcases k3 with ⟨_, b2, b3, b4, b5⟩ | ⟨_, b3, ⟨b2, b4, b5⟩ | ⟨b2, b4, b5⟩⟩
    · rw [b2, b3, b4, b5]
      exact ⟨⟨r1, r2, r3, r4, r5⟩, i1, i2⟩
    · rw [ht] at b2
      rw [b2] at l3; rw [b3] at l7
      have e2 := exact_of_le _ _ r2 (by omega) l3
      have e3 := exact_of_le _ _ r4 (by omega) l7
      rw [b2, b3, b4, b5, e2, e3]
      refine ⟨⟨r1, by omega, r3, by omega, r5⟩, i1, ?_⟩
      have := pen_step_hit _ _ _ g.l2cacheHitTime g.memspeed i2
      omega
    · rw [ht, Nat.mod_eq_of_lt hcfg] at b2
      rw [b2] at l3; rw [b3] at l7; rw [b4] at l8; rw [b5] at l9
      have e2 := exact_of_le _ _ r2 (by omega) l3
      have e3 := exact_of_le _ _ r4 (by omega) l7
      have e4 := exact_of_le _ _ r5 (by omega) l8
      have e5 := exact_of_le _ _ r3 (by omega) l9
      rw [b2, b3, b4, b5, e2, e3, e4, e5]
      refine ⟨⟨r1, by omega, by omega, by omega, by omega⟩, l2pen_step _ _ _ i1, ?_⟩
      have := pen_step_miss _ _ _ g.l2cacheHitTime g.memspeed i2
      omega

theorem scenario_once_no_wrap : ReachableNoWrap 1 scenario_once :=
  ReachableNoWrap.icache 0 scenario_fresh scenario_once 0 111
    (ReachableNoWrap.init scenario scenario_fresh rfl (by decide) (by decide))
    (by decide) (by decide) (by decide)

/-- C12 (L2 reference accounting). An `icache_access` / `dcache_access` either
leaves both that cache's miss counter and `l2cacheRefs` unchanged or adds one
to each (modulo 2^64); in a well-formed state the first happens on a hit and
the second on a miss. Hence in every reachable state `l2cacheRefs` is the
64-bit sum `icacheMisses + dcacheMisses`, which is the sum itself in every
state reached by fewer than 2^64 accesses. -/
theorem l2_reference_accounting :
    (∀ g addr r g1, icache_access g addr = some (r, g1) →
      (g1.icacheMisses = g.icacheMisses ∧ g1.l2cacheRefs = g.l2cacheRefs) ∨
      (g1.icacheMisses = (g.icacheMisses + 1) % 2 ^ 64 ∧
        g1.l2cacheRefs = (g.l2cacheRefs + 1) % 2 ^ 64)) ∧
    (∀ g addr r g1, dcache_access g addr = some (r, g1) →
      (g1.dcacheMisses = g.dcacheMisses ∧ g1.l2cacheRefs = g.l2cacheRefs) ∨
      (g1.dcacheMisses = (g.dcacheMisses + 1) % 2 ^ 64 ∧
        g1.l2cacheRefs = (g.l2cacheRefs + 1) % 2 ^ 64)) ∧
    (∀ g addr, g.WF →
      ∃ r g1, icache_access g addr = some (r, g1) ∧
        (resident g.offset_len g.icache addr →
          g1.icacheMisses = g.icacheMisses ∧ g1.l2cacheRefs = g.l2cacheRefs) ∧
        (¬ resident g.offset_len g.icache addr →
          g1.icacheMisses = (g.icacheMisses + 1) % 2 ^ 64 ∧
          g1.l2cacheRefs = (g.l2cacheRefs + 1) % 2 ^ 64)) ∧
    (∀ g addr, g.WF →
      ∃ r g1, dcache_access g addr = some (r, g1) ∧
        (resident g.offset_len g.dcache addr →
          g1.dcacheMisses = g.dcacheMisses ∧ g1.l2cacheRefs = g.l2cacheRefs) ∧
        (¬ resident g.offset_len g.dcache addr →
          g1.dcacheMisses = (g.dcacheMisses + 1) % 2 ^ 64 ∧
          g1.l2cacheRefs = (g.l2cacheRefs + 1) % 2 ^ 64)) ∧
    (∀ n g, Reachable n g →
      g.l2cacheRefs = (g.icacheMisses + g.dcacheMisses) % 2 ^ 64) ∧
    (∀ n g, Reachable n g → n < 2 ^ 64 →
      g.l2cacheRefs = g.icacheMisses + g.dcacheMisses) := by
  refine ⟨?_, ?_, ?_, ?_, reachable_l2_refs, ?_⟩
  · intro g addr r g1 h
    obtain ⟨_, _, k3⟩ := icache_access_counters _ _ _ _ h
    rcases k3 with ⟨b1, _, b3, _, _⟩ | ⟨b1, b2, _⟩
    · exact Or.inl ⟨b1, b3⟩
    · exact Or.inr ⟨b1, b2⟩
  · intro g addr r g1 h
    obtain ⟨_, _, k3⟩ := dcache_access_counters _ _ _ _ h
    rcases k3 with ⟨b1, _, b3, _, _⟩ | ⟨b1, b2, _⟩
    · exact Or.inl ⟨b1, b3⟩
    · exact Or.inr ⟨b1, b2⟩
  · intro g addr hw
    rcases icache_access_outcome g addr hw.1 hw.2.2.1 with
      ⟨hres, i, _, _, e⟩ | ⟨hn, _, ev, i, _, _, e⟩ | ⟨hn, _, ev, ev2, _, _, e⟩
    · exact ⟨_, _, e, fun _ => ⟨rfl, rfl⟩, fun h => absurd hres h⟩
    · exact ⟨_, _, e, fun h => absurd h hn, fun _ => ⟨rfl, rfl⟩⟩
    · exact ⟨_, _, e, fun h => absurd h hn, fun _ => ⟨rfl, rfl⟩⟩
  · intro g addr hw
    rcases dcache_access_outcome g addr hw.2.1 hw.2.2.1 with
      ⟨hres, i, _, _, e⟩ | ⟨hn, _, ev, i, _, _, e⟩ | ⟨hn, _, ev, ev2, _, _, e⟩
    · exact ⟨_, _, e, fun _ => ⟨rfl, rfl⟩, fun h => absurd hres h⟩
    · exact ⟨_, _, e, fun h => absurd h hn, fun _ => ⟨rfl, rfl⟩⟩
    · exact ⟨_, _, e, fun h => absurd h hn, fun _ => ⟨rfl, rfl⟩⟩
  · intro n g hr hn
    exact (reachable_counters n g hr hn).2.2.2.2.1

/-- Witness of C12 on the scenario: the first `icache_access(0)` misses and
raises `icacheMisses` and `l2cacheRefs` from 0 to 1. -/
theorem l2_reference_accounting_witness :
    icache_access scenario_fresh 0 = some (111, scenario_once) ∧
    ((scenario_once.icacheMisses = scenario_fresh.icacheMisses ∧
        scenario_once.l2cacheRefs = scenario_fresh.l2cacheRefs) ∨
      (scenario_once.icacheMisses = (scenario_fresh.icacheMisses + 1) % 2 ^ 64 ∧
        scenario_once.l2cacheRefs = (scenario_fresh.l2cacheRefs + 1) % 2 ^ 64)) ∧
    Reachable 1 scenario_once ∧
    scenario_once.l2cacheRefs = scenario_once.icacheMisses + scenario_once.dcacheMisses :=
  ⟨by decide, l2_reference_accounting.1 scenario_fresh 0 111 scenario_once (by decide),
    scenario_once_reachable,
    l2_reference_accounting.2.2.2.2.2 1 scenario_once scenario_once_reachable (by decide)⟩

/-- C13 (penalty accounting). In every state reached from `init_cache` without
any 64-bit counter overflowing on the way, under a configuration with
`l2cacheHitTime + memspeed < 2^32`: `l2cachePenalties = l2cacheMisses *
memspeed` and `icachePenalties + dcachePenalties = l2cacheRefs *
l2cacheHitTime + l2cacheMisses * memspeed`. -/
theorem penalty_accounting (n : Nat) (g : Globals) (h : ReachableNoWrap n g)
    (hcfg : g.l2cacheHitTime + g.memspeed < 2 ^ 32) :
    g.l2cachePenalties = g.l2cacheMisses * g.memspeed ∧
    g.icachePenalties + g.dcachePenalties
      = g.l2cacheRefs * g.l2cacheHitTime + g.l2cacheMisses * g.memspeed :=
  (no_wrap_penalties n g h hcfg).2

/-- Witness of C13 on the scenario after one missing access: `100 = 1 * 100`
and `110 + 0 = 1 * 10 + 1 * 100`. -/
theorem penalty_accounting_witness :
    ReachableNoWrap 1 scenario_once ∧
    scenario_once.l2cacheHitTime + scenario_once.memspeed < 2 ^ 32 ∧
    scenario_once.l2cachePenalties = scenario_once.l2cacheMisses * scenario_once.memspeed ∧
    scenario_once.icachePenalties + scenario_once.dcachePenalties
      = scenario_once.l2cacheRefs * scenario_once.l2cacheHitTime
        + scenario_once.l2cacheMisses * scenario_once.memspeed :=
  ⟨scenario_once_no_wrap, by decide,
    penalty_accounting 1 scenario_once scenario_once_no_wrap (by decide)⟩

/-! ## Invariants of the store of a level -/

theorem all_empty_time_at (c : AssocCache) (h : all_empty c) (s i : Nat) : time_at c s i = 0 := by
  unfold time_at
  simp only [List.getD_eq_getElem?_getD]
  cases hrow : c.times[s]? with
  | none => simp
  | some row =>
    simp only [Option.getD_some]
    cases ht : row[i]? with
    | none => simp
    | some t =>
      simp only [Option.getD_some]
      exact h row (List.getElem?_mem hrow) t (List.getElem?_mem ht)

theorem time_at_outside (c : AssocCache) (h : c.WF) (s i : Nat) (hi : c.assoc ≤ i) :
    time_at c s i = 0 := by
  unfold time_at
  simp only [List.getD_eq_getElem?_getD]
  cases hrow : c.times[s]? with
  | none => simp
  | some row =>
    have hlen := h.2.2.2.1 row (List.getElem?_mem hrow)
    simp only [Option.getD_some]
    rw [List.getElem?_eq_none (by omega)]
    rfl

theorem not_resident_cells (offset_len : Nat) (c : AssocCache) (addr : Nat) (h : c.WF)
    (hn : ¬ resident offset_len c addr) (k : Nat)
    (hk : time_at c (get_index offset_len c addr) k ≠ 0) :
    tag_at c (get_index offset_len c addr) k ≠ get_tag c addr := by
  intro ht
  by_cases hlt : k < c.assoc
  · exact hn ⟨k, hlt, hk, ht⟩
  · exact hk (time_at_outside c h _ k (by omega))

theorem probe_commit_cells (offset_len cur_time : Nat) (c c1 : AssocCache) (addr : Nat)
    (hw : c.WF) (h : probe_commit offset_len cur_time c addr = some c1) :
    ∃ w, w < c.assoc ∧
      (∀ s i, time_at c1 s i
        = if s = get_index offset_len c addr ∧ i = w then cur_time % 2 ^ 32 else time_at c s i) ∧
      tag_at c1 (get_index offset_len c addr) w = get_tag c addr ∧
      (∀ s i, ¬ (s = get_index offset_len c addr ∧ i = w) → tag_at c1 s i = tag_at c s i) ∧
      ((time_at c (get_index offset_len c addr) w ≠ 0 ∧
          tag_at c (get_index offset_len c addr) w = get_tag c addr ∧ c1.tags = c.tags) ∨
        (¬ resident offset_len c addr ∧
          first_min (c.times.getD (get_index offset_len c addr) []) c.assoc w)) := by
  rcases probe_commit_cases _ _ _ _ _ hw h with ⟨i, hi, h1, h2, e⟩ | ⟨hn, ev, hf, e⟩
  · subst e
    refine ⟨i, hi, fun s k => time_at_stamp _ _ _ _ _ _ _ hw hi, h2, fun _ _ _ => rfl,
      Or.inl ⟨h1, h2, rfl⟩⟩
  · subst e
    have hev := hf.1
    refine ⟨ev, hev, fun s k => time_at_installed _ _ _ _ _ _ _ hw hev, ?_, ?_, Or.inr ⟨hn, hf⟩⟩
    · rw [tag_at_installed _ _ _ _ _ _ _ hw hev]
      simp
    · intro s k hne
      rw [tag_at_installed _ _ _ _ _ _ _ hw hev]
      simp only [hne, if_false]

theorem probe_commit_no_dup (offset_len cur_time : Nat) (c c1 : AssocCache) (addr : Nat)
    (hw : c.WF) (hd : no_dup c) (h : probe_commit offset_len cur_time c addr = some c1) :
    no_dup c1 := by
  obtain ⟨w, _, hT, hGw, hG, hcase⟩ := probe_commit_cells _ _ _ _ _ hw h
  -- an occupied way of `c1` other than `w` was occupied in `c` and kept its tag
  have old : ∀ s k, ¬ (s = get_index offset_len c addr ∧ k = w) → time_at c1 s k ≠ 0 →
      time_at c s k ≠ 0 ∧ tag_at c1 s k = tag_at c s k := by
    intro s k hne hk
    rw [hT, if_neg hne] at hk
    exact ⟨hk, hG s k hne⟩
  -- the tag of way `w` differs from that of every other occupied way of its set
  have fresh : ∀ k, k ≠ w → time_at c (get_index offset_len c addr) k ≠ 0 →
      tag_at c (get_index offset_len c addr) k ≠ get_tag c addr := by
    intro k hk hocc
    rcases hcase with ⟨o1, o2, _⟩ | ⟨hn, _⟩
    · rw [← o2]
      exact hd _ _ _ hk hocc o1
    · exact not_resident_cells _ _ _ hw hn k hocc
  intro s i j hij hi hj
  by_cases ci : s = get_index offset_len c addr ∧ i = w
  · obtain ⟨cs, ciw⟩ := ci
    subst cs; subst ciw
    have cj : ¬ (get_index offset_len c addr = get_index offset_len c addr ∧ j = i) :=
      fun h => hij h.2.symm
    obtain ⟨hj2, hj3⟩ := old _ j cj hj
    rw [hGw, hj3]
    exact fun e => fresh j (fun h => hij h.symm) hj2 e.symm
  · obtain ⟨hi2, hi3⟩ := old s i ci hi
    by_cases cj : s = get_index offset_len c addr ∧ j = w
    · obtain ⟨cs, cjw⟩ := cj
      subst cs; subst cjw
      rw [hGw, hi3]
      exact fresh i hij hi2
    · obtain ⟨hj2, hj3⟩ := old s j cj hj
      rw [hi3, hj3]
      exact hd _ _ _ hij hi2 hj2

theorem times_ok_mono (ct ct1 : Nat) (c : AssocCache) (h : times_ok ct c) (hle : ct ≤ ct1) :
    times_ok ct1 c :=
  ⟨fun s i => le_trans (h.1 s i) hle, h.2⟩

theorem probe_commit_times_ok (offset_len ct ct1 : Nat) (c c1 : AssocCache) (addr : Nat)
    (hw : c.WF) (ht : times_ok ct c) (hlt : ct < ct1) (h32 : ct1 < 2 ^ 32)
    (h : probe_commit offset_len ct1 c addr = some c1) : times_ok ct1 c1 := by
  obtain ⟨w, _, hT, _, _, _⟩ := probe_commit_cells _ _ _ _ _ hw h
  rw [Nat.mod_eq_of_lt h32] at hT
  constructor
  · intro s i
    rw [hT]
    split
    · exact le_refl _
    · exact le_trans (ht.1 s i) (le_of_lt hlt)
  · intro s i j hij heq
    by_cases ci : s = get_index offset_len c addr ∧ i = w
    · have cj : ¬ (s = get_index offset_len c addr ∧ j = w) := by
        rintro ⟨_, hjw⟩
        exact hij (ci.2.trans hjw.symm)
      rw [hT s i, hT s j, if_pos ci, if_neg cj] at heq
      have := ht.1 s j
      omega
    · by_cases cj : s = get_index offset_len c addr ∧ j = w
      · rw [hT s i, hT s j, if_neg ci, if_pos cj] at heq
        have := ht.1 s i
        omega
      · rw [hT s i, hT s j, if_neg ci, if_neg cj] at heq
        rw [hT s i, if_neg ci]
        exact ht.2 s i j hij heq

theorem all_empty_no_dup (c : AssocCache) (h : all_empty c) : no_dup c :=
  fun s i _ _ hi _ => absurd (all_empty_time_at c h s i) hi

theorem all_empty_times_ok (c : AssocCache) (h : all_empty c) : times_ok 0 c :=
  ⟨fun s i => by rw [all_empty_time_at c h s i], fun s i _ _ _ => all_empty_time_at c h s i⟩

theorem reachable_no_dup (n : Nat) (g : Globals) (h : Reachable n g) :
    no_dup g.icache ∧ no_dup g.dcache ∧ no_dup g.l2cache := by
  induction h with
  | init g0 g _ _ hi =>
    obtain ⟨_, e1, e2, e3, _⟩ := init_cache_spec g0 g hi
    exact ⟨all_empty_no_dup _ e1, all_empty_no_dup _ e2, all_empty_no_dup _ e3⟩
  | icache n g g1 addr r hr _ he ih =>
    obtain ⟨w1, w2, w3, _⟩ := reachable_WF n g hr
    obtain ⟨p1, p2⟩ := icache_access_level _ _ _ _ he
    have hfr := icache_access_frame _ _ _ _ he
    have ed : g1.dcache = g.dcache := by rw [hfr]
    refine ⟨probe_commit_no_dup _ _ _ _ _ w1 ih.1 p1, by rw [ed]; exact ih.2.1, ?_⟩
    rcases p2 with e | p
    · rw [e]; exact ih.2.2
    · exact probe_commit_no_dup _ _ _ _ _ w3 ih.2.2 p
  | dcache n g g1 addr r hr _ he ih =>
    obtain ⟨w1, w2, w3, _⟩ := reachable_WF n g hr
    obtain ⟨p1, p2⟩ := dcache_access_level _ _ _ _ he
    have hfr := dcache_access_frame _ _ _ _ he
    have ed : g1.icache = g.icache := by rw [hfr]
    refine ⟨by rw [ed]; exact ih.1, probe_commit_no_dup _ _ _ _ _ w2 ih.2.1 p1, ?_⟩
    rcases p2 with e | p
    · rw [e]; exact ih.2.2
    · exact probe_commit_no_dup _ _ _ _ _ w3 ih.2.2 p

theorem reachable_times_ok (n : Nat) (g : Globals) (h : Reachable n g) :
    n < 2 ^ 32 → times_ok n g.icache ∧ times_ok n g.dcache ∧ times_ok n g.l2cache := by
  induction h with
  | init g0 g _ _ hi =>
    intro _
    obtain ⟨_, e1, e2, e3, _⟩ := init_cache_spec g0 g hi
    exact ⟨all_empty_times_ok _ e1, all_empty_times_ok _ e2, all_empty_times_ok _ e3⟩
  | icache n g g1 addr r hr _ he ih =>
    intro hn
    obtain ⟨i1, i2, i3⟩ := ih (by omega)
    obtain ⟨w1, w2, w3, _⟩ := reachable_WF n g hr
    have hct : g.cur_time = n := (reachable_counters n g hr (by omega)).1
    obtain ⟨p1, p2⟩ := icache_access_level _ _ _ _ he
    have hfr := icache_access_frame _ _ _ _ he
    have ed : g1.dcache = g.dcache := by rw [hfr]
    have hmod : (g.cur_time + 1) % 2 ^ 64 = n + 1 := by rw [hct]; omega
    rw [hmod] at p1 p2
    refine ⟨probe_commit_times_ok _ n _ _ _ _ w1 i1 (by omega) hn p1,
      by rw [ed]; exact times_ok_mono _ _ _ i2 (by omega), ?_⟩
    rcases p2 with e | p
    · rw [e]; exact times_ok_mono _ _ _ i3 (by omega)
    · exact probe_commit_times_ok _ n _ _ _ _ w3 i3 (by omega) hn p
  | dcache n g g1 addr r hr _ he ih =>
    intro hn
    obtain ⟨i1, i2, i3⟩ := ih (by omega)
    obtain ⟨w1, w2, w3, _⟩ := reachable_WF n g hr
    have hct : g.cur_time = n := (reachable_counters n g hr (by omega)).1
    obtain ⟨p1, p2⟩ := dcache_access_level _ _ _ _ he
    have hfr := dcache_access_frame _ _ _ _ he
    have ed : g1.icache = g.icache := by rw [hfr]
    have hmod : (g.cur_time + 1) % 2 ^ 64 = n + 1 := by rw [hct]; omega
    rw [hmod] at p1 p2
    refine ⟨by rw [ed]; exact times_ok_mono _ _ _ i1 (by omega),
      probe_commit_times_ok _ n _ _ _ _ w2 i2 (by omega) hn p1, ?_⟩
    rcases p2 with e | p
    · rw [e]; exact times_ok_mono _ _ _ i3 (by omega)
    · exact probe_commit_times_ok _ n _ _ _ _ w3 i3 (by omega) hn p

/-! ## Claims on duplicate residents and on timestamp ties -/

/-- C14 (no duplicate residents). In every state reachable from `init_cache`,
in each of icache, dcache and L2 and in each set, no two distinct occupied
ways (timestamp not 0) hold the same tag. -/
theorem no_duplicate_residents (n : Nat) (g : Globals) (h : Reachable n g) :
    (∀ s i j, i ≠ j → time_at g.icache s i ≠ 0 → time_at g.icache s j ≠ 0 →
      tag_at g.icache s i ≠ tag_at g.icache s j) ∧
    (∀ s i j, i ≠ j → time_at g.dcache s i ≠ 0 → time_at g.dcache s j ≠ 0 →
      tag_at g.dcache s i ≠ tag_at g.dcache s j) ∧
    (∀ s i j, i ≠ j → time_at g.l2cache s i ≠ 0 → time_at g.l2cache s j ≠ 0 →
      tag_at g.l2cache s i ≠ tag_at g.l2cache s j) :=
  reachable_no_dup n g h

/-- Witness of C14 on the two-way instruction cache of `incl_two`, whose ways
hold the tags 0 and 1. -/
theorem no_duplicate_residents_witness :
    Reachable 2 incl_two ∧ time_at incl_two.icache 0 0 ≠ 0 ∧ time_at incl_two.icache 0 1 ≠ 0 ∧
    tag_at incl_two.icache 0 0 ≠ tag_at incl_two.icache 0 1 :=
  ⟨incl_two_reachable, by decide, by decide,
    (no_duplicate_residents 2 incl_two incl_two_reachable).1 0 0 1 (by decide) (by decide)
      (by decide)⟩

/-- C17 (timestamp ties occur only between empty ways). In every state reached
from `init_cache` (clock starting at 0) by `n < 2^32` first-level accesses, the
clock is `n`, and in each of icache, dcache and L2 and in each set two distinct
ways have equal timestamps only if both are 0, and every timestamp is at most
the clock value. -/
theorem timestamp_ties (n : Nat) (g : Globals) (h : Reachable n g) (hn : n < 2 ^ 32) :
    g.cur_time = n ∧
    ((∀ s i j, i ≠ j → time_at g.icache s i = time_at g.icache s j →
        time_at g.icache s i = 0 ∧ time_at g.icache s j = 0) ∧
      (∀ s i, time_at g.icache s i ≤ g.cur_time)) ∧
    ((∀ s i j, i ≠ j → time_at g.dcache s i = time_at g.dcache s j →
        time_at g.dcache s i = 0 ∧ time_at g.dcache s j = 0) ∧
      (∀ s i, time_at g.dcache s i ≤ g.cur_time)) ∧
    ((∀ s i j, i ≠ j → time_at g.l2cache s i = time_at g.l2cache s j →
        time_at g.l2cache s i = 0 ∧ time_at g.l2cache s j = 0) ∧
      (∀ s i, time_at g.l2cache s i ≤ g.cur_time)) := by
  have hct : g.cur_time = n := (reachable_counters n g h (by omega)).1
  obtain ⟨t1, t2, t3⟩ := reachable_times_ok n g h hn
  rw [hct]
  refine ⟨rfl, ⟨?_, t1.1⟩, ⟨?_, t2.1⟩, ⟨?_, t3.1⟩⟩
  · intro s i j hij he
    have := t1.2 s i j hij he
    exact ⟨this, by rw [← he]; exact this⟩
  · intro s i j hij he
    have := t2.2 s i j hij he
    exact ⟨this, by rw [← he]; exact this⟩
  · intro s i j hij he
    have := t3.2 s i j hij he
    exact ⟨this, by rw [← he]; exact this⟩

/-- Witness of C17 on `incl_two` (clock 2): the two ways of its instruction
cache are stamped 1 and 2. -/
theorem timestamp_ties_witness :
    Reachable 2 incl_two ∧ incl_two.cur_time = 2 ∧
    time_at incl_two.icache 0 0 = 1 ∧ time_at incl_two.icache 0 1 = 2 ∧
    (∀ s i, time_at incl_two.icache s i ≤ incl_two.cur_time) :=
  ⟨incl_two_reachable, (timestamp_ties 2 incl_two incl_two_reachable (by decide)).1,
    by decide, by decide, (timestamp_ties 2 incl_two incl_two_reachable (by decide)).2.1.2⟩

/-! ## Retention of a line under least-recently-used replacement -/

theorem probe_commit_geom (offset_len cur_time : Nat) (c c1 : AssocCache) (addr : Nat)
    (hw : c.WF) (h : probe_commit offset_len cur_time c addr = some c1) :
    c1.index_len = c.index_len ∧ c1.tag_len = c.tag_len ∧ c1.assoc = c.assoc ∧
    c1.hit_time = c.hit_time := by
  rcases probe_commit_cases _ _ _ _ _ hw h with ⟨i, _, _, _, e⟩ | ⟨_, ev, _, e⟩
  · rw [e]; exact ⟨rfl, rfl, rfl, rfl⟩
  · rw [e]; exact ⟨rfl, rfl, rfl, rfl⟩

theorem occupied_lt_assoc (c : AssocCache) (h : c.WF) (s w : Nat) (hocc : time_at c s w ≠ 0) :
    w < c.assoc := by
  by_contra hc
  exact hocc (time_at_outside c h s w (by omega))

/-- One access to a set in which the line of `a` sits in way `w`, every way
stamped later than `w` holding a tag of `R`: the line of `a` stays, unless the
tags of `R` and the tag accessed are at least as many as the ways. -/
theorem retention_step (offset_len ct ct1 : Nat) (c c1 : AssocCache) (x idx tg : Nat)
    (R : Finset Nat) (hw : c.WF) (hd : no_dup c) (ht : times_ok ct c) (hlt : ct < ct1)
    (h32 : ct1 < 2 ^ 32) (h : probe_commit offset_len ct1 c x = some c1)
    (hinv : ∃ w, time_at c idx w ≠ 0 ∧ tag_at c idx w = tg ∧
      ∀ v, time_at c idx w < time_at c idx v → tag_at c idx v ∈ R)
    (hcard : (if get_index offset_len c x = idx ∧ get_tag c x ≠ tg
      then insert (get_tag c x) R else R).card < c.assoc) :
    ∃ w, time_at c1 idx w ≠ 0 ∧ tag_at c1 idx w = tg ∧
      ∀ v, time_at c1 idx w < time_at c1 idx v →
        tag_at c1 idx v ∈ (if get_index offset_len c x = idx ∧ get_tag c x ≠ tg
          then insert (get_tag c x) R else R) := by
  obtain ⟨w, hocc, htag, hnew⟩ := hinv
  obtain ⟨w2, hw2, hT, hGw, hG, hcase⟩ := probe_commit_cells _ _ _ _ _ hw h
  rw [Nat.mod_eq_of_lt h32] at hT
  have hwlt : w < c.assoc := occupied_lt_assoc c hw idx w hocc
  have hsub : ∀ y, y ∈ R → y ∈ (if get_index offset_len c x = idx ∧ get_tag c x ≠ tg
      then insert (get_tag c x) R else R) := by
    intro y hy
    split
    · exact Finset.mem_insert_of_mem hy
    · exact hy
  by_cases cA : idx = get_index offset_len c x ∧ w = w2
  · obtain ⟨cs, cw⟩ := cA
    subst cs; subst cw
    rcases hcase with ⟨_, o2, _⟩ | ⟨hn, hfm⟩
    · -- the line of `a` itself is hit and refreshed
      refine ⟨w, ?_, ?_, ?_⟩
      · rw [hT, if_pos ⟨rfl, rfl⟩]; omega
      · rw [hGw, ← o2]; exact htag
      · intro v hv
        exfalso
        rw [hT _ w, if_pos ⟨rfl, rfl⟩] at hv
        have hle : time_at c1 (get_index offset_len c x) v ≤ ct1 := by
          rw [hT]
          split
          · exact le_refl _
          · exact le_trans (ht.1 _ v) (le_of_lt hlt)
        omega
    · -- the way of `a` cannot be the victim
      exfalso
      have hne : get_tag c x ≠ tg := by
        intro he
        exact hn ⟨w, hwlt, hocc, htag.trans he.symm⟩
      rw [if_pos ⟨rfl, hne⟩] at hcard
      obtain ⟨_, f2, _⟩ := hfm
      have hnewer : ∀ v, v < c.assoc → v ≠ w →
          time_at c (get_index offset_len c x) w < time_at c (get_index offset_len c x) v := by
        intro v hv hvw
        have h1 : time_at c (get_index offset_len c x) w
            ≤ time_at c (get_index offset_len c x) v := f2 v hv
        rcases Nat.lt_or_ge (time_at c (get_index offset_len c x) w)
            (time_at c (get_index offset_len c x) v) with h2 | h2
        · exact h2
        · have heq : time_at c (get_index offset_len c x) w
              = time_at c (get_index offset_len c x) v := le_antisymm h1 h2
          exact absurd (ht.2 _ w v (fun e => hvw e.symm) heq) hocc
      have hle : (Finset.range c.assoc).card ≤ (insert (get_tag c x) R).card := by
        apply Finset.card_le_card_of_injOn
          (fun v => if v = w then get_tag c x else tag_at c (get_index offset_len c x) v)
        · intro v hv
          have hv2 : v < c.assoc := Finset.mem_range.mp hv
          by_cases hvw : v = w
          · simp only [hvw, if_true]
            exact Finset.mem_insert_self _ _
          · simp only [hvw, if_false]
            exact Finset.mem_insert_of_mem (hnew v (hnewer v hv2 hvw))
        · intro v hv v' hv' hf
          have hv2 : v < c.assoc := Finset.mem_range.mp hv
          have hv2' : v' < c.assoc := Finset.mem_range.mp hv'
          simp only [] at hf
          by_cases hvw : v = w
          · by_cases hvw' : v' = w
            · rw [hvw, hvw']
            · exfalso
              rw [if_pos hvw, if_neg hvw'] at hf
              have := hnewer v' hv2' hvw'
              exact not_resident_cells _ _ _ hw hn v' (by omega) hf.symm
          · by_cases hvw' : v' = w
            · exfalso
              rw [if_neg hvw, if_pos hvw'] at hf
              have := hnewer v hv2 hvw
              exact not_resident_cells _ _ _ hw hn v (by omega) hf
            · rw [if_neg hvw, if_neg hvw'] at hf
              by_contra hne2
              have h1 := hnewer v hv2 hvw
              have h2 := hnewer v' hv2' hvw'
              exact hd _ v v' hne2 (by omega) (by omega) hf
      rw [Finset.card_range] at hle
      omega
  · -- the way of `a` is not the one written
    have cA2 : ¬ (idx = get_index offset_len c x ∧ w = w2) := cA
    refine ⟨w, ?_, ?_, ?_⟩
    · rw [hT, if_neg cA2]; exact hocc
    · rw [hG _ _ cA2]; exact htag
    · intro v hv
      rw [hT idx w, if_neg cA2] at hv
      by_cases cv : idx = get_index offset_len c x ∧ v = w2
      · obtain ⟨cs, cvw⟩ := cv
        subst cs; subst cvw
        have hwv : w ≠ v := fun e => cA ⟨rfl, e⟩
        have hne : get_tag c x ≠ tg := by
          rcases hcase with ⟨o1, o2, _⟩ | ⟨hn, _⟩
          · rw [← o2, ← htag]
            exact hd _ v w (fun e => hwv e.symm) o1 hocc
          · intro he
            exact hn ⟨w, hwlt, hocc, htag.trans he.symm⟩
        rw [hGw, if_pos ⟨rfl, hne⟩]
        exact Finset.mem_insert_self _ _
      · rw [hT idx v, if_neg cv] at hv
        rw [hG _ _ cv]
        exact hsub _ (hnew v hv)

theorem other_tags_card_step (offset_len : Nat) (d : AssocCache) (a x : Nat)
    (rest : List (Option Nat)) (R : Finset Nat) :
    (if get_index offset_len d x = get_index offset_len d a ∧ get_tag d x ≠ get_tag d a
        then insert (get_tag d x) R else R) ∪ other_tags offset_len d a rest
      = R ∪ other_tags offset_len d a (some x :: rest) := by
  by_cases hc : get_index offset_len d x = get_index offset_len d a ∧ get_tag d x ≠ get_tag d a
  · simp only [other_tags, hc, and_self, if_true, not_false_eq_true, ne_eq,
      Finset.insert_union, Finset.union_insert]
  · simp only [other_tags, hc, if_false]

theorem level_retention (offset_len : Nat) (d : AssocCache) (a : Nat) :
    ∀ (evs : List (Option Nat)) (c : AssocCache) (t : Nat) (R : Finset Nat),
      c.WF → c.index_len = d.index_len → c.tag_len = d.tag_len → c.assoc = d.assoc →
      no_dup c → times_ok t c → t + evs.length < 2 ^ 32 →
      (∃ w, time_at c (get_index offset_len d a) w ≠ 0 ∧
        tag_at c (get_index offset_len d a) w = get_tag d a ∧
        ∀ v, time_at c (get_index offset_len d a) w < time_at c (get_index offset_len d a) v →
          tag_at c (get_index offset_len d a) v ∈ R) →
      (R ∪ other_tags offset_len d a evs).card < d.assoc →
      ∀ c1, level_run offset_len t c evs = some c1 →
        c1.WF ∧ c1.index_len = d.index_len ∧ c1.tag_len = d.tag_len ∧
        c1.hit_time = c.hit_time ∧
        ∃ w, time_at c1 (get_index offset_len d a) w ≠ 0 ∧
          tag_at c1 (get_index offset_len d a) w = get_tag d a := by
  intro evs
  induction evs with
  | nil =>
    intro c t R hw hil htl _ _ _ _ hinv _ c1 h
    unfold level_run at h
    cases h
    obtain ⟨w, h1, h2, _⟩ := hinv
    exact ⟨hw, hil, htl, rfl, w, h1, h2⟩
  | cons e rest ih =>
    intro c t R hw hil htl has hd ht hlen hinv hcard c1 h
    have hlen2 : t + 1 + rest.length < 2 ^ 32 := by
      simp only [List.length_cons] at hlen; omega
    have hmod : (t + 1) % 2 ^ 64 = t + 1 := by omega
    cases e with
    | none =>
      unfold level_run at h
      rw [hmod] at h
      exact ih c (t + 1) R hw hil htl has hd (times_ok_mono _ _ _ ht (by omega)) hlen2 hinv
        hcard c1 h
    | some x =>
      unfold level_run at h
      rw [hmod] at h
      split at h
      · rename_i c2 hp
        have ei : get_index offset_len c x = get_index offset_len d x :=
          get_index_congr offset_len d c x hil
        have et : get_tag c x = get_tag d x := get_tag_congr d c x htl
        have hunion := other_tags_card_step offset_len d a x rest R
        have hc2 : (if get_index offset_len c x = get_index offset_len d a ∧
            get_tag c x ≠ get_tag d a then insert (get_tag c x) R else R).card < c.assoc := by
          rw [ei, et, has]
          refine lt_of_le_of_lt (Finset.card_le_card ?_) hcard
          rw [← hunion]
          exact Finset.subset_union_left
        have hstep := retention_step offset_len t (t + 1) c c2 x (get_index offset_len d a)
          (get_tag d a) R hw hd ht (by omega) (by omega) hp hinv hc2
        rw [ei, et] at hstep
        obtain ⟨g1, g2, g3, g4⟩ := probe_commit_geom _ _ _ _ _ hw hp
        have hres := ih c2 (t + 1) _ (probe_commit_WF _ _ _ _ _ hw hp) (g1.trans hil)
          (g2.trans htl) (g3.trans has) (probe_commit_no_dup _ _ _ _ _ hw hd hp)
          (probe_commit_times_ok _ t _ _ _ _ hw ht (by omega) (by omega) hp) hlen2 hstep
          (by rw [hunion]; exact hcard) c1 h
        obtain ⟨k1, k2, k3, k4, k5⟩ := hres
        exact ⟨k1, k2, k3, k4.trans g4, k5⟩
      · cases h

theorem run_trace_icache (tr : List Access) :
    ∀ g lats g2, run_trace g tr = some (lats, g2) →
      level_run g.offset_len g.cur_time g.icache (tr.map icache_event) = some g2.icache ∧
      g2.offset_len = g.offset_len := by
  induction tr with
  | nil =>
    intro g lats g2 h
    unfold run_trace at h
    cases h
    exact ⟨rfl, rfl⟩
  | cons e rest ih =>
    intro g lats g2 h
    cases e with
    | ifetch x =>
      unfold run_trace at h
      split at h
      · rename_i r g1 he
        split at h
        · rename_i rs g3 hrun
          cases h
          obtain ⟨k1, k2⟩ := ih _ _ _ hrun
          have hfr := icache_access_frame _ _ _ _ he
          have eo : g1.offset_len = g.offset_len := by rw [hfr]
          have ec : g1.cur_time = (g.cur_time + 1) % 2 ^ 64 :=
            (icache_access_counters _ _ _ _ he).1
          have hp := (icache_access_level _ _ _ _ he).1
          refine ⟨?_, k2.trans eo⟩
          simp only [List.map, icache_event]
          unfold level_run
          rw [hp]
          simp only []
          rw [← ec, ← eo]
          exact k1
        · cases h
      · cases h
    | data x =>
      unfold run_trace at h
      split at h
      · rename_i r g1 he
        split at h
        · rename_i rs g3 hrun
          cases h
          obtain ⟨k1, k2⟩ := ih _ _ _ hrun
          have hfr := dcache_access_frame _ _ _ _ he
          have eo : g1.offset_len = g.offset_len := by rw [hfr]
          have ei : g1.icache = g.icache := by rw [hfr]
          have ec : g1.cur_time = (g.cur_time + 1) % 2 ^ 64 :=
            (dcache_access_counters _ _ _ _ he).1
          refine ⟨?_, k2.trans eo⟩
          simp only [List.map, icache_event]
          unfold level_run
          rw [← ec, ← eo, ← ei]
          exact k1
        · cases h
      · cases h

theorem run_trace_dcache (tr : List Access) :
    ∀ g lats g2, run_trace g tr = some (lats, g2) →
      level_run g.offset_len g.cur_time g.dcache (tr.map dcache_event) = some g2.dcache ∧
      g2.offset_len = g.offset_len := by
  induction tr with
  | nil =>
    intro g lats g2 h
    unfold run_trace at h
    cases h
    exact ⟨rfl, rfl⟩
  | cons e rest ih =>
    intro g lats g2 h
    cases e with
    | ifetch x =>
      unfold run_trace at h
      split at h
      · rename_i r g1 he
        split at h
        · rename_i rs g3 hrun
          cases h
          obtain ⟨k1, k2⟩ := ih _ _ _ hrun
          have hfr := icache_access_frame _ _ _ _ he
          have eo : g1.offset_len = g.offset_len := by rw [hfr]
          have ei : g1.dcache = g.dcache := by rw [hfr]
          have ec : g1.cur_time = (g.cur_time + 1) % 2 ^ 64 :=
            (icache_access_counters _ _ _ _ he).1
          refine ⟨?_, k2.trans eo⟩
          simp only [List.map, dcache_event]
          unfold level_run
          rw [← ec, ← eo, ← ei]
          exact k1
        · cases h
      · cases h
    | data x =>
      unfold run_trace at h
      split at h
      · rename_i r g1 he
        split at h
        · rename_i rs g3 hrun
          cases h
          obtain ⟨k1, k2⟩ := ih _ _ _ hrun
          have hfr := dcache_access_frame _ _ _ _ he
          have eo : g1.offset_len = g.offset_len := by rw [hfr]
          have ec : g1.cur_time = (g.cur_time + 1) % 2 ^ 64 :=
            (dcache_access_counters _ _ _ _ he).1
          have hp := (dcache_access_level _ _ _ _ he).1
          refine ⟨?_, k2.trans eo⟩
          simp only [List.map, dcache_event]
          unfold level_run
          rw [hp]
          simp only []
          rw [← ec, ← eo]
          exact k1
        · cases h
      · cases h

theorem run_trace_total (tr : List Access) :
    ∀ g, g.WF → ∃ lats g2, run_trace g tr = some (lats, g2) ∧ g2.WF := by
  induction tr with
  | nil => intro g hw; exact ⟨[], g, rfl, hw⟩
  | cons e rest ih =>
    intro g hw
    cases e with
    | ifetch x =>
      obtain ⟨r, g1, e1, hw1⟩ := icache_access_WF g x hw
      obtain ⟨rs, g2, e2, hw2⟩ := ih g1 hw1
      exact ⟨r :: rs, g2, by unfold run_trace; simp only [e1, e2], hw2⟩
    | data x =>
      obtain ⟨r, g1, e1, hw1⟩ := dcache_access_WF g x hw
      obtain ⟨rs, g2, e2, hw2⟩ := ih g1 hw1
      exact ⟨r :: rs, g2, by unfold run_trace; simp only [e1, e2], hw2⟩

/-- Retention at one level: after an access to `a` at clock `n + 1`, a run of
events whose conflicting tags are fewer than the ways leaves the line of `a`
resident. -/
theorem retention_after_access (offset_len n : Nat) (c c1 c2 : AssocCache) (a : Nat)
    (evs : List (Option Nat)) (hw : c.WF) (hd : no_dup c) (ht : times_ok n c)
    (hn : n + 1 + evs.length < 2 ^ 32)
    (hp : probe_commit offset_len (n + 1) c a = some c1)
    (hrun : level_run offset_len (n + 1) c1 evs = some c2)
    (hcard : (other_tags offset_len c a evs).card ≤ c.assoc - 1) :
    c2.WF ∧ c2.hit_time = c.hit_time ∧ resident offset_len c2 a := by
  obtain ⟨w, hwlt, hT, hGw, _, _⟩ := probe_commit_cells _ _ _ _ _ hw hp
  have h32 : (n + 1) % 2 ^ 32 = n + 1 := Nat.mod_eq_of_lt (by omega)
  rw [h32] at hT
  obtain ⟨g1, g2, g3, g4⟩ := probe_commit_geom _ _ _ _ _ hw hp
  have hinv : ∃ w, time_at c1 (get_index offset_len c a) w ≠ 0 ∧
      tag_at c1 (get_index offset_len c a) w = get_tag c a ∧
      ∀ v, time_at c1 (get_index offset_len c a) w < time_at c1 (get_index offset_len c a) v →
        tag_at c1 (get_index offset_len c a) v ∈ (∅ : Finset Nat) := by
    refine ⟨w, ?_, hGw, ?_⟩
    · rw [hT, if_pos ⟨rfl, rfl⟩]; omega
    · intro v hv
      exfalso
      rw [hT, if_pos ⟨rfl, rfl⟩, hT] at hv
      split at hv
      · omega
      · have := ht.1 (get_index offset_len c a) v
        omega
  have hc : ((∅ : Finset Nat) ∪ other_tags offset_len c a evs).card < c.assoc := by
    rw [Finset.empty_union]; omega
  obtain ⟨k1, k2, k3, k4, v, k5, k6⟩ := level_retention offset_len c a evs c1 (n + 1) ∅
    (probe_commit_WF _ _ _ _ _ hw hp) g1 g2 g3 (probe_commit_no_dup _ _ _ _ _ hw hd hp)
    (probe_commit_times_ok _ n _ _ _ _ hw ht (by omega) (by omega) hp) hn hinv hc c2 hrun
  refine ⟨k1, k4.trans g4, ?_⟩
  rw [resident_iff, get_index_congr offset_len c c2 a k2, get_tag_congr c c2 a k3]
  exact ⟨v, occupied_lt_assoc c2 k1 _ v k5, k5, k6⟩

/-- C18 (LRU retention). Let `g` be reached from `init_cache` by `n`
first-level accesses, let `a` be accessed next through a first-level cache, and
let `tr` be any later run of first-level accesses (through either cache, to any
sets) with every timestamp written below `2^32`. If the accesses of `tr` through
that same cache that map to the set of `a` carry at most `assoc - 1` distinct
tags other than the tag of `a`, then both accesses and the run return, the line
of `a` is resident afterwards, and the next access to `a` through that cache
returns exactly the hit time of that cache. Stated for the instruction cache
and for the data cache. -/
theorem lru_retention (n : Nat) (g : Globals) (a : Nat) (tr : List Access)
    (h : Reachable n g) (hn : n + 1 + tr.length < 2 ^ 32) :
    ((other_tags g.offset_len g.icache a (tr.map icache_event)).card ≤ g.icache.assoc - 1 →
      ∃ r1 g1 lats g2 g3, icache_access g a = some (r1, g1) ∧
        run_trace g1 tr = some (lats, g2) ∧ resident g2.offset_len g2.icache a ∧
        icache_access g2 a = some (g.icache.hit_time, g3)) ∧
    ((other_tags g.offset_len g.dcache a (tr.map dcache_event)).card ≤ g.dcache.assoc - 1 →
      ∃ r1 g1 lats g2 g3, dcache_access g a = some (r1, g1) ∧
        run_trace g1 tr = some (lats, g2) ∧ resident g2.offset_len g2.dcache a ∧
        dcache_access g2 a = some (g.dcache.hit_time, g3)) := by
  have hw := reachable_WF n g h
  have hct : g.cur_time = n := (reachable_counters n g h (by omega)).1
  have hmod : (n + 1) % 2 ^ 64 = n + 1 := Nat.mod_eq_of_lt (by omega)
  obtain ⟨d1, d2, _⟩ := reachable_no_dup n g h
  obtain ⟨t1, t2, _⟩ := reachable_times_ok n g h (by omega)
  constructor
  · intro hcard
    obtain ⟨r1, g1, e1, hw1⟩ := icache_access_WF g a hw
    obtain ⟨lats, g2, e2, hw2⟩ := run_trace_total tr g1 hw1
    have hp := (icache_access_level _ _ _ _ e1).1
    have ec : g1.cur_time = (g.cur_time + 1) % 2 ^ 64 := (icache_access_counters _ _ _ _ e1).1
    have hfr := icache_access_frame _ _ _ _ e1
    have eo : g1.offset_len = g.offset_len := by rw [hfr]
    obtain ⟨l1, l2⟩ := run_trace_icache tr g1 lats g2 e2
    rw [hct, hmod] at hp ec
    rw [ec, eo] at l1
    obtain ⟨k1, k2, k3⟩ := retention_after_access g.offset_len n g.icache g1.icache g2.icache a
      (tr.map icache_event) hw.1 d1 t1 (by rw [List.length_map]; exact hn) hp l1 hcard
    have hres : resident g2.offset_len g2.icache a := by rw [l2, eo]; exact k3
    obtain ⟨i, _, _, e3⟩ := icache_access_hit g2 a hw2.1 hres
    rw [k2] at e3
    exact ⟨r1, g1, lats, g2, _, e1, e2, hres, e3⟩
  · intro hcard
    obtain ⟨r1, g1, e1, hw1⟩ := dcache_access_WF g a hw
    obtain ⟨lats, g2, e2, hw2⟩ := run_trace_total tr g1 hw1
    have hp := (dcache_access_level _ _ _ _ e1).1
    have ec : g1.cur_time = (g.cur_time + 1) % 2 ^ 64 := (dcache_access_counters _ _ _ _ e1).1
    have hfr := dcache_access_frame _ _ _ _ e1
    have eo : g1.offset_len = g.offset_len := by rw [hfr]
    obtain ⟨l1, l2⟩ := run_trace_dcache tr g1 lats g2 e2
    rw [hct, hmod] at hp ec
    rw [ec, eo] at l1
    obtain ⟨k1, k2, k3⟩ := retention_after_access g.offset_len n g.dcache g1.dcache g2.dcache a
      (tr.map dcache_event) hw.2.1 d2 t2 (by rw [List.length_map]; exact hn) hp l1 hcard
    have hres : resident g2.offset_len g2.dcache a := by rw [l2, eo]; exact k3
    obtain ⟨i, _, _, e3⟩ := dcache_access_hit g2 a hw2.2.1 hres
    rw [k2] at e3
    exact ⟨r1, g1, lats, g2, _, e1, e2, hres, e3⟩

/-- Witness of C18 on the two-way instruction cache of `incl_fresh`: after
`icache_access(0)`, an instruction fetch of the conflicting line 1 and a data
access leave the line of 0 resident. -/
theorem lru_retention_witness :
    Reachable 0 incl_fresh ∧
    ∃ r1 g1 lats g2 g3, icache_access incl_fresh 0 = some (r1, g1) ∧
      run_trace g1 [Access.ifetch 1, Access.data 5] = some (lats, g2) ∧
      resident g2.offset_len g2.icache 0 ∧
      icache_access g2 0 = some (incl_fresh.icache.hit_time, g3) :=
  ⟨Reachable.init incl_config incl_fresh rfl (by decide) (by decide),
    (lru_retention 0 incl_fresh 0 [Access.ifetch 1, Access.data 5]
      (Reachable.init incl_config incl_fresh rfl (by decide) (by decide)) (by decide)).1
      (by decide)⟩

end CacheSim
